import Mathlib

/-!
Verification of the nested-span annotation codec and evaluators of the
CLASSIG pipeline (src/annotations.py, src/helper_functions.py,
src/evaluation.py, src/C6C/src/document.py).

The Python data model and operations are shallowly embedded as Lean
definitions; fallible Python code (statements that can raise exceptions)
is embedded in the `Except String` monad, where the error string names
the Python exception class.
-/

/-- Decidable equality for `Except` results. -/
instance exceptDecEq {ε α : Type} [DecidableEq ε] [DecidableEq α] :
    DecidableEq (Except ε α)
  | .ok a, .ok b =>
    if h : a = b then .isTrue (by rw [h]) else .isFalse (by simp [h])
  | .error e, .error f =>
    if h : e = f then .isTrue (by rw [h]) else .isFalse (by simp [h])
  | .ok _, .error _ => .isFalse (by simp)
  | .error _, .ok _ => .isFalse (by simp)

namespace Classig

/-! ## String primitives

The Lean core versions of `trim`/`splitOn`/`startsWith`/`toInt?` are
implemented on byte positions and do not evaluate inside the kernel, so
the Python string operations used by the pipeline are re-implemented
here over character lists. -/

def charListPrefix : List Char → List Char → Bool
  | [], _ => true
  | _ :: _, [] => false
  | p :: ps, c :: cs => p = c && charListPrefix ps cs

/-- Python `s.startswith(pre)`. -/
def strStartsWith (s pre : String) : Bool :=
  charListPrefix pre.data s.data

def trimCharList (l : List Char) : List Char :=
  ((l.dropWhile Char.isWhitespace).reverse.dropWhile Char.isWhitespace).reverse

/-- Python `s.strip()`. -/
def pyStrip (s : String) : String :=
  ⟨trimCharList s.data⟩

def splitOnChar (sep : Char) (l : List Char) : List (List Char) :=
  l.foldr
    (fun c acc =>
      match acc with
      | [] => if c = sep then [[], []] else [[c]]
      | cur :: rest => if c = sep then [] :: cur :: rest else (c :: cur) :: rest)
    [[]]

/-- Python `s.split(sep)` for a one-character separator. -/
def pySplit (s : String) (sep : Char) : List String :=
  (splitOnChar sep s.data).map String.mk

/-! ## Python primitives -/

def digitVal (c : Char) : Option Nat :=
  if c.isDigit then some (c.toNat - '0'.toNat) else none

def parseDigits : List Char → Option Nat → Option Nat
  | [], acc => acc
  | c :: rest, acc =>
    match digitVal c, acc with
    | some d, some a => parseDigits rest (some (a * 10 + d))
    | some d, none => parseDigits rest (some d)
    | none, _ => none

/-- Python `int(s)`: parse an integer from a string, allowing surrounding
whitespace and a sign.  `none` models a raised `ValueError`. -/
def pyInt? (s : String) : Option Int :=
  match (pyStrip s).data with
  | '-' :: rest => (parseDigits rest none).map (fun n => -(n : Int))
  | '+' :: rest => (parseDigits rest none).map (fun n => (n : Int))
  | l => (parseDigits l none).map (fun n => (n : Int))

/-- Python `list.insert(i, x)` semantics: a negative index counts from the
end and is clamped at 0; an index beyond the length is clamped to the
length (the element is appended).  `list.insert` never raises. -/
def pyListInsert {α : Type} (l : List α) (i : Int) (x : α) : List α :=
  let n : Int := l.length
  let j : Int := if i < 0 then max (i + n) 0 else min i n
  l.take j.toNat ++ [x] ++ l.drop j.toNat

/-- Python `a <= b` on two `int`-or-`None` values: comparing `None`
raises a `TypeError`. -/
def pyLeOpt (a b : Option Int) : Except String Bool :=
  match a, b with
  | some x, some y => .ok (decide (x ≤ y))
  | _, _ => .error "TypeError: comparison with None"

/-- Python `a >= b` on two `int`-or-`None` values. -/
def pyGeOpt (a b : Option Int) : Except String Bool :=
  match a, b with
  | some x, some y => .ok (decide (x ≥ y))
  | _, _ => .error "TypeError: comparison with None"

/-- Python `a > b` on an `int` and an `int`-or-`None` value. -/
def pyGtIntOpt (a : Int) (b : Option Int) : Except String Bool :=
  match b with
  | some y => .ok (decide (a > y))
  | none => .error "TypeError: comparison with None"

/-- Python `a < b` on an `int` and an `int`-or-`None` value. -/
def pyLtIntOpt (a : Int) (b : Option Int) : Except String Bool :=
  match b with
  | some y => .ok (decide (a < y))
  | none => .error "TypeError: comparison with None"

/-! ## Tokens

`document.py` `Token` objects carry an open attribute set; the span data
model reads only the attributes `ID` (1-based position, string-typed) and
`XPOS` (the tag whose first character `$` marks punctuation).  Both are
modelled as always-present string fields. -/

structure AnnToken where
  ID : String
  XPOS : String
deriving DecidableEq, Repr

/-- A token is punctuation when its XPOS tag starts with `$`
(`t.XPOS.startswith("$")` in the source). -/
def AnnToken.isPunct (t : AnnToken) : Bool :=
  strStartsWith t.XPOS "$"

/-! ## `annotations.Span`

A `Span` owns an ordered list of elements (tokens or nested spans) and
caches zero-based `start`/`end` token indices.  `Span.__init__` only
creates the `start`/`end` attributes when at least one element is
appended, so the caches are modelled as `Option (Option Int)`:
`none` = the attribute was never created (accessing it raises
`AttributeError`), `some v` = the attribute holds `v`
(`v = none` models the Python value `None`).
The parent back-reference is used only for upward navigation and plays no
role in any verified operation, so it is not part of the state. -/

inductive ASpan where
  | node (lab : String) (elems : List (AnnToken ⊕ ASpan))
      (cachedStart : Option (Option Int)) (cachedEnd : Option (Option Int))

def ASpan.lab : ASpan → String
  | .node l _ _ _ => l

def ASpan.elems : ASpan → List (AnnToken ⊕ ASpan)
  | .node _ es _ _ => es

def ASpan.cachedStart : ASpan → Option (Option Int)
  | .node _ _ cs _ => cs

def ASpan.cachedEnd : ASpan → Option (Option Int)
  | .node _ _ _ ce => ce

mutual

/-- `Span.get_tokens`: the tokens of a span, in element order, recursing
into nested spans. -/
def ASpan.getTokens : ASpan → List AnnToken
  | .node _ es _ _ => ASpan.getTokensElems es

def ASpan.getTokensElems : List (AnnToken ⊕ ASpan) → List AnnToken
  | [] => []
  | .inl t :: rest => t :: ASpan.getTokensElems rest
  | .inr s :: rest => s.getTokens ++ ASpan.getTokensElems rest

end

/-- The start index `Span.update_start_index` computes for one span:
zero-based index of the first included token (`int(ID)-1`), or `None` if
there is no element or no token.  A non-numeric (truthy) ID raises an
uncaught `ValueError` in the source. -/
def ASpan.computedStart (s : ASpan) : Except String (Option Int) :=
  if s.elems.isEmpty then .ok none
  else
    match s.getTokens with
    | [] => .ok none
    | t :: _ =>
      if t.ID = "" then .ok none
      else
        match pyInt? t.ID with
        | some n => .ok (some (n - 1))
        | none => .error "ValueError: invalid literal for int()"

/-- The end index `Span.update_end_index` computes for one span
(zero-based index of the last included token). -/
def ASpan.computedEnd (s : ASpan) : Except String (Option Int) :=
  if s.elems.isEmpty then .ok none
  else
    match s.getTokens.getLast? with
    | none => .ok none
    | some t =>
      if t.ID = "" then .ok none
      else
        match pyInt? t.ID with
        | some n => .ok (some (n - 1))
        | none => .error "ValueError: invalid literal for int()"

mutual

/-- `Span.update_start_index`: store the computed start index in the
cache and recurse into all nested spans. -/
def ASpan.updateStartIndex : ASpan → Except String ASpan
  | .node l es cs ce => do
    let self : ASpan := .node l es cs ce
    let v ← self.computedStart
    let es1 ←
      if es.isEmpty then pure es
      else ASpan.updateStartIndexElems es
    pure (.node l es1 (some v) ce)

def ASpan.updateStartIndexElems :
    List (AnnToken ⊕ ASpan) → Except String (List (AnnToken ⊕ ASpan))
  | [] => pure []
  | .inl t :: rest => do
    let rest1 ← ASpan.updateStartIndexElems rest
    pure (.inl t :: rest1)
  | .inr s :: rest => do
    let s1 ← s.updateStartIndex
    let rest1 ← ASpan.updateStartIndexElems rest
    pure (.inr s1 :: rest1)

end

mutual

/-- `Span.update_end_index`: store the computed end index in the cache
and recurse into all nested spans. -/
def ASpan.updateEndIndex : ASpan → Except String ASpan
  | .node l es cs ce => do
    let self : ASpan := .node l es cs ce
    let v ← self.computedEnd
    let es1 ←
      if es.isEmpty then pure es
      else ASpan.updateEndIndexElems es
    pure (.node l es1 cs (some v))

def ASpan.updateEndIndexElems :
    List (AnnToken ⊕ ASpan) → Except String (List (AnnToken ⊕ ASpan))
  | [] => pure []
  | .inl t :: rest => do
    let rest1 ← ASpan.updateEndIndexElems rest
    pure (.inl t :: rest1)
  | .inr s :: rest => do
    let s1 ← s.updateEndIndex
    let rest1 ← ASpan.updateEndIndexElems rest
    pure (.inr s1 :: rest1)

end

/-- `Span.get_start_index(ignore_punct=False)`: read the cached start
index, recomputing it first when the cache holds `None`.  If the `start`
attribute was never created (empty construction), Python raises an
`AttributeError`. -/
def ASpan.getStartIndexDefault (s : ASpan) : Except String (Option Int) :=
  match s.cachedStart with
  | none => .error "AttributeError: start"
  | some v =>
    match v with
    | none => s.computedStart
    | some n => .ok (some n)

/-- `Span.get_end_index(ignore_punct=False)`. -/
def ASpan.getEndIndexDefault (s : ASpan) : Except String (Option Int) :=
  match s.cachedEnd with
  | none => .error "AttributeError: end"
  | some v =>
    match v with
    | none => s.computedEnd
    | some n => .ok (some n)

/-- The scanning loop of `Span.get_start_index(ignore_punct=True)`:
return `int(ID)-1` of the first non-punctuation token, `None` when all
tokens are punctuation. -/
def ASpan.firstWordIndex : List AnnToken → Except String (Option Int)
  | [] => .ok none
  | t :: rest =>
    if t.isPunct then ASpan.firstWordIndex rest
    else
      match pyInt? t.ID with
      | some n => .ok (some (n - 1))
      | none => .error "ValueError: invalid literal for int()"

/-- `Span.get_start_index(ignore_punct=True)`: index of the first word
token (skipping punctuation); `None` when the span has no elements, no
tokens, or only punctuation tokens.  There is no fallback to the
punctuation-inclusive result. -/
def ASpan.getStartIndexIP (s : ASpan) : Except String (Option Int) :=
  if s.elems.isEmpty then .ok none
  else
    match s.getTokens with
    | [] => .ok none
    | toks => ASpan.firstWordIndex toks

/-- `Span.get_end_index(ignore_punct=True)`: like `getStartIndexIP` but
scanning the reversed token list. -/
def ASpan.getEndIndexIP (s : ASpan) : Except String (Option Int) :=
  if s.elems.isEmpty then .ok none
  else
    match s.getTokens with
    | [] => .ok none
    | toks => ASpan.firstWordIndex toks.reverse

/-- `Span.includes_span`: compute the punctuation-ignoring start/end
indices of both spans, then test
`start_s1 <= start_s2 and end_s1 >= end_s2` with Python comparison
semantics (comparing `None` raises `TypeError`; `and` short-circuits). -/
def ASpan.includesSpan (s1 s2 : ASpan) : Except String Bool := do
  let startS1 ← s1.getStartIndexIP
  let endS1 ← s1.getEndIndexIP
  let startS2 ← s2.getStartIndexIP
  let endS2 ← s2.getEndIndexIP
  let c1 ← pyLeOpt startS1 startS2
  if c1 then
    pyGeOpt endS1 endS2
  else
    pure false

/-- `Span.__init__(label, elements)` for an empty element list: the
element loop never runs, so neither `self.start` nor `self.end` is ever
created. -/
def ASpan.initEmpty (label : String) : ASpan :=
  .node label [] none none

/-- `Span.set_elements`: replace the elements and refresh both caches. -/
def ASpan.setElements (s : ASpan) (es : List (AnnToken ⊕ ASpan)) :
    Except String ASpan := do
  let s1 : ASpan := .node s.lab es s.cachedStart s.cachedEnd
  let s2 ← s1.updateStartIndex
  s2.updateEndIndex

/-- `Span.append_element`: append one element; on the first element this
goes through `set_elements` and refreshes both caches, afterwards only
the end cache is refreshed. -/
def ASpan.appendElement (s : ASpan) (e : AnnToken ⊕ ASpan) :
    Except String ASpan := do
  if s.elems.isEmpty then
    let s1 ← s.setElements [e]
    let s2 ← s1.updateStartIndex
    s2.updateStartIndex
  else
    let s1 : ASpan := .node s.lab (s.elems ++ [e]) s.cachedStart s.cachedEnd
    s1.updateEndIndex

/-- `Span.insert_element(index, element)`: indices strictly below the
length insert in place, an index equal to the length appends, and a
larger index only prints a warning and returns `None`, leaving the span
unchanged (the caller receives `None` in every branch). -/
def ASpan.insertElement (s : ASpan) (index : Int) (e : AnnToken ⊕ ASpan) :
    Except String ASpan := do
  if index < (s.elems.length : Int) then
    let s1 : ASpan :=
      .node s.lab (pyListInsert s.elems index e) s.cachedStart s.cachedEnd
    let s2 ← s1.updateStartIndex
    s2.updateEndIndex
  else if index = (s.elems.length : Int) then
    let s1 ← s.appendElement e
    let s2 ← s1.updateStartIndex
    s2.updateEndIndex
  else
    pure s

/-! ## `document.py` `Tree`

A constituency tree node: terminal nodes (no children) may carry a token
attribute; `terminals` collects the terminal frontier. -/

inductive DocTree where
  | node (token? : Option AnnToken) (children : List DocTree)

def DocTree.token? : DocTree → Option AnnToken
  | .node t _ => t

def DocTree.children : DocTree → List DocTree
  | .node _ cs => cs

mutual

/-- `Tree.terminals`: a node without children is its own terminal
frontier, otherwise collect the children's frontiers. -/
def DocTree.terminals : DocTree → List DocTree
  | .node t cs =>
    match cs with
    | [] => [.node t []]
    | c :: rest => DocTree.terminalsList (c :: rest)

def DocTree.terminalsList : List DocTree → List DocTree
  | [] => []
  | c :: rest => c.terminals ++ DocTree.terminalsList rest

end

/-- Terminals that carry a token whose tag is not punctuation
(the `no_punct_terminals` list comprehension). -/
def DocTree.noPunctTerminals (t : DocTree) : List DocTree :=
  t.terminals.filter fun term =>
    match term.token? with
    | some tok => !tok.isPunct
    | none => false

/-- `int(terminal.token.ID) - 1` with the `ValueError` caught and turned
into `None`; a terminal without token yields `None` as well. -/
def DocTree.terminalIndex (term : DocTree) : Option Int :=
  match term.token? with
  | some tok =>
    match pyInt? tok.ID with
    | some n => some (n - 1)
    | none => none
  | none => none

/-- `Tree.get_start_index(ignore_punct)`: index of the first dominated
token.  With `ignore_punct=True` the first non-punctuation terminal is
used; when only punctuation (or token-less) terminals exist, the code
falls through to the punctuation-inclusive branch. -/
def DocTree.getStartIndex (t : DocTree) (ignorePunct : Bool) : Option Int :=
  match t.terminals with
  | [] => none
  | first :: _ =>
    if ignorePunct then
      match t.noPunctTerminals with
      | firstNp :: _ => firstNp.terminalIndex
      | [] => first.terminalIndex
    else first.terminalIndex

/-- `Tree.get_end_index(ignore_punct)`: index of the last dominated
token, with the same punctuation fallback. -/
def DocTree.getEndIndex (t : DocTree) (ignorePunct : Bool) : Option Int :=
  match t.terminals.getLast? with
  | none => none
  | some last =>
    if ignorePunct then
      match t.noPunctTerminals.getLast? with
      | some lastNp => lastNp.terminalIndex
      | none => last.terminalIndex
    else last.terminalIndex

/-- `Tree.insert_child(index, node)`: delegates to `list.insert`, which
never raises `IndexError`, so the `except` branch is dead code and the
method always returns `True`; an index beyond the length appends. -/
def DocTree.insertChild (t : DocTree) (index : Int) (c : DocTree) :
    DocTree × Bool :=
  (.node t.token? (pyListInsert t.children index c), true)

/-- `Tree.includes_span(span)`: same comparison as
`Span.includes_span`, with the tree's indices on the left. -/
def DocTree.includesSpan (t : DocTree) (s : ASpan) : Except String Bool := do
  let startS2 ← s.getStartIndexIP
  let endS2 ← s.getEndIndexIP
  let c1 ← pyLeOpt (t.getStartIndex true) startS2
  if c1 then
    pyGeOpt (t.getEndIndex true) endS2
  else
    pure false

end Classig

/-! ## Helper lemmas shared by several claims -/

theorem firstWordIndex_all_punct (l : List Classig.AnnToken)
    (h : ∀ t ∈ l, t.isPunct = true) :
    Classig.ASpan.firstWordIndex l = .ok none := by
  induction l with
  | nil => rfl
  | cons t rest ih =>
    have ht : t.isPunct = true := h t (List.mem_cons_self t rest)
    simp only [Classig.ASpan.firstWordIndex, ht, if_pos]
    exact ih fun x hx => h x (List.mem_cons_of_mem t hx)

theorem pyListInsert_ge {α : Type} (l : List α) (i : Int) (x : α)
    (h : i ≥ (l.length : Int)) :
    Classig.pyListInsert l i x = l ++ [x] := by
  have h0 : ¬ i < 0 := by
    intro hc
    have : (0 : Int) ≤ l.length := by positivity
    omega
  simp only [Classig.pyListInsert, if_neg h0]
  have hmin : min i (l.length : Int) = (l.length : Int) := min_eq_right h
  rw [hmin]
  simp

/-! ## Claim C10 -/

/-- C10: a `Span` constructed with an empty element list never creates
the cached `start`/`end` attributes, so `get_start_index()` and
`get_end_index()` with the default punctuation-inclusive setting raise
an `AttributeError`, while the same calls with `ignore_punct=True`
return the absent value `None`. -/
theorem C10_empty_span_index_access (lab : String) :
    (Classig.ASpan.initEmpty lab).getStartIndexDefault
        = .error "AttributeError: start"
    ∧ (Classig.ASpan.initEmpty lab).getEndIndexDefault
        = .error "AttributeError: end"
    ∧ (Classig.ASpan.initEmpty lab).getStartIndexIP = .ok none
    ∧ (Classig.ASpan.initEmpty lab).getEndIndexIP = .ok none :=
  ⟨rfl, rfl, rfl, rfl⟩

/-! ## Claim C4 -/

/-- A span holding a single punctuation token (ID "3", tag `$.`), with
up-to-date caches. -/
def punctOnlySpan : Classig.ASpan :=
  .node "NP" [Sum.inl ⟨"3", "$."⟩] (some (some 2)) (some (some 2))

/-- C4 counterexample: for `Span.get_start_index(ignore_punct=True)` on
a span whose punctuation-exclusion leaves no tokens, the claim predicts
the punctuation-inclusive result (index 2 here), but the code returns
the absent value `None`. -/
theorem C4_counterexample :
    punctOnlySpan.getStartIndexIP = .ok none
    ∧ punctOnlySpan.getStartIndexDefault = .ok (some 2)
    ∧ (Except.ok (none : Option Int) : Except String (Option Int))
        ≠ .ok (some 2) := by
  refine ⟨by decide, by decide, by simp⟩

/-- C4 amended: the punctuation fallback exists only in
`Tree.get_start_index`/`Tree.get_end_index` (document.py): when
punctuation-exclusion leaves no terminals, they return the
punctuation-inclusive result, and when no terminal carries a token they
return the absent value.  `Span.get_start_index`/`Span.get_end_index`
(annotations.py) instead return the absent value `None` whenever
punctuation-exclusion leaves no tokens (with no fallback). -/
theorem C4_amended :
    (∀ s : Classig.ASpan, (∀ t ∈ s.getTokens, t.isPunct = true) →
      s.getStartIndexIP = .ok none ∧ s.getEndIndexIP = .ok none)
    ∧ (∀ t : Classig.DocTree, t.noPunctTerminals = [] →
      t.getStartIndex true = t.getStartIndex false
      ∧ t.getEndIndex true = t.getEndIndex false)
    ∧ (∀ t : Classig.DocTree, (∀ term ∈ t.terminals, term.token? = none) →
      t.getStartIndex true = none ∧ t.getEndIndex true = none) := by
  refine ⟨?_, ?_, ?_⟩
  · intro s h
    constructor
    · rw [Classig.ASpan.getStartIndexIP]
      split
      · rfl
      · cases htoks : s.getTokens with
        | nil => simp
        | cons t rest =>
          simp only []
          rw [htoks] at h
          exact firstWordIndex_all_punct _ h
    · rw [Classig.ASpan.getEndIndexIP]
      split
      · rfl
      · cases htoks : s.getTokens with
        | nil => simp
        | cons t rest =>
          simp only []
          refine firstWordIndex_all_punct _ ?_
          intro x hx
          rw [htoks] at h
          exact h x (List.mem_reverse.mp hx)
  · intro t h
    constructor
    · rw [Classig.DocTree.getStartIndex, Classig.DocTree.getStartIndex]
      cases hterm : t.terminals with
      | nil => rfl
      | cons first rest => simp [h]
    · rw [Classig.DocTree.getEndIndex, Classig.DocTree.getEndIndex]
      cases hterm : t.terminals.getLast? with
      | none => rfl
      | some last => simp [h]
  · intro t h
    have hnp : t.noPunctTerminals = [] := by
      rw [Classig.DocTree.noPunctTerminals]
      rw [List.filter_eq_nil_iff]
      intro term hterm
      rw [h term hterm]
      simp
    constructor
    · rw [Classig.DocTree.getStartIndex]
      cases hterm : t.terminals with
      | nil => rfl
      | cons first rest =>
        have hfirst : first ∈ t.terminals := by
          rw [hterm]; exact List.mem_cons_self _ _
        simp only [hnp]
        rw [Classig.DocTree.terminalIndex, h first hfirst]
        simp
    · rw [Classig.DocTree.getEndIndex]
      cases hterm : t.terminals.getLast? with
      | none => rfl
      | some last =>
        have hlast : last ∈ t.terminals := by
          have hmem : last ∈ t.terminals.getLast? := by rw [hterm]; rfl
          obtain ⟨hne, heq⟩ := List.mem_getLast?_eq_getLast hmem
          rw [heq]
          exact List.getLast_mem hne
        simp only [hnp, List.getLast?_nil]
        rw [Classig.DocTree.terminalIndex, h last hlast]
        simp

/-- A tree with one punctuation terminal and one token-less terminal. -/
def punctOnlyTree : Classig.DocTree :=
  .node none [.node (some ⟨"2", "$,"⟩) [], .node none []]

/-- C4 witness: the amended statement applied at concrete inputs. -/
theorem C4_witness :
    punctOnlySpan.getEndIndexIP = .ok none
    ∧ punctOnlyTree.getStartIndex true = punctOnlyTree.getStartIndex false :=
  ⟨(C4_amended.1 punctOnlySpan (by decide)).2,
   (C4_amended.2.1 punctOnlyTree rfl).1⟩

/-! ## Claim C5 -/

/-- A tree with a single terminal child. -/
def oneChildTree : Classig.DocTree :=
  .node none [.node (some ⟨"1", "N"⟩) []]

/-- The node inserted in the C5 counterexample. -/
def insertedNode : Classig.DocTree :=
  .node (some ⟨"2", "N"⟩) []

/-- C5 counterexample: `Tree.insert_child` at index 5 on a tree with one
child does not fail with an `IndexError`-equivalent; `list.insert` clamps
the index, so the node is silently appended and the method reports
success (`True`). -/
theorem C5_counterexample :
    oneChildTree.insertChild 5 insertedNode
      = (.node none [.node (some ⟨"1", "N"⟩) [], insertedNode], true) := by
  rfl

/-- C5 amended: `Span.insert_element` (annotations.py) at an index
strictly beyond the length leaves the span unchanged and returns without
raising (only a warning is printed; the caller receives the same `None`
as on success), while `Tree.insert_child` (document.py) clamps any index
at or beyond the length, silently appends the node, and returns `True`;
neither operation signals an `IndexError`-equivalent to the caller. -/
theorem C5_amended :
    (∀ (s : Classig.ASpan) (i : Int) (e : Classig.AnnToken ⊕ Classig.ASpan),
      i > (s.elems.length : Int) → s.insertElement i e = .ok s)
    ∧ (∀ (t : Classig.DocTree) (i : Int) (c : Classig.DocTree),
      i ≥ (t.children.length : Int) →
        t.insertChild i c = (.node t.token? (t.children ++ [c]), true)) := by
  constructor
  · intro s i e h
    rw [Classig.ASpan.insertElement]
    have h1 : ¬ i < (s.elems.length : Int) := by omega
    have h2 : ¬ i = (s.elems.length : Int) := by omega
    simp [h1, h2]
    rfl
  · intro t i c h
    rw [Classig.DocTree.insertChild, pyListInsert_ge _ _ _ h]

/-- C5 witness: the amended statement applied at concrete inputs. -/
theorem C5_witness :
    punctOnlySpan.insertElement 7 (Sum.inl ⟨"9", "N"⟩) = .ok punctOnlySpan
    ∧ oneChildTree.insertChild 5 insertedNode
        = (.node oneChildTree.token? (oneChildTree.children ++ [insertedNode]),
           true) :=
  ⟨C5_amended.1 punctOnlySpan 7 (Sum.inl ⟨"9", "N"⟩) (by decide),
   C5_amended.2 oneChildTree 5 insertedNode (by decide)⟩

/-! ## Claim C6 -/

/-- A span holding a single punctuation token with ID "1". -/
def punctSpanA : Classig.ASpan :=
  .node "NP" [Sum.inl ⟨"1", "$,"⟩] (some (some 0)) (some (some 0))

/-- A span holding a single punctuation token with ID "2". -/
def punctSpanB : Classig.ASpan :=
  .node "PP" [Sum.inl ⟨"2", "$,"⟩] (some (some 1)) (some (some 1))

/-- C6: when the punctuation-ignoring indices are absent (`None`),
`Span.includes_span` and `Tree.includes_span` evaluate
`None <= None`, which raises a `TypeError` instead of returning `False`
as the claim (and the specification's error-handling section) requires.
Both spans here contain only punctuation, so all four indices are
absent. -/
theorem C6_includes_span_raises :
    punctSpanA.includesSpan punctSpanB
      = .error "TypeError: comparison with None"
    ∧ (Classig.DocTree.node (some ⟨"1", "$,"⟩) []).includesSpan punctSpanB
      = .error "TypeError: comparison with None" := by
  exact ⟨by decide, by decide⟩

/-! ## Claim C7: `helper_functions.add_dict`

Python values that can appear in the merged dictionaries: numbers,
strings, lists, sets, and nested dictionaries.  Numeric values are
modelled as integers (the source sums `int` and `float` with `+`);
a set is modelled as its element list in iteration order.  A dictionary
is its key/value list in insertion order (keys are unique). -/

inductive PyVal where
  | int (n : Int)
  | str (s : String)
  | list (l : List PyVal)
  | set (s : List PyVal)
  | dict (d : List (String × PyVal))

/-- A Python dict: key/value pairs in insertion order. -/
abbrev PyDict := List (String × PyVal)

mutual

def pyValBeq : PyVal → PyVal → Bool
  | .int a, .int b => a == b
  | .str a, .str b => a == b
  | .list a, .list b => pyListBeq a b
  | .set a, .set b => pyListBeq a b
  | .dict a, .dict b => pyDictBeq a b
  | _, _ => false

def pyListBeq : List PyVal → List PyVal → Bool
  | [], [] => true
  | a :: as1, b :: bs => pyValBeq a b && pyListBeq as1 bs
  | _, _ => false

def pyDictBeq : List (String × PyVal) → List (String × PyVal) → Bool
  | [], [] => true
  | (k, v) :: r, (k2, v2) :: r2 => k == k2 && pyValBeq v v2 && pyDictBeq r r2
  | _, _ => false

end

/-- Python `set.update`: add the elements of `val` that are not already
members of `base`, keeping `base`'s iteration order first. -/
def pySetUnion (base val : List PyVal) : List PyVal :=
  base ++ val.filter (fun x => !(base.any (pyValBeq x)))

mutual

/-- The value-combination rule of `add_dict` for a key present in both
dictionaries: integers/floats are summed, lists concatenated, sets
unioned, dictionaries merged recursively; any other type combination
leaves the base value unchanged. -/
def addVal : PyVal → PyVal → PyVal
  | .int a, .int b => .int (a + b)
  | .list a, .list b => .list (a ++ b)
  | .set a, .set b => .set (pySetUnion a b)
  | .dict a, .dict b => .dict (addDict a b)
  | a, _ => a
termination_by a b => (sizeOf b, 1, 0)

/-- One iteration of the `add_dict` loop: combine `v` into the entry of
`base` with key `k`, or append a new entry (`deepcopy` of `v`) when the
key is absent. -/
def dictAddEntry : PyDict → String → PyVal → PyDict
  | [], k, v => [(k, v)]
  | (k0, v0) :: r, k, v =>
    if k0 = k then (k0, addVal v0 v) :: r else (k0, v0) :: dictAddEntry r k v
termination_by base k v => (sizeOf v, 2, sizeOf base)

/-- `add_dict(base_dict, dict_to_add)`: fold every entry of the second
dictionary into the first. -/
def addDict : PyDict → PyDict → PyDict
  | base, [] => base
  | base, (k, v) :: rest => addDict (dictAddEntry base k v) rest
termination_by base toAdd => (sizeOf toAdd, 3, 0)

end

def dictLookup : PyDict → String → Option PyVal
  | [], _ => none
  | (k0, v0) :: r, k => if k0 = k then some v0 else dictLookup r k

def dictKeys (d : PyDict) : List String :=
  d.map Prod.fst

theorem dictLookup_eq_none_of_not_mem_keys (d : PyDict) (k : String)
    (h : k ∉ dictKeys d) : dictLookup d k = none := by
  induction d with
  | nil => rfl
  | cons e r ih =>
    obtain ⟨k0, v0⟩ := e
    rw [dictLookup]
    rw [dictKeys, List.map_cons] at h
    have hne : k0 ≠ k := by
      intro hc; exact h (hc ▸ List.mem_cons_self _ _)
    rw [if_neg hne]
    refine ih ?_
    intro hc
    exact h (List.mem_cons_of_mem _ hc)

theorem dictLookup_dictAddEntry (base : PyDict) (k0 : String) (v0 : PyVal)
    (k : String) :
    dictLookup (dictAddEntry base k0 v0) k =
      if k = k0 then
        match dictLookup base k0 with
        | some bv => some (addVal bv v0)
        | none => some v0
      else dictLookup base k := by
  induction base with
  | nil =>
    by_cases h : k = k0
    · subst h; simp [dictAddEntry, dictLookup]
    · have h2 : k0 ≠ k := fun hc => h hc.symm
      simp [dictAddEntry, dictLookup, h, h2]
  | cons e r ih =>
    obtain ⟨k1, v1⟩ := e
    by_cases h1 : k1 = k0
    · subst h1
      by_cases h : k = k1
      · subst h
        simp [dictAddEntry, dictLookup]
      · have h2 : k1 ≠ k := fun hc => h hc.symm
        simp [dictAddEntry, dictLookup, h, h2]
    · by_cases h : k = k1
      · subst h
        simp [dictAddEntry, dictLookup, h1]
      · have h2 : k1 ≠ k := fun hc => h hc.symm
        rw [dictAddEntry, if_neg h1]
        simp only [dictLookup, if_neg h2]
        rw [ih]
        simp [h1]

/-- C7: key-wise characterization of the additive merge: after
`add_dict(base, toAdd)` (with `toAdd`'s keys unique, as for a Python
dict), every key maps to the base value combined with the added value
(integers summed, lists concatenated, sets unioned, dictionaries merged
recursively); keys absent from the base are inserted with the added
value, keys absent from `toAdd` keep the base value. -/
theorem C7_additive_merge (base toAdd : PyDict)
    (hnodup : (dictKeys toAdd).Nodup) (k : String) :
    dictLookup (addDict base toAdd) k =
      (match dictLookup base k, dictLookup toAdd k with
       | some bv, some av => some (addVal bv av)
       | some bv, none => some bv
       | none, some av => some av
       | none, none => none)
    ∧ (∀ a b : Int, addVal (.int a) (.int b) = .int (a + b))
    ∧ (∀ la lb : List PyVal, addVal (.list la) (.list lb) = .list (la ++ lb))
    ∧ (∀ sa sb : List PyVal, addVal (.set sa) (.set sb) = .set (pySetUnion sa sb))
    ∧ (∀ da db : PyDict, addVal (.dict da) (.dict db) = .dict (addDict da db)) := by
  refine ⟨?_, fun a b => by rw [addVal], fun la lb => by rw [addVal],
    fun sa sb => by rw [addVal], fun da db => by rw [addVal]⟩
  induction toAdd generalizing base with
  | nil =>
    rw [addDict, dictLookup]
    cases dictLookup base k <;> rfl
  | cons e rest ih =>
    obtain ⟨k0, v0⟩ := e
    rw [addDict]
    rw [dictKeys, List.map_cons] at hnodup
    have hk0 : k0 ∉ dictKeys rest := (List.nodup_cons.mp hnodup).1
    have hrest : (dictKeys rest).Nodup := (List.nodup_cons.mp hnodup).2
    rw [ih _ hrest, dictLookup_dictAddEntry, dictLookup]
    by_cases h : k = k0
    · subst h
      rw [if_pos rfl, if_pos rfl]
      rw [dictLookup_eq_none_of_not_mem_keys rest k hk0]
      cases dictLookup base k <;> rfl
    · have h2 : k0 ≠ k := fun hc => h hc.symm
      rw [if_neg h, if_neg h2]

/-- The docstring example of `add_dict`:
base `{"A": 1, "B": {"c": 2, "d": 3}, "C": [1, 2, 3]}`. -/
def addDictBaseEx : PyDict :=
  [("A", .int 1),
   ("B", .dict [("c", .int 2), ("d", .int 3)]),
   ("C", .list [.int 1, .int 2, .int 3])]

/-- The docstring example of `add_dict`:
added `{"A": 1, "B": {"c": 1, "e": 1}, "C": [4], "D": 2}`. -/
def addDictAddEx : PyDict :=
  [("A", .int 1),
   ("B", .dict [("c", .int 1), ("e", .int 1)]),
   ("C", .list [.int 4]),
   ("D", .int 2)]

/-- C7 witness: the merge law applied to the docstring example at keys
"A" (summed), "C" (concatenated) and "D" (inserted). -/
theorem C7_witness :
    dictLookup (addDict addDictBaseEx addDictAddEx) "A" = some (.int 2)
    ∧ dictLookup (addDict addDictBaseEx addDictAddEx) "C"
        = some (.list [.int 1, .int 2, .int 3, .int 4])
    ∧ dictLookup (addDict addDictBaseEx addDictAddEx) "D" = some (.int 2) := by
  refine ⟨?_, ?_, ?_⟩
  · rw [(C7_additive_merge addDictBaseEx addDictAddEx (by decide) "A").1]
    simp [addDictBaseEx, addDictAddEx, dictLookup, addVal]
  · rw [(C7_additive_merge addDictBaseEx addDictAddEx (by decide) "C").1]
    simp [addDictBaseEx, addDictAddEx, dictLookup, addVal]
  · rw [(C7_additive_merge addDictBaseEx addDictAddEx (by decide) "D").1]
    simp [addDictBaseEx, addDictAddEx, dictLookup, addVal]

/-! ## Claim C9: `Antecedent.get_distance`

An `Antecedent` is a `Span` with a link to its `MovElem` (also a Span)
and a lazily created `distance` attribute
(`self.__dict__.get("distance", None)`; `none` models both a missing
attribute and the value `None`). -/

structure AntecObj where
  span : Classig.ASpan
  movElem : Option Classig.ASpan
  distance : Option Int

/-- The token-counting loop of `get_distance`: tokens of the sentence
whose `int(tok.ID)-1` lies strictly between the antecedent end and the
MovElem start and that are not punctuation.  Python evaluation order:
`int()` may raise `ValueError`; comparing against a `None` index raises
`TypeError`; `and` short-circuits. -/
def countBetween (toks : List Classig.AnnToken) (aEnd mStart : Option Int) :
    Except String Nat :=
  match toks with
  | [] => .ok 0
  | t :: rest => do
    let n ←
      match Classig.pyInt? t.ID with
      | some n => pure n
      | none => Except.error "ValueError: invalid literal for int()"
    let c1 ← Classig.pyGtIntOpt (n - 1) aEnd
    let keep ←
      if c1 then do
        let c2 ← Classig.pyLtIntOpt (n - 1) mStart
        if c2 then pure (!t.isPunct) else pure false
      else pure false
    let restCount ← countBetween rest aEnd mStart
    pure (restCount + if keep then 1 else 0)

/-- The recomputation branch of `get_distance`: compute the distance,
store it on the object, and return it. -/
def AntecObj.recomputeDistance (a : AntecObj) (mov : Classig.ASpan)
    (sentToks : List Classig.AnnToken) : Except String (Option Int × AntecObj) := do
  let aEnd ← a.span.getEndIndexIP
  let mStart ← mov.getStartIndexIP
  let d ← countBetween sentToks aEnd mStart
  pure (some (d : Int), { a with distance := some (d : Int) })

/-- `Antecedent.get_distance(sentence)`: `None` when no MovElem is
linked; otherwise return the cached distance if it is present and truthy
(a cached `0` is falsy and triggers recomputation), else recompute and
cache. -/
def AntecObj.getDistance (a : AntecObj) (sentToks : List Classig.AnnToken) :
    Except String (Option Int × AntecObj) :=
  match a.movElem with
  | none => .ok (none, a)
  | some mov =>
    match a.distance with
    | some d =>
      if d = 0 then a.recomputeDistance mov sentToks
      else .ok (some d, a)
    | none => a.recomputeDistance mov sentToks

/-- `update_start_index` on the antecedent object: refreshes the span's
cached start index and touches nothing else (in particular not the
`distance` attribute). -/
def AntecObj.updateStartIndex (a : AntecObj) : Except String AntecObj := do
  let s ← a.span.updateStartIndex
  pure { a with span := s }

/-- `update_end_index` on the antecedent object. -/
def AntecObj.updateEndIndex (a : AntecObj) : Except String AntecObj := do
  let s ← a.span.updateEndIndex
  pure { a with span := s }

/-- The MovElem used in the C9 counterexample: a span holding the token
with ID 5. -/
def c9Mov : Classig.ASpan :=
  .node "RELC" [Sum.inl ⟨"5", "N"⟩] (some (some 4)) (some (some 4))

/-- The antecedent used in the C9 counterexample: it spans token 1, its
MovElem starts at token 5, and a distance of 7 is cached; its cached end
index is stale (0 instead of the correct 0... the span later grows). -/
def c9Antec : AntecObj where
  span := .node "Antec" [Sum.inl ⟨"1", "N"⟩, Sum.inl ⟨"2", "N"⟩]
      (some (some 0)) (some (some 0))
  movElem := some c9Mov
  distance := some 7

/-- The sentence of the C9 counterexample: five word tokens. -/
def c9Sent : List Classig.AnnToken :=
  [⟨"1", "N"⟩, ⟨"2", "N"⟩, ⟨"3", "N"⟩, ⟨"4", "N"⟩, ⟨"5", "N"⟩]

/-- C9 counterexample: the antecedent's cached end index is refreshed by
`update_end_index` (its end changes from 0 to 1), but the cached
distance survives unchanged, and `get_distance` afterwards still returns
the stale value 7, although recomputing the distance on the same
sentence yields 2.  So the cache is not invalidated when the start/end
indices change. -/
theorem C9_counterexample :
    c9Antec.updateEndIndex
      = .ok { c9Antec with
              span := .node "Antec" [Sum.inl ⟨"1", "N"⟩, Sum.inl ⟨"2", "N"⟩]
                  (some (some 0)) (some (some 1)) }
    ∧ (c9Antec.updateEndIndex.bind fun a2 => a2.getDistance c9Sent).map Prod.fst
      = .ok (some 7)
    ∧ countBetween c9Sent (some 1) (some 4) = .ok 2
    ∧ (7 : Int) ≠ 2 := by
  refine ⟨rfl, by decide, by decide, by decide⟩

/-- C9 amended: `get_distance` returns the number of non-punctuation
tokens strictly between the antecedent's end and the MovElem's start and
caches it on first computation; a cached non-zero value is returned
as-is on later calls (a cached 0 is falsy in Python and is recomputed
every time); the cache is never invalidated — `update_start_index` and
`update_end_index` leave the `distance` attribute untouched, so a stale
cached value keeps being returned after the indices change; a missing
MovElem yields the absent value `None`. -/
theorem C9_amended :
    (∀ (a : AntecObj) (sentToks : List Classig.AnnToken),
      a.movElem = none → a.getDistance sentToks = .ok (none, a))
    ∧ (∀ (a : AntecObj) (mov : Classig.ASpan) (sentToks : List Classig.AnnToken),
      a.movElem = some mov → a.distance = none →
        a.getDistance sentToks = a.recomputeDistance mov sentToks)
    ∧ (∀ (a : AntecObj) (mov : Classig.ASpan) (sentToks : List Classig.AnnToken)
        (d : Int), a.movElem = some mov → a.distance = some d → d ≠ 0 →
        a.getDistance sentToks = .ok (some d, a))
    ∧ (∀ (a : AntecObj) (mov : Classig.ASpan) (sentToks : List Classig.AnnToken),
      a.movElem = some mov → a.distance = some 0 →
        a.getDistance sentToks = a.recomputeDistance mov sentToks)
    ∧ (∀ (a a2 : AntecObj), a.updateStartIndex = .ok a2 →
        a2.distance = a.distance ∧ a2.movElem = a.movElem)
    ∧ (∀ (a a2 : AntecObj), a.updateEndIndex = .ok a2 →
        a2.distance = a.distance ∧ a2.movElem = a.movElem) := by
  refine ⟨?_, ?_, ?_, ?_, ?_, ?_⟩
  · intro a sentToks h
    rw [AntecObj.getDistance, h]
  · intro a mov sentToks h hd
    rw [AntecObj.getDistance, h, hd]
  · intro a mov sentToks d h hd hdz
    rw [AntecObj.getDistance, h, hd]
    simp [hdz]
  · intro a mov sentToks h hd
    rw [AntecObj.getDistance, h, hd]
    simp
  · intro a a2 h
    rw [AntecObj.updateStartIndex] at h
    cases hs : a.span.updateStartIndex with
    | ok s => rw [hs] at h; cases h; exact ⟨rfl, rfl⟩
    | error e => rw [hs] at h; cases h
  · intro a a2 h
    rw [AntecObj.updateEndIndex] at h
    cases hs : a.span.updateEndIndex with
    | ok s => rw [hs] at h; cases h; exact ⟨rfl, rfl⟩
    | error e => rw [hs] at h; cases h

/-- C9 witness: the amended statement applied at concrete inputs. -/
theorem C9_witness :
    c9Antec.getDistance c9Sent = .ok (some 7, c9Antec)
    ∧ ({ c9Antec with movElem := none } : AntecObj).getDistance c9Sent
        = .ok (none, { c9Antec with movElem := none }) :=
  ⟨C9_amended.2.2.1 c9Antec c9Mov c9Sent 7 rfl rfl (by decide),
   C9_amended.1 { c9Antec with movElem := none } c9Sent rfl⟩

/-! ## Claim C8: antecedent evaluation, IL stage and fair metrics

`evaluation.evaluate_antecedents` abstracts each antecedent to its
punctuation-ignoring start/end indices, the start index of its linked
MovElem, its distance bucket, and the set of its head-token IDs;
`AntecEntry` carries exactly these values.  `overlap_type`,
`precision` and `recall` live in the external FairEval package (not part
of this repository), so `overlapType` below is modelled from the
specification's description of the interval taxonomy. -/

inductive OverlapT where
  | TP | BES | BEL | BEO | noOverlap
deriving DecidableEq, Repr

/-- Modelled from the spec: `overlap_type` of the external FairEval
package classifies a gold/system interval pair as TP (identical), BES
(system nested inside gold), BEL (system containing gold), BEO
(overlapping, neither containing the other), or no-overlap (disjoint;
FairEval signals this as `False`). -/
def overlapType (g s : Int × Int) : OverlapT :=
  if g = s then .TP
  else if s.2 < g.1 ∨ g.2 < s.1 then .noOverlap
  else if g.1 ≤ s.1 ∧ s.2 ≤ g.2 then .BES
  else if s.1 ≤ g.1 ∧ g.2 ≤ s.2 then .BEL
  else .BEO

/-- One antecedent as seen by `evaluate_antecedents`:
`get_start_index(ignore_punct=True)`, `get_end_index(ignore_punct=True)`,
the linked MovElem's start index, the distance bucket
(`get_distance`), and the head-token ID set. -/
structure AntecEntry where
  start : Int
  endI : Int
  mStart : Int
  dist : Int
  headIds : List String
deriving DecidableEq, Repr

/-- The per-distance error counters of the antecedent evaluation
dictionary. -/
structure AntecCounts where
  Correct : Nat := 0
  BES : Nat := 0
  BEL : Nat := 0
  BEO : Nat := 0
  BE : Nat := 0
  FP : Nat := 0
  IL : Nat := 0
  FN : Nat := 0
  BEright : Nat := 0
  TPHeadCorrect : Nat := 0
  FPHeadCorrect : Nat := 0
  FNHeadCorrect : Nat := 0
  TPHeadRight : Nat := 0
  FPHeadRight : Nat := 0
  FNHeadRight : Nat := 0
  TPHeadAll : Nat := 0
  FPHeadAll : Nat := 0
  FNHeadAll : Nat := 0
deriving DecidableEq, Repr

/-- Association-list lookup (a Python dict read). -/
def alistLookup {κ ν : Type} [DecidableEq κ] : List (κ × ν) → κ → Option ν
  | [], _ => none
  | (k0, v0) :: r, k => if k0 = k then some v0 else alistLookup r k

/-- `d[key] = f(d[key])` on a Python dict: raises `KeyError` when the
key is missing. -/
def updItem {κ ν : Type} [DecidableEq κ] (l : List (κ × ν)) (k : κ)
    (f : ν → ν) : Except String (List (κ × ν)) :=
  match l with
  | [] => .error "KeyError"
  | (k0, v0) :: r =>
    if k0 = k then .ok ((k0, f v0) :: r)
    else (updItem r k f).map (fun r2 => (k0, v0) :: r2)

/-- `len({x.ID for x in a} & {x.ID for x in b})`. -/
def setInterCard (a b : List String) : Nat :=
  (a.dedup.filter (fun x => b.contains x)).length

/-- `len({x.ID for x in a} - {x.ID for x in b})`. -/
def setDiffCard (a b : List String) : Nat :=
  (a.dedup.filter (fun x => !(b.contains x))).length

/-- The match condition of the IL stage: no interval overlap between
gold and system antecedent, but the degenerate start-intervals of the
two linked MovElems overlap. -/
def ilCond (ga ea : AntecEntry) : Bool :=
  decide (overlapType (ga.start, ga.endI) (ea.start, ea.endI) = .noOverlap)
  && decide
    (overlapType (ga.mStart, ga.mStart) (ea.mStart, ea.mStart) ≠ .noOverlap)

/-- One iteration of the IL-matching loop of `evaluate_antecedents`
(third stage): collect the system antecedents satisfying the IL
condition; if any exists, count an IL at the gold antecedent's distance,
update the `All`-tier head counters against the first match, and remove
that system antecedent.  The returned flag records whether the gold
antecedent was matched (added to `matched`). -/
def matchILStep (ga : AntecEntry) (eAntecs : List AntecEntry)
    (dict : List (Int × AntecCounts)) :
    Except String (List AntecEntry × List (Int × AntecCounts) × Bool) :=
  match eAntecs.filter (fun ea => ilCond ga ea) with
  | [] => .ok (eAntecs, dict, false)
  | ea0 :: _ => do
    let d1 ← updItem dict ga.dist (fun c => { c with IL := c.IL + 1 })
    let d2 ← updItem d1 ga.dist (fun c =>
      { c with TPHeadAll := c.TPHeadAll + setInterCard ga.headIds ea0.headIds })
    let d3 ← updItem d2 ga.dist (fun c =>
      { c with FPHeadAll := c.FPHeadAll + setDiffCard ea0.headIds ga.headIds })
    let d4 ← updItem d3 ga.dist (fun c =>
      { c with FNHeadAll := c.FNHeadAll + setDiffCard ga.headIds ea0.headIds })
    .ok (eAntecs.erase ea0, d4, true)

/-- The IL-matching loop over all gold antecedents: matched gold
antecedents are removed from the gold list afterwards (the `matched`
bookkeeping of the source). -/
def matchILs (gAntecs eAntecs : List AntecEntry)
    (dict : List (Int × AntecCounts)) :
    Except String (List AntecEntry × List AntecEntry × List (Int × AntecCounts)) :=
  match gAntecs with
  | [] => .ok ([], eAntecs, dict)
  | ga :: rest => do
    let (e1, d1, matched) ← matchILStep ga eAntecs dict
    let (gRest, e2, d2) ← matchILs rest e1 d1
    .ok ((if matched then gRest else ga :: gRest), e2, d2)

/-- The fair count block built by `calculate_metrics_antecedent`:
`TP = Correct`, `FP = FP + 0.5*IL`, `FN = FN + 0.5*IL`, `BE` copied. -/
structure FairCounts where
  BE : ℚ
  TP : ℚ
  FP : ℚ
  FN : ℚ
deriving DecidableEq, Repr

def fairEvalDictAntecedent (e : AntecCounts) : FairCounts :=
  { BE := e.BE
    TP := e.Correct
    FP := (e.FP : ℚ) + (1/2) * (e.IL : ℚ)
    FN := (e.FN : ℚ) + (1/2) * (e.IL : ℚ) }

theorem updItem_ok {κ ν : Type} [DecidableEq κ] (l : List (κ × ν)) (k : κ)
    (f : ν → ν) (v : ν) (h : alistLookup l k = some v) :
    ∃ l2, updItem l k f = .ok l2 ∧ alistLookup l2 k = some (f v) := by
  induction l with
  | nil => simp [alistLookup] at h
  | cons e r ih =>
    obtain ⟨k0, v0⟩ := e
    by_cases hk : k0 = k
    · subst hk
      rw [alistLookup, if_pos rfl] at h
      cases h
      exact ⟨(k0, f v) :: r, by rw [updItem, if_pos rfl], by rw [alistLookup, if_pos rfl]⟩
    · rw [alistLookup, if_neg hk] at h
      obtain ⟨r2, hr2, hl2⟩ := ih h
      refine ⟨(k0, v0) :: r2, ?_, ?_⟩
      · rw [updItem, if_neg hk, hr2]; rfl
      · rw [alistLookup, if_neg hk]; exact hl2

theorem exceptBindOk {ε α β : Type} (a : α) (f : α → Except ε β) :
    (Except.ok a >>= f) = f a := rfl

/-- C8: in the IL stage of `evaluate_antecedents`, a gold antecedent
whose interval overlaps no remaining system antecedent, while some
remaining system antecedent's linked MovElem start overlaps the gold
antecedent's linked MovElem start, is counted as one IL at its distance
bucket (and contributes nothing to Correct/FP/FN there); the first such
system antecedent is consumed.  In the fair metrics derived by
`calculate_metrics_antecedent`, each IL contributes exactly 0.5 to FP
and 0.5 to FN and nothing to the TP slot (which holds Correct). -/
theorem C8_antecedent_IL :
    (∀ (ga : AntecEntry) (eAntecs : List AntecEntry)
        (dict : List (Int × AntecCounts)) (c : AntecCounts),
      (∀ ea ∈ eAntecs,
        overlapType (ga.start, ga.endI) (ea.start, ea.endI) = .noOverlap) →
      (∃ ea ∈ eAntecs,
        overlapType (ga.mStart, ga.mStart) (ea.mStart, ea.mStart)
          ≠ .noOverlap) →
      alistLookup dict ga.dist = some c →
      ∃ ea0 d4, ea0 ∈ eAntecs ∧
        matchILStep ga eAntecs dict = .ok (eAntecs.erase ea0, d4, true) ∧
        ∃ c4, alistLookup d4 ga.dist = some c4 ∧
          c4.IL = c.IL + 1 ∧ c4.Correct = c.Correct
          ∧ c4.FP = c.FP ∧ c4.FN = c.FN)
    ∧ (∀ e : AntecCounts,
        (fairEvalDictAntecedent e).TP = (e.Correct : ℚ)
        ∧ (fairEvalDictAntecedent e).FP = (e.FP : ℚ) + (1/2) * (e.IL : ℚ)
        ∧ (fairEvalDictAntecedent e).FN = (e.FN : ℚ) + (1/2) * (e.IL : ℚ)) := by
  constructor
  · intro ga eAntecs dict c h1 h2 hkey
    obtain ⟨ea, heaMem, hea⟩ := h2
    have hcond : ilCond ga ea = true := by
      rw [ilCond]
      rw [decide_eq_true (h1 ea heaMem), decide_eq_true hea]
      rfl
    have hmem : ea ∈ eAntecs.filter (fun x => ilCond ga x) :=
      List.mem_filter.mpr ⟨heaMem, hcond⟩
    cases hf : eAntecs.filter (fun x => ilCond ga x) with
    | nil => rw [hf] at hmem; cases hmem
    | cons ea0 tail =>
      have hea0 : ea0 ∈ eAntecs.filter (fun x => ilCond ga x) := by
        rw [hf]; exact List.mem_cons_self _ _
      have hea0Mem : ea0 ∈ eAntecs := (List.mem_filter.mp hea0).1
      obtain ⟨d1, hd1, hl1⟩ :=
        updItem_ok dict ga.dist (fun c => { c with IL := c.IL + 1 }) c hkey
      obtain ⟨d2, hd2, hl2⟩ := updItem_ok d1 ga.dist
        (fun c => { c with
          TPHeadAll := c.TPHeadAll + setInterCard ga.headIds ea0.headIds }) _ hl1
      obtain ⟨d3, hd3, hl3⟩ := updItem_ok d2 ga.dist
        (fun c => { c with
          FPHeadAll := c.FPHeadAll + setDiffCard ea0.headIds ga.headIds }) _ hl2
      obtain ⟨d4, hd4, hl4⟩ := updItem_ok d3 ga.dist
        (fun c => { c with
          FNHeadAll := c.FNHeadAll + setDiffCard ga.headIds ea0.headIds }) _ hl3
      refine ⟨ea0, d4, hea0Mem, ?_, ?_⟩
      · rw [matchILStep, hf]
        simp only [hd1, hd2, hd3, hd4, exceptBindOk]
      · exact ⟨_, hl4, rfl, rfl, rfl, rfl⟩
  · intro e
    exact ⟨rfl, rfl, rfl⟩

/-- The scenario-E gold antecedent: interval [5,7], MovElem start 12,
distance bucket 3, one head token. -/
def c8Gold : AntecEntry :=
  { start := 5, endI := 7, mStart := 12, dist := 3, headIds := ["6"] }

/-- The scenario-E system antecedent: interval [9,10], its MovElem
starting where the gold MovElem starts. -/
def c8Sys : AntecEntry :=
  { start := 9, endI := 10, mStart := 12, dist := 3, headIds := [] }

/-- C8 witness: the IL-stage statement and the fair-metric statement
applied at the scenario-E inputs. -/
theorem C8_witness :
    (∃ ea0 d4, ea0 ∈ [c8Sys] ∧
      matchILStep c8Gold [c8Sys] [(3, ({} : AntecCounts))]
        = .ok ([c8Sys].erase ea0, d4, true) ∧
      ∃ c4, alistLookup d4 c8Gold.dist = some c4 ∧
        c4.IL = ({} : AntecCounts).IL + 1
        ∧ c4.Correct = ({} : AntecCounts).Correct
        ∧ c4.FP = ({} : AntecCounts).FP ∧ c4.FN = ({} : AntecCounts).FN)
    ∧ (fairEvalDictAntecedent { IL := 1 }).FP
        = (({ IL := 1 } : AntecCounts).FP : ℚ)
          + (1/2) * ((({ IL := 1 } : AntecCounts).IL : ℚ)) :=
  ⟨C8_antecedent_IL.1 c8Gold [c8Sys] [(3, {})] {}
      (by decide) ⟨c8Sys, by decide, by decide⟩ (by decide),
   (C8_antecedent_IL.2 { IL := 1 }).2.1⟩

/-! ## The BIO codec (`Span.span_from_BIO_annotation` /
`Span.span_to_BIO_annotation`)

The codec operates on one sentence.  A sentence token is identified with
its zero-based position (the codec relies on `int(tok.ID) - 1` being the
token's position, i.e. `ID = position + 1`); the decoder receives the
per-token tag strings of the column.  A span tree carries a label and an
ordered element list of tokens and sub-spans; the cached start/end
indices play no role in the produced structure and are omitted. -/

inductive BTree where
  | node (lab : String) (elems : List (Nat ⊕ BTree))

def BTree.lab : BTree → String
  | .node l _ => l

def BTree.elems : BTree → List (Nat ⊕ BTree)
  | .node _ es => es

mutual

/-- The token positions of a span tree, in element order (the codec's
view of `Span.get_tokens`). -/
def BTree.toks : BTree → List Nat
  | .node _ es => BTree.toksElems es

def BTree.toksElems : List (Nat ⊕ BTree) → List Nat
  | [] => []
  | .inl t :: rest => t :: BTree.toksElems rest
  | .inr s :: rest => s.toks ++ BTree.toksElems rest

end

/-- `update_start_index` for well-formed token IDs: the position of the
first dominated token. -/
def BTree.startIdx (t : BTree) : Option Nat :=
  t.toks.head?

/-- `update_end_index`: the position of the last dominated token. -/
def BTree.endIdx (t : BTree) : Option Nat :=
  t.toks.getLast?

/-! ### Decoder state

The Python decoder keeps a stack of currently open `Span` objects,
mutated in place; a span deeper on the stack is simultaneously an
element of its parent.  The pure state represents every open span as a
frame `(lab, pre, post)`: `pre` holds the elements materialized before
the currently open child span (which lives one frame deeper), `post`
the elements appended after that child was opened.  The deepest frame
has `post = []` and its elements are `pre`; closing a frame turns it
into `node lab (pre ++ post)` and splices it into the parent between
`pre` and `post` — exactly where the Python parent's element list holds
the shared child object. -/

structure Frame where
  lab : String
  pre : List (Nat ⊕ BTree)
  post : List (Nat ⊕ BTree)

def Frame.close (f : Frame) : BTree :=
  .node f.lab (f.pre ++ f.post)

/-- Splice a closed child into its parent frame. -/
def foldInto (parent : Frame) (t : BTree) : Frame :=
  { lab := parent.lab, pre := parent.pre ++ [.inr t] ++ parent.post, post := [] }

def popLast {α : Type} : List α → Option (List α × α)
  | [] => none
  | [x] => some ([], x)
  | x :: y :: rest =>
    (popLast (y :: rest)).map (fun p => (x :: p.1, p.2))

/-- `span_stack.pop()` during truncation: the deepest frame leaves the
stack; since the Python child object already sits inside its parent's
element list, the pure model splices the closed child into the parent
frame.  A popped root simply vanishes from the stack. -/
def popFoldK (stack : List Frame) : List Frame :=
  match popLast stack with
  | none => []
  | some (rest, f) =>
    match popLast rest with
    | none => []
    | some (front, parent) => front ++ [foldInto parent (Frame.close f)]

def applyN {α : Type} (f : α → α) : Nat → α → α
  | 0, x => x
  | k + 1, x => applyN f k (f x)

/-- `while len(span_stack) > n: span_stack.pop()`. -/
def cutStack (stack : List Frame) (n : Nat) : List Frame :=
  applyN popFoldK (stack.length - n) stack

/-- Close the whole stack into its root tree (the tree reachable from
`span_stack[0]`, which holds all deeper open spans as elements). -/
def collapseStack (stack : List Frame) : Option BTree :=
  match applyN popFoldK (stack.length - 1) stack with
  | [f] => some (Frame.close f)
  | _ => none

/-- The `B-` branch at level 0 with a non-empty stack in
`Span.span_from_BIO_annotation`: `spans.append(span_stack.pop())` — the
deepest open span is emitted to the output list and removed from the
stack; outer frames stay. -/
def spanPopLevel0 (out : List BTree) (stack : List Frame) :
    List BTree × List Frame :=
  match popLast stack with
  | none => (out, stack)
  | some (rest, f) =>
    let t := Frame.close f
    match popLast rest with
    | none => (out ++ [t], [])
    | some (front, parent) => (out ++ [t], front ++ [foldInto parent t])

/-- The `B-` branch at level 0 with a non-empty stack in
`MovElem.span_from_BIO_annotation` (lines 1629-1634):
`spans.append(span_stack[0]); span_stack = []` — the root span (with all
open descendants) is emitted and the stack starts fresh. -/
def movFlushLevel0 (out : List BTree) (stack : List Frame) :
    List BTree × List Frame :=
  match collapseStack stack with
  | none => (out, [])
  | some t => (out ++ [t], [])

def updateAt {α : Type} : List α → Nat → (α → α) → List α
  | [], _, _ => []
  | x :: rest, 0, f => f x :: rest
  | x :: rest, i + 1, f => x :: updateAt rest i f

/-- `span_stack[i].append_element(tok)`: the deepest frame appends to its
element list (`pre`), any outer frame appends after its open child
(`post`). -/
def stackAppendTok (stack : List Frame) (i : Nat) (tok : Nat) : List Frame :=
  if i = stack.length - 1 then
    updateAt stack i (fun f => { f with pre := f.pre ++ [.inl tok] })
  else
    updateAt stack i (fun f => { f with post := f.post ++ [.inl tok] })

/-- The `B-` branch of the Span decoder for level `i` of `numAnnos`
stacked tags: flush/truncate, create the new span (with the token when
it is the deepest level), append it to the new deepest frame (its
parent) and push it. -/
def bioBStep (out : List BTree) (stack : List Frame) (i numAnnos tok : Nat)
    (label : String) : List BTree × List Frame :=
  let flushed :=
    if i = 0 && !stack.isEmpty then spanPopLevel0 out stack
    else (out, cutStack stack i)
  let pElems : List (Nat ⊕ BTree) := if i < numAnnos - 1 then [] else [.inl tok]
  (flushed.1, flushed.2 ++ [{ lab := label, pre := pElems, post := [] }])

/-- Processing one annotation level of one token in
`Span.span_from_BIO_annotation`. -/
def bioLevelStep (numAnnos tok : Nat) (st : List BTree × List Frame)
    (i : Nat) (ann : String) : Except String (List BTree × List Frame) :=
  if Classig.strStartsWith ann "B-" then
    .ok (bioBStep st.1 st.2 i numAnnos tok ((Classig.pySplit ann '-').getD 1 ""))
  else if Classig.strStartsWith ann "I-" then
    if i < st.2.length then .ok (st.1, stackAppendTok st.2 i tok)
    else .error "IndexError: list index out of range"
  else .ok st

def bioLevels (tok numAnnos : Nat) :
    List String → Nat → (List BTree × List Frame) →
    Except String (List BTree × List Frame)
  | [], _, st => .ok st
  | ann :: rest, i, st => do
    let st1 ← bioLevelStep numAnnos tok st i ann
    bioLevels tok numAnnos rest (i + 1) st1

/-- Processing one token of `Span.span_from_BIO_annotation`: the
sentinels `O`/`_` flush the stack to the output; otherwise the tag is
stripped, split on `|`, the stack cut to the number of levels, and every
level processed left to right. -/
def bioToken (st : List BTree × List Frame) (tok : Nat) (anno : String) :
    Except String (List BTree × List Frame) :=
  if anno = "O" ∨ anno = "_" then
    .ok (match collapseStack st.2 with
         | none => (st.1, [])
         | some t => (st.1 ++ [t], []))
  else
    let annos := Classig.pySplit (Classig.pyStrip anno) '|'
    bioLevels tok annos.length annos 0 (st.1, cutStack st.2 annos.length)

def bioTokens : Nat → List String → (List BTree × List Frame) →
    Except String (List BTree × List Frame)
  | _, [], st => .ok st
  | idx, a :: rest, st => do
    let st1 ← bioToken st idx a
    bioTokens (idx + 1) rest st1

/-- `Span.span_from_BIO_annotation(sentence, annoname)`: decode the
per-token tag strings of one sentence into the list of top-level spans.
The final `update_start_index`/`update_end_index` calls only refresh
caches and do not alter the structure. -/
def spanFromBIOAnn (annos : List String) : Except String (List BTree) := do
  let st ← bioTokens 0 annos ([], [])
  match collapseStack st.2 with
  | none => pure st.1
  | some t => pure (st.1 ++ [t])

/-! ### Encoder (`Span.span_to_BIO_annotation`) -/

mutual

/-- `get_bio_spans`: parent-first traversal collecting
`(label, startIndex, endIndex)` for a span and all nested spans. -/
def getBioSpans : BTree → List (String × Option Nat × Option Nat)
  | .node l es =>
    (l, (BTree.node l es).startIdx, (BTree.node l es).endIdx)
      :: getBioSpansElems es

def getBioSpansElems :
    List (Nat ⊕ BTree) → List (String × Option Nat × Option Nat)
  | [] => []
  | .inl _ :: rest => getBioSpansElems rest
  | .inr s :: rest => getBioSpans s ++ getBioSpansElems rest

end

/-- A span without tokens has `None` indices; sorting and indexing with
them raises a `TypeError` in the source, modelled here at tuple
resolution. -/
def resolveTuples :
    List (String × Option Nat × Option Nat) →
    Except String (List (String × Nat × Nat))
  | [] => .ok []
  | (l, some s, some e) :: rest =>
    (resolveTuples rest).map (fun r => (l, s, e) :: r)
  | (_, some _, none) :: _ => .error "TypeError: span without token indices"
  | (_, none, _) :: _ => .error "TypeError: span without token indices"

/-- The sort key comparison of `sorted(bio_spans, key=lambda l:
(l[1], 0-l[2]))`: ascending start, and for equal starts descending end
(longer spans first). -/
def tupleLE (a b : String × Nat × Nat) : Bool :=
  decide (a.2.1 < b.2.1) ||
    (decide (a.2.1 = b.2.1) && decide (b.2.2 ≤ a.2.2))

def sortedInsertT (x : String × Nat × Nat) :
    List (String × Nat × Nat) → List (String × Nat × Nat)
  | [] => [x]
  | y :: rest => if tupleLE x y then x :: y :: rest else y :: sortedInsertT x rest

/-- Python `sorted` (stable) under the `(start, -end)` key. -/
def sortTuples : List (String × Nat × Nat) → List (String × Nat × Nat)
  | [] => []
  | x :: rest => sortedInsertT x (sortTuples rest)

def pyGetStr (l : List String) (i : Nat) : Except String String :=
  match l.get? i with
  | some s => .ok s
  | none => .error "IndexError: list index out of range"

def pySetStr (l : List String) (i : Nat) (v : String) :
    Except String (List String) :=
  if i < l.length then .ok (l.set i v)
  else .error "IndexError: list assignment index out of range"

/-- `if bio_annotations[i]: bio_annotations[i] += "|" + tag else:
bio_annotations[i] += tag`. -/
def appendTag (bio : List String) (i : Nat) (tag : String) :
    Except String (List String) := do
  let cur ← pyGetStr bio i
  pySetStr bio i (if cur = "" then tag else cur ++ "|" ++ tag)

def writeRange (lab : String) : List Nat → List String →
    Except String (List String)
  | [], bio => .ok bio
  | i :: rest, bio => do
    let bio1 ← appendTag bio i ("I-" ++ lab)
    writeRange lab rest bio1

/-- Write one `(label, start, end)` tuple: `B-label` at the start
position, `I-label` at every position from `start+1` to `end`. -/
def writeTuple (bio : List String) (t : String × Nat × Nat) :
    Except String (List String) := do
  let bio1 ← appendTag bio t.2.1 ("B-" ++ t.1)
  writeRange t.1 (List.range' (t.2.1 + 1) (t.2.2 - t.2.1)) bio1

def writeTuples : List (String × Nat × Nat) → List String →
    Except String (List String)
  | [], bio => .ok bio
  | t :: rest, bio => do
    let bio1 ← writeTuple bio t
    writeTuples rest bio1

/-- Encode one top-level span: collect its tuples (parent first), sort
them by `(start, -end)` and write them onto the growing tag list. -/
def writeSpan (bio : List String) (root : BTree) :
    Except String (List String) := do
  let tuples ← resolveTuples (getBioSpans root)
  writeTuples (sortTuples tuples) bio

def writeAllSpans : List BTree → List String → Except String (List String)
  | [], bio => .ok bio
  | s :: rest, bio => do
    let bio1 ← writeSpan bio s
    writeAllSpans rest bio1

/-- `Span.span_to_BIO_annotation(sentence, spanname, annoname)` for a
sentence of `n` tokens: write every span's tags and fill the untouched
positions with the sentinel `O`. -/
def spanToBIOAnn (spans : List BTree) (n : Nat) : Except String (List String) := do
  let bio ← writeAllSpans spans (List.replicate n "")
  pure (bio.map (fun s => if s = "" then "O" else s))

/-- `decode(encode(S))` over a sentence of `n` tokens. -/
def roundTrip (spans : List BTree) (n : Nat) : Except String (List BTree) :=
  (spanToBIOAnn spans n).bind spanFromBIOAnn

/-! ### Forest isomorphism and well-formedness -/

def listSubsetB (a b : List Nat) : Bool :=
  a.all (fun x => b.contains x)

/-- Equality of token sets (as sets of positions). -/
def setEqB (a b : List Nat) : Bool :=
  listSubsetB a b && listSubsetB b a

mutual

/-- Isomorphism of span trees in the sense of the round-trip law: same
labels, same token sets, and the same nesting structure (sub-spans in
the same order, pairwise isomorphic); the multiplicity and placement of
direct token children is not distinguished. -/
def isoTree : BTree → BTree → Bool
  | .node l1 es1, .node l2 es2 =>
    l1 == l2 && setEqB (BTree.toksElems es1) (BTree.toksElems es2)
      && isoElems es1 es2

def isoElems : List (Nat ⊕ BTree) → List (Nat ⊕ BTree) → Bool
  | [], [] => true
  | [], .inl _ :: r2 => isoElems [] r2
  | [], .inr _ :: _ => false
  | .inl _ :: r1, r2 => isoElems r1 r2
  | .inr _ :: _, [] => false
  | .inr s1 :: r1, .inl _ :: r2 => isoElems (.inr s1 :: r1) r2
  | .inr s1 :: r1, .inr s2 :: r2 => isoTree s1 s2 && isoElems r1 r2

end

def isoForest : List BTree → List BTree → Bool
  | [], [] => true
  | d :: ds, s :: ss => isoTree d s && isoForest ds ss
  | _, _ => false

/-- A label survives the tag grammar when it contains neither the level
separator `|` nor the `B-`/`I-` suffix separator `-`
(`annotation.split("-")[1]` truncates a hyphenated label) nor any
whitespace (the decoder runs `annotation.strip()` on each tag string
before splitting it). -/
def labOkB (l : String) : Bool :=
  !(l.data.contains '-') && !(l.data.contains '|')
    && l.data.all (fun c => !c.isWhitespace)

/-- The positions are consecutive (`x, x+1, x+2, ...`): the span's token
set is contiguous, the element ordering monotonic, and sibling elements
are pairwise disjoint and adjacent. -/
def isConsecutive : List Nat → Bool
  | [] => true
  | [_] => true
  | x :: y :: rest => decide (y = x + 1) && isConsecutive (y :: rest)

mutual

/-- Well-formedness of one span for the round-trip law: a clean label,
at least one token, consecutive token positions, and well-formed
sub-spans. -/
def wfTree : BTree → Bool
  | .node l es =>
    labOkB l && !(BTree.toksElems es).isEmpty
      && isConsecutive (BTree.toksElems es) && wfElems es

def wfElems : List (Nat ⊕ BTree) → Bool
  | [] => true
  | .inl _ :: rest => wfElems rest
  | .inr s :: rest => wfTree s && wfElems rest

end

/-- Well-formedness of a forest over a sentence of `n` tokens, with the
next root required to start at or after `minStart`: every root is
well-formed, lies inside the sentence, roots appear in increasing
position order, and consecutive roots are separated by at least one
unannotated token (`b + 2`). -/
def wfForestFrom : List BTree → Nat → Nat → Bool
  | [], _, _ => true
  | s :: rest, minStart, n =>
    wfTree s &&
      (match s.toks.head?, s.toks.getLast? with
       | some a, some b =>
         decide (minStart ≤ a) && decide (b < n) && wfForestFrom rest (b + 2) n
       | _, _ => false)

/-- Well-formed span forest over a sentence of `n` tokens. -/
def wfForest (spans : List BTree) (n : Nat) : Bool :=
  wfForestFrom spans 0 n

/-! ## Claim C1 (counterexample part) -/

/-- Two top-level spans with overlapping intervals: `A` over positions
0-2 and `B` over 1-3.  Each span's token set is contiguous, so the
forest is well-formed in the claim's sense. -/
def c1OverlapSpans : List BTree :=
  [.node "A" [.inl 0, .inl 1, .inl 2], .node "B" [.inl 1, .inl 2, .inl 3]]

/-- C1 counterexample: the claim's well-formedness only demands
contiguous token sets per span, which holds for `c1OverlapSpans`; yet
`decode(encode(S))` returns a single top-level span `A` with `B` nested
inside it (and token 3 moved into `A`), which is not isomorphic to the
two-root input forest. -/
theorem C1_counterexample :
    isConsecutive (BTree.node "A" [.inl 0, .inl 1, .inl 2]).toks = true
    ∧ isConsecutive (BTree.node "B" [.inl 1, .inl 2, .inl 3]).toks = true
    ∧ roundTrip c1OverlapSpans 4
        = .ok [.node "A" [.inl 0, .inl 1, .inr (.node "B" [.inl 1, .inl 2]),
                          .inl 2, .inl 3]]
    ∧ isoForest
        [.node "A" [.inl 0, .inl 1, .inr (.node "B" [.inl 1, .inl 2]),
                    .inl 2, .inl 3]]
        c1OverlapSpans = false := by
  refine ⟨rfl, rfl, rfl, ?_⟩
  simp [c1OverlapSpans, isoForest, isoTree, isoElems, setEqB, listSubsetB,
    BTree.toksElems, BTree.toks]

/-! ## Claims C2 and C3 -/

/-- C3: the decoder is not total on malformed input: a token tagged
`I-NP` with no open span at that level makes
`span_from_BIO_annotation` evaluate `span_stack[0]` on an empty stack,
raising an uncaught `IndexError` instead of applying any documented
recovery. -/
theorem C3_decode_crashes_on_orphan_I :
    spanFromBIOAnn ["I-NP"] = .error "IndexError: list index out of range" := rfl

/-- Modelled from the spec: the decode step described in section 4.3 for
a `B-` tag at level 0 with a non-empty stack — flush the entire current
top-level span (the root at stack position 0) to the output list and
start a fresh stack.  Deeper levels truncate the stack to length `i`,
as in the source. -/
def specBStep (out : List BTree) (stack : List Frame) (i numAnnos tok : Nat)
    (label : String) : List BTree × List Frame :=
  let flushed :=
    if i = 0 && !stack.isEmpty then movFlushLevel0 out stack
    else (out, cutStack stack i)
  let pElems : List (Nat ⊕ BTree) := if i < numAnnos - 1 then [] else [.inl tok]
  (flushed.1, flushed.2 ++ [{ lab := label, pre := pElems, post := [] }])

/-- Modelled from the spec: one annotation level of the spec's decoder. -/
def specLevelStep (numAnnos tok : Nat) (st : List BTree × List Frame)
    (i : Nat) (ann : String) : Except String (List BTree × List Frame) :=
  if Classig.strStartsWith ann "B-" then
    .ok (specBStep st.1 st.2 i numAnnos tok ((Classig.pySplit ann '-').getD 1 ""))
  else if Classig.strStartsWith ann "I-" then
    if i < st.2.length then .ok (st.1, stackAppendTok st.2 i tok)
    else .error "IndexError: list index out of range"
  else .ok st

def specLevels (tok numAnnos : Nat) :
    List String → Nat → (List BTree × List Frame) →
    Except String (List BTree × List Frame)
  | [], _, st => .ok st
  | ann :: rest, i, st => do
    let st1 ← specLevelStep numAnnos tok st i ann
    specLevels tok numAnnos rest (i + 1) st1

def specToken (st : List BTree × List Frame) (tok : Nat) (anno : String) :
    Except String (List BTree × List Frame) :=
  if anno = "O" ∨ anno = "_" then
    .ok (match collapseStack st.2 with
         | none => (st.1, [])
         | some t => (st.1 ++ [t], []))
  else
    let annos := Classig.pySplit (Classig.pyStrip anno) '|'
    specLevels tok annos.length annos 0 (st.1, cutStack st.2 annos.length)

def specTokens : Nat → List String → (List BTree × List Frame) →
    Except String (List BTree × List Frame)
  | _, [], st => .ok st
  | idx, a :: rest, st => do
    let st1 ← specToken st idx a
    specTokens (idx + 1) rest st1

/-- Modelled from the spec: the decoder as described in section 4.3,
identical to `spanFromBIOAnn` except for the root-flush at a level-0 `B-`
tag. -/
def specFromBIOAnn (annos : List String) : Except String (List BTree) := do
  let st ← specTokens 0 annos ([], [])
  match collapseStack st.2 with
  | none => pure st.1
  | some t => pure (st.1 ++ [t])

/-- C2 counterexample: on the tags `B-A|B-B`, `B-C|B-D`, the code's
level-0 `B-` step pops only the deepest open span `B` to the output and
keeps the root `A` on the stack (so `C` and `D` become children of `A`),
while the claim's step would flush the root `A` and decode `C` as a new
top-level span: the decoded top-level label sequences differ. -/
theorem C2_counterexample :
    (spanFromBIOAnn ["B-A|B-B", "B-C|B-D"]).map (List.map BTree.lab)
      = .ok ["B", "A"]
    ∧ (specFromBIOAnn ["B-A|B-B", "B-C|B-D"]).map (List.map BTree.lab)
      = .ok ["A", "C"]
    ∧ (["B", "A"] : List String) ≠ ["A", "C"] := by
  refine ⟨rfl, rfl, by decide⟩

theorem popLast_append_singleton {α : Type} (l : List α) (x : α) :
    popLast (l ++ [x]) = some (l, x) := by
  induction l with
  | nil => rfl
  | cons y rest ih =>
    cases rest with
    | nil => rfl
    | cons z rest2 =>
      calc popLast ((y :: z :: rest2) ++ [x])
          = (popLast ((z :: rest2) ++ [x])).map (fun p => (y :: p.1, p.2)) := rfl
        _ = (some (z :: rest2, x)).map (fun p => (y :: p.1, p.2)) := by rw [ih]
        _ = some (y :: z :: rest2, x) := rfl

theorem popFoldK_length (stack : List Frame) :
    (popFoldK stack).length = stack.length - 1 := by
  cases stack using List.reverseRecOn with
  | nil => rfl
  | append_singleton front x =>
    rw [popFoldK, popLast_append_singleton]
    cases front using List.reverseRecOn with
    | nil => simp [popLast]
    | append_singleton front2 y =>
      simp [popLast_append_singleton]

theorem popFoldK_labels (stack : List Frame) :
    (popFoldK stack).map Frame.lab = (stack.map Frame.lab).dropLast := by
  cases stack using List.reverseRecOn with
  | nil => rfl
  | append_singleton front x =>
    rw [popFoldK, popLast_append_singleton]
    cases front using List.reverseRecOn with
    | nil => simp [popLast]
    | append_singleton front2 y =>
      simp [popLast_append_singleton, foldInto, Frame.lab]

theorem applyN_popFoldK_length (k : Nat) (stack : List Frame) :
    (applyN popFoldK k stack).length = stack.length - k := by
  induction k generalizing stack with
  | zero => rfl
  | succ k2 ih =>
    rw [applyN, ih, popFoldK_length]
    omega

theorem applyN_popFoldK_labels (k : Nat) (stack : List Frame) :
    (applyN popFoldK k stack).map Frame.lab
      = (stack.map Frame.lab).take (stack.length - k) := by
  induction k generalizing stack with
  | zero =>
    rw [applyN, Nat.sub_zero]
    rw [List.take_of_length_le (by simp)]
  | succ k2 ih =>
    rw [applyN, ih, popFoldK_labels, popFoldK_length]
    rw [List.dropLast_eq_take]
    rw [List.take_take]
    congr 1
    simp
    omega

theorem popLast_eq_dropLast_getLast (stack : List Frame) (h : stack ≠ []) :
    popLast stack = some (stack.dropLast, stack.getLast h) := by
  conv_lhs => rw [← List.dropLast_append_getLast h]
  rw [popLast_append_singleton]

/-- C2 amended: at a level-0 `B-` tag with a non-empty stack,
`Span.span_from_BIO_annotation` emits only the deepest open span (the
top of the stack) to the output and pops just that one frame — which
coincides with flushing the whole top-level span and starting a fresh
stack exactly when the stack has height 1; it is
`MovElem.span_from_BIO_annotation` that emits the root at stack
position 0 (with all nested open spans) and starts a fresh stack.  For
`B-` at a deeper level `i` the stack is truncated to length `i` (the
outermost `i` frames survive). -/
theorem C2_amended :
    (∀ (out : List BTree) (f : Frame),
      spanPopLevel0 out [f] = (out ++ [Frame.close f], []))
    ∧ (∀ (out : List BTree) (stack : List Frame) (h : stack ≠ []),
      (spanPopLevel0 out stack).1 = out ++ [Frame.close (stack.getLast h)])
    ∧ (∀ (out : List BTree) (stack : List Frame) (t : BTree),
      collapseStack stack = some t → movFlushLevel0 out stack = (out ++ [t], []))
    ∧ (∀ (stack : List Frame) (i : Nat),
      (cutStack stack i).length = min stack.length i
      ∧ (cutStack stack i).map Frame.lab = (stack.take i).map Frame.lab) := by
  refine ⟨?_, ?_, ?_, ?_⟩
  · intro out f
    rfl
  · intro out stack h
    rw [spanPopLevel0, popLast_eq_dropLast_getLast stack h]
    cases hp : popLast stack.dropLast with
    | none => simp [hp]
    | some p =>
      obtain ⟨front, parent⟩ := p
      simp [hp]
  · intro out stack t hc
    rw [movFlushLevel0, hc]
  · intro stack i
    constructor
    · rw [cutStack, applyN_popFoldK_length]
      omega
    · rw [cutStack, applyN_popFoldK_labels, List.map_take]
      by_cases h : i ≤ stack.length
      · congr 1
        omega
      · rw [List.take_of_length_le (by simp; omega),
          List.take_of_length_le (by simp; omega)]

/-- C2 witness: the amended statement applied at concrete inputs: a
height-1 stack is flushed whole with a fresh stack; on a height-2 stack
the emitted span is the deepest frame's, not the root's; the MovElem
flush emits the collapsed root; and cutting a height-2 stack to length 1
keeps the outer frame. -/
theorem C2_witness :
    spanPopLevel0 [] [⟨"A", [.inl 0], []⟩]
      = ([Frame.close ⟨"A", [.inl 0], []⟩], [])
    ∧ (spanPopLevel0 [] [⟨"A", [.inl 0], []⟩, ⟨"B", [.inl 1], []⟩]).1
      = [Frame.close (([⟨"A", [.inl 0], []⟩,
          ⟨"B", [.inl 1], []⟩] : List Frame).getLast (by simp))]
    ∧ movFlushLevel0 [] [⟨"A", [.inl 0], []⟩]
      = ([Frame.close ⟨"A", [.inl 0], []⟩], [])
    ∧ (cutStack [⟨"A", [.inl 0], []⟩, ⟨"B", [.inl 1], []⟩] 1).map Frame.lab
      = (([⟨"A", [.inl 0], []⟩, ⟨"B", [.inl 1], []⟩] : List Frame).take 1).map
          Frame.lab :=
  ⟨C2_amended.1 [] ⟨"A", [.inl 0], []⟩,
   C2_amended.2.1 [] [⟨"A", [.inl 0], []⟩, ⟨"B", [.inl 1], []⟩] (by simp),
   C2_amended.2.2.1 [] [⟨"A", [.inl 0], []⟩] (Frame.close ⟨"A", [.inl 0], []⟩) rfl,
   (C2_amended.2.2.2 [⟨"A", [.inl 0], []⟩, ⟨"B", [.inl 1], []⟩] 1).2⟩

/-! ## Claim C1 (amended round-trip law): auxiliary definitions

The round-trip proof characterizes both codec directions against
tag layers computed directly from the forest structure.
`tagsOfTree T` gives, for each position covered by a well-formed span
`T`, the list of level tags contributed by `T` and its descendants
(outermost first); `pyDecoded T` is the span tree the decoder builds
back from those tags (it carries the same labels, nesting and token
sets as `T`, with the decoder's duplicated direct tokens). -/

def BTree.startIdx0 (t : BTree) : Nat :=
  t.toks.head?.getD 0

def BTree.endIdx0 (t : BTree) : Nat :=
  t.toks.getLast?.getD 0

/-- Pointwise concatenation of two tag layers of equal length. -/
def zipAppend : List (List String) → List (List String) → List (List String)
  | [], _ => []
  | _ :: _, [] => []
  | x :: xs, y :: ys => (x ++ y) :: zipAppend xs ys

mutual

/-- The tag layers contributed strictly below a node: a direct token
position carries no tag from below, a sub-span contributes its own
layers at its positions. -/
def tagsBelow : List (Nat ⊕ BTree) → List (List String)
  | [] => []
  | .inl _ :: rest => [] :: tagsBelow rest
  | .inr s :: rest => tagsOfTree s ++ tagsBelow rest

/-- For each position covered by the span (in order), the level tags of
the span and its descendants, outermost first: `B-lab` at the span's
first position, `I-lab` afterwards. -/
def tagsOfTree : BTree → List (List String)
  | .node l es =>
    match tagsBelow es with
    | [] => []
    | first :: rest =>
      (("B-" ++ l) :: first) :: rest.map (fun below => ("I-" ++ l) :: below)

end

/-- Positions `c+1 .. d` as token elements. -/
def innerToks (c d : Nat) : List (Nat ⊕ BTree) :=
  (List.range' (c + 1) (d - c)).map Sum.inl

mutual

/-- The element list the decoder accumulates for a node while reading
the node's tags back: a direct token stays; a sub-span `C` over
`[c, d]` is preceded by the node's own copy of token `c` (from the
`I-` tag of the node, absent when `C` starts the node) and followed by
the node's copies of tokens `c+1 .. d`. -/
def decElems : List (Nat ⊕ BTree) → Bool → List (Nat ⊕ BTree)
  | [], _ => []
  | .inl t :: rest, _ => .inl t :: decElems rest false
  | .inr c :: rest, isFirst =>
    (if isFirst then [] else [.inl c.startIdx0])
      ++ [.inr (pyDecoded c)] ++ innerToks c.startIdx0 c.endIdx0
      ++ decElems rest false

/-- The span tree the decoder reconstructs for a well-formed span. -/
def pyDecoded : BTree → BTree
  | .node l es => .node l (decElems es true)

end

mutual

/-- The frame contents for a node after the decoder has consumed all of
the node's positions: `pre` holds everything materialized before the
still-open last child (everything, when the node ends in a direct
token), `post` the node's token copies received while that child was
open; the third component is the still-open chain below the node. -/
def frameParts (preAcc : List (Nat ⊕ BTree)) :
    List (Nat ⊕ BTree) → Bool →
    (List (Nat ⊕ BTree) × List (Nat ⊕ BTree) × List Frame)
  | [], _ => (preAcc, [], [])
  | .inl t :: rest, _ => frameParts (preAcc ++ [.inl t]) rest false
  | .inr c :: rest, isFirst =>
    match rest with
    | _ :: _ =>
      frameParts
        (preAcc ++ (if isFirst then [] else [.inl c.startIdx0])
          ++ [.inr (pyDecoded c)] ++ innerToks c.startIdx0 c.endIdx0)
        rest false
    | [] =>
      (preAcc ++ (if isFirst then [] else [.inl c.startIdx0]),
       innerToks c.startIdx0 c.endIdx0,
       openChain c)

/-- The chain of frames still open after the decoder has consumed all
positions of a well-formed span (the span's rightmost spine). -/
def openChain (c : BTree) : List Frame :=
  match c with
  | .node l es =>
    match frameParts [] es true with
    | (pre, post, below) => { lab := l, pre := pre, post := post } :: below

end

/-- `"t1|t2|...|tk"`; an empty layer is the sentinel `O`. -/
def joinTags : List String → String
  | [] => "O"
  | [t] => t
  | t :: rest => t ++ "|" ++ joinTags rest

/-- The tag strings of one span seen at context depth `k`: below `k`
ancestor labels, every position of the span also carries an `I-` tag
for each ancestor. -/
def segStrings (ancL : List String) (t : BTree) : List String :=
  (tagsOfTree t).map (fun ts => joinTags (ancL.map (fun l => "I-" ++ l) ++ ts))

/-- Appending fresh tags to one position's existing tag string,
`appendTag`-style. -/
def appendJoin (cur : String) : List String → String
  | [] => cur
  | t :: rest => appendJoin (if cur = "" then t else cur ++ "|" ++ t) rest

/-- Apply tag layers at consecutive positions starting at `i`. -/
def applyTags (bio : List String) (i : Nat) : List (List String) → List String
  | [] => bio
  | ts :: rest => applyTags (bio.set i (appendJoin (bio.getD i "") ts)) (i + 1) rest

/-- The expected encoder output: every root's layers written onto an
initially empty sentence, untouched positions becoming the sentinel
`O`. -/
def forestStrings (spans : List BTree) (n : Nat) : List String :=
  (spans.foldl (fun bio t => applyTags bio t.startIdx0 (tagsOfTree t))
    (List.replicate n "")).map (fun s => if s = "" then "O" else s)

/-! ### Well-formedness: basic consequences -/

theorem isConsecutive_cons (x : Nat) (l : List Nat)
    (h : isConsecutive (x :: l) = true) :
    l = [] ∨ (l.headD 0 = x + 1 ∧ isConsecutive l = true) := by
  cases l with
  | nil => exact Or.inl rfl
  | cons y rest =>
    rw [isConsecutive, Bool.and_eq_true] at h
    right
    exact ⟨by simpa using (of_decide_eq_true h.1), h.2⟩

theorem isConsecutive_eq_range' (l : List Nat)
    (h : isConsecutive l = true) :
    l = List.range' (l.headD 0) l.length := by
  induction l with
  | nil => rfl
  | cons x rest ih =>
    rcases isConsecutive_cons x rest h with h2 | ⟨hhd, hc⟩
    · subst h2; rfl
    · have := ih hc
      cases rest with
      | nil => rfl
      | cons y rest2 =>
        simp only [List.headD_cons] at hhd this
        subst hhd
        simp only [List.headD_cons, List.length_cons, List.range'_succ]
        simpa [List.range'_succ] using this

theorem isConsecutive_append_left (xs ys : List Nat)
    (h : isConsecutive (xs ++ ys) = true) : isConsecutive xs = true := by
  induction xs with
  | nil => rfl
  | cons x rest ih =>
    cases rest with
    | nil => rfl
    | cons y rest2 =>
      rw [isConsecutive, Bool.and_eq_true]
      have h2 : isConsecutive (x :: y :: (rest2 ++ ys)) = true := h
      rw [isConsecutive, Bool.and_eq_true] at h2
      exact ⟨h2.1, ih h2.2⟩

theorem wfTree_node (l : String) (es : List (Nat ⊕ BTree))
    (h : wfTree (.node l es) = true) :
    labOkB l = true ∧ BTree.toksElems es ≠ []
    ∧ isConsecutive (BTree.toksElems es) = true ∧ wfElems es = true := by
  rw [wfTree, Bool.and_eq_true, Bool.and_eq_true, Bool.and_eq_true] at h
  refine ⟨h.1.1.1, ?_, h.1.2, h.2⟩
  intro hc
  rw [hc] at h
  simp at h

theorem wfElems_cons_tok (t : Nat) (rest : List (Nat ⊕ BTree))
    (h : wfElems (.inl t :: rest) = true) : wfElems rest = true := by
  rw [wfElems] at h
  exact h

theorem wfElems_cons_span (s : BTree) (rest : List (Nat ⊕ BTree))
    (h : wfElems (.inr s :: rest) = true) :
    wfTree s = true ∧ wfElems rest = true := by
  rw [wfElems, Bool.and_eq_true] at h
  exact h

/-- A well-formed span covers exactly the consecutive range from its
start to its end. -/
theorem wfTree_toks_range (t : BTree) (h : wfTree t = true) :
    t.toks = List.range' t.startIdx0 (t.toks.length)
    ∧ t.toks.length ≠ 0 := by
  obtain ⟨l, es⟩ := t
  obtain ⟨-, hne, hcons, -⟩ := wfTree_node l es h
  have htoks : BTree.toks (.node l es) = BTree.toksElems es := rfl
  constructor
  · rw [htoks, BTree.startIdx0, htoks]
    have := isConsecutive_eq_range' _ hcons
    cases hes : BTree.toksElems es with
    | nil => exact absurd hes hne
    | cons x rest =>
      rw [hes] at this
      simp only [List.headD_cons] at this
      rw [this]
      simp [List.head?_range']
  · rw [htoks]
    intro hc
    exact hne (List.eq_nil_of_length_eq_zero hc)

theorem wfTree_endIdx (t : BTree) (h : wfTree t = true) :
    t.endIdx0 = t.startIdx0 + t.toks.length - 1 := by
  obtain ⟨hr, hne⟩ := wfTree_toks_range t h
  rw [BTree.endIdx0, hr, List.getLast?_range']
  cases hn : t.toks.length with
  | zero => exact absurd hn hne
  | succ m => simp

/-! ### Phase C: the decoder's reconstruction is isomorphic -/

theorem toksElems_append (xs ys : List (Nat ⊕ BTree)) :
    BTree.toksElems (xs ++ ys) = BTree.toksElems xs ++ BTree.toksElems ys := by
  induction xs with
  | nil => rfl
  | cons e rest ih =>
    cases e with
    | inl t => rw [List.cons_append, BTree.toksElems, BTree.toksElems, ih]; rfl
    | inr s =>
      rw [List.cons_append, BTree.toksElems, BTree.toksElems, ih,
        List.append_assoc]

theorem natContains_iff (l : List Nat) (x : Nat) :
    l.contains x = true ↔ x ∈ l := by
  simp

theorem setEqB_of_mem_iff (a b : List Nat) (h : ∀ x, x ∈ a ↔ x ∈ b) :
    setEqB a b = true := by
  rw [setEqB, Bool.and_eq_true, listSubsetB, listSubsetB,
    List.all_eq_true, List.all_eq_true]
  constructor
  · intro x hx
    exact (natContains_iff b x).mpr ((h x).mp hx)
  · intro x hx
    exact (natContains_iff a x).mpr ((h x).mpr hx)

theorem startIdx0_mem_toks (t : BTree) (h : wfTree t = true) :
    t.startIdx0 ∈ t.toks := by
  obtain ⟨hr, hne⟩ := wfTree_toks_range t h
  rw [hr]
  rw [List.mem_range'_1]
  omega

theorem innerToks_toks_mem (t : BTree) (h : wfTree t = true) (x : Nat)
    (hx : x ∈ BTree.toksElems (innerToks t.startIdx0 t.endIdx0)) :
    x ∈ t.toks := by
  obtain ⟨hr, hne⟩ := wfTree_toks_range t h
  have hend := wfTree_endIdx t h
  have htoksinner : BTree.toksElems (innerToks t.startIdx0 t.endIdx0)
      = List.range' (t.startIdx0 + 1) (t.endIdx0 - t.startIdx0) := by
    rw [innerToks]
    generalize List.range' (t.startIdx0 + 1) (t.endIdx0 - t.startIdx0) = r
    induction r with
    | nil => rfl
    | cons a rest ih => rw [List.map_cons, BTree.toksElems, ih]
  rw [htoksinner, List.mem_range'_1] at hx
  rw [hr, List.mem_range'_1]
  omega

mutual

theorem pyDecoded_toks_mem (t : BTree) (h : wfTree t = true) (x : Nat) :
    x ∈ (pyDecoded t).toks ↔ x ∈ t.toks := by
  obtain ⟨l, es⟩ := t
  obtain ⟨-, -, -, hwfes⟩ := wfTree_node l es h
  rw [pyDecoded]
  exact decElems_toks_mem es true hwfes x

theorem decElems_toks_mem (es : List (Nat ⊕ BTree)) (f : Bool)
    (h : wfElems es = true) (x : Nat) :
    x ∈ BTree.toksElems (decElems es f) ↔ x ∈ BTree.toksElems es := by
  match es with
  | [] => rw [decElems]
  | .inl t :: rest =>
    rw [decElems, BTree.toksElems, BTree.toksElems]
    have ih := decElems_toks_mem rest false (wfElems_cons_tok t rest h) x
    simp only [List.mem_cons]
    rw [ih]
  | .inr c :: rest =>
    obtain ⟨hwfc, hwfrest⟩ := wfElems_cons_span c rest h
    have ihc := pyDecoded_toks_mem c hwfc x
    have ihr := decElems_toks_mem rest false hwfrest x
    rw [decElems, BTree.toksElems]
    rw [toksElems_append, toksElems_append, toksElems_append]
    simp only [List.mem_append]
    constructor
    · intro hx
      rcases hx with ((h1 | h2) | h3) | h4
      · left
        cases f with
        | true =>
          rw [if_pos rfl] at h1
          exact absurd h1 (List.not_mem_nil x)
        | false =>
          rw [if_neg (by simp)] at h1
          rw [BTree.toksElems, BTree.toksElems] at h1
          simp only [List.mem_singleton] at h1
          subst h1
          exact startIdx0_mem_toks c hwfc
      · left
        rw [show BTree.toksElems [Sum.inr (pyDecoded c)]
            = (pyDecoded c).toks ++ [] from rfl] at h2
        rw [List.append_nil] at h2
        exact ihc.mp h2
      · exact Or.inl (innerToks_toks_mem c hwfc x h3)
      · exact Or.inr (ihr.mp h4)
    · intro hx
      rcases hx with h1 | h2
      · left; left; right
        rw [show BTree.toksElems [Sum.inr (pyDecoded c)]
            = (pyDecoded c).toks ++ [] from rfl]
        rw [List.append_nil]
        exact ihc.mpr h1
      · right
        exact ihr.mpr h2
end

theorem isoElems_skipR (X : List (Nat ⊕ BTree)) (t : Nat)
    (Y : List (Nat ⊕ BTree)) :
    isoElems X (.inl t :: Y) = isoElems X Y := by
  match X with
  | [] => rw [isoElems]
  | .inl u :: X2 =>
    rw [isoElems, isoElems_skipR X2 t Y, isoElems]
  | .inr s :: X2 =>
    rw [isoElems]

theorem isoElems_inlmap (ns : List Nat) (X Y : List (Nat ⊕ BTree)) :
    isoElems (ns.map Sum.inl ++ X) Y = isoElems X Y := by
  induction ns with
  | nil => rfl
  | cons n rest ih =>
    rw [List.map_cons, List.cons_append, isoElems, ih]

mutual

theorem isoTree_pyDecoded (t : BTree) (h : wfTree t = true) :
    isoTree (pyDecoded t) t = true := by
  obtain ⟨l, es⟩ := t
  obtain ⟨-, -, -, hwfes⟩ := wfTree_node l es h
  rw [pyDecoded, isoTree, Bool.and_eq_true, Bool.and_eq_true]
  refine ⟨⟨by simp, ?_⟩, isoElems_decElems es true hwfes⟩
  exact setEqB_of_mem_iff _ _ (decElems_toks_mem es true hwfes)

theorem isoElems_decElems (es : List (Nat ⊕ BTree)) (f : Bool)
    (h : wfElems es = true) :
    isoElems (decElems es f) es = true := by
  match es with
  | [] => rw [decElems, isoElems]
  | .inl t :: rest =>
    rw [decElems, isoElems, isoElems_skipR]
    exact isoElems_decElems rest false (wfElems_cons_tok t rest h)
  | .inr c :: rest =>
    obtain ⟨hwfc, hwfrest⟩ := wfElems_cons_span c rest h
    rw [decElems]
    have hsh : (if f then ([] : List (Nat ⊕ BTree)) else [.inl c.startIdx0])
        ++ [.inr (pyDecoded c)] ++ innerToks c.startIdx0 c.endIdx0
        ++ decElems rest false
        = ((if f then ([] : List Nat) else [c.startIdx0]).map Sum.inl)
          ++ (.inr (pyDecoded c)
              :: (((List.range' (c.startIdx0 + 1) (c.endIdx0 - c.startIdx0)).map
                  Sum.inl) ++ decElems rest false)) := by
      cases f with
      | true => simp [innerToks]
      | false => simp [innerToks]
    rw [hsh, isoElems_inlmap, isoElems, Bool.and_eq_true]
    refine ⟨isoTree_pyDecoded c hwfc, ?_⟩
    rw [isoElems_inlmap]
    exact isoElems_decElems rest false hwfrest

end

/-- Phase C: the forest the decoder reconstructs from a well-formed
forest's tags is isomorphic to the original forest. -/
theorem isoForest_pyDecoded (spans : List BTree)
    (h : ∀ t ∈ spans, wfTree t = true) :
    isoForest (spans.map pyDecoded) spans = true := by
  induction spans with
  | nil => rfl
  | cons t rest ih =>
    rw [List.map_cons, isoForest, Bool.and_eq_true]
    exact ⟨isoTree_pyDecoded t (h t (List.mem_cons_self t rest)),
      ih fun s hs => h s (List.mem_cons_of_mem t hs)⟩

/-! ### Phase A: the encoder writes exactly the forest's tag layers -/

theorem appendJoin_append (c : String) (xs ys : List String) :
    appendJoin c (xs ++ ys) = appendJoin (appendJoin c xs) ys := by
  induction xs generalizing c with
  | nil => rfl
  | cons t rest ih => rw [List.cons_append, appendJoin, appendJoin, ih]

theorem length_applyTags (bio : List String) (i : Nat)
    (ts : List (List String)) :
    (applyTags bio i ts).length = bio.length := by
  induction ts generalizing bio i with
  | nil => rfl
  | cons t rest ih => rw [applyTags, ih, List.length_set]

theorem getD_set_ne (l : List String) (i j : Nat) (v : String) (h : i ≠ j) :
    (l.set i v).getD j "" = l.getD j "" := by
  induction l generalizing i j with
  | nil => rfl
  | cons x rest ih =>
    cases i with
    | zero =>
      cases j with
      | zero => exact absurd rfl h
      | succ j2 => rfl
    | succ i2 =>
      cases j with
      | zero => rfl
      | succ j2 =>
        rw [List.set_cons_succ, List.getD_cons_succ, List.getD_cons_succ]
        exact ih i2 j2 (by omega)

theorem getD_set_self (l : List String) (i : Nat) (v : String)
    (h : i < l.length) : (l.set i v).getD i "" = v := by
  induction l generalizing i with
  | nil => simp at h
  | cons x rest ih =>
    cases i with
    | zero => rfl
    | succ i2 =>
      rw [List.set_cons_succ, List.getD_cons_succ]
      exact ih i2 (by simpa using h)

theorem set_getD_self (l : List String) (i : Nat) (h : i < l.length) :
    l.set i (l.getD i "") = l := by
  induction l generalizing i with
  | nil => simp at h
  | cons x rest ih =>
    cases i with
    | zero => rfl
    | succ j =>
      rw [List.set_cons_succ, List.getD_cons_succ,
        ih j (by simpa using h)]

theorem applyTags_getD_lt (bio : List String) (i j : Nat)
    (ts : List (List String)) (h : j < i) :
    (applyTags bio i ts).getD j "" = bio.getD j "" := by
  induction ts generalizing bio i with
  | nil => rfl
  | cons t rest ih =>
    rw [applyTags, ih _ _ (by omega)]
    rw [getD_set_ne _ _ _ _ (by omega)]

theorem applyTags_set_lt (bio : List String) (i j : Nat) (v : String)
    (ts : List (List String)) (h : j < i) :
    applyTags (bio.set j v) i ts = (applyTags bio i ts).set j v := by
  induction ts generalizing bio i with
  | nil => rfl
  | cons t rest ih =>
    rw [applyTags, applyTags]
    rw [getD_set_ne _ _ _ _ (by omega)]
    rw [List.set_comm _ _ _ (by omega)]
    rw [ih _ _ (by omega)]

theorem applyTags_append (bio : List String) (i : Nat)
    (xs ys : List (List String)) :
    applyTags bio i (xs ++ ys)
      = applyTags (applyTags bio i xs) (i + xs.length) ys := by
  induction xs generalizing bio i with
  | nil => rfl
  | cons t rest ih =>
    rw [List.cons_append, applyTags, applyTags, ih]
    congr 1
    simp only [List.length_cons]
    omega

theorem applyTags_fuse (bio : List String) (i : Nat)
    (xs ys : List (List String)) (hlen : xs.length = ys.length)
    (hin : i + xs.length ≤ bio.length) :
    applyTags (applyTags bio i xs) i ys = applyTags bio i (zipAppend xs ys) := by
  induction xs generalizing bio i ys with
  | nil =>
    cases ys with
    | nil => rfl
    | cons y ys2 => simp at hlen
  | cons x xs2 ih =>
    cases ys with
    | nil => simp at hlen
    | cons y ys2 =>
      have hi : i < bio.length := by
        simp only [List.length_cons] at hin
        omega
      rw [applyTags, zipAppend, applyTags, applyTags]
      rw [applyTags_getD_lt _ _ _ _ (by omega)]
      rw [getD_set_self _ _ _ hi]
      rw [← applyTags_set_lt _ _ _ _ _ (by omega)]
      rw [List.set_set]
      rw [← appendJoin_append]
      refine ih _ _ _ (by simpa using hlen) ?_
      rw [List.length_set]
      simp only [List.length_cons] at hin
      omega

mutual

/-- The resolved `(label, start, end)` tuples of `get_bio_spans`, in
traversal order (parent first). -/
def tuplesN : BTree → List (String × Nat × Nat)
  | .node l es =>
    (l, (BTree.node l es).startIdx0, (BTree.node l es).endIdx0)
      :: tuplesNElems es

def tuplesNElems : List (Nat ⊕ BTree) → List (String × Nat × Nat)
  | [] => []
  | .inl _ :: rest => tuplesNElems rest
  | .inr s :: rest => tuplesN s ++ tuplesNElems rest

end

theorem resolveTuples_append (xs ys : List (String × Option Nat × Option Nat))
    (xr yr : List (String × Nat × Nat)) (hx : resolveTuples xs = .ok xr)
    (hy : resolveTuples ys = .ok yr) :
    resolveTuples (xs ++ ys) = .ok (xr ++ yr) := by
  induction xs generalizing xr with
  | nil =>
    rw [resolveTuples] at hx
    cases hx
    exact hy
  | cons e rest ih =>
    obtain ⟨l, s, e2⟩ := e
    cases s with
    | none => rw [resolveTuples] at hx; cases hx
    | some sv =>
      cases e2 with
      | none => rw [resolveTuples] at hx; cases hx
      | some ev =>
        rw [resolveTuples] at hx
        cases hres : resolveTuples rest with
        | error err => rw [hres] at hx; cases hx
        | ok restr =>
          rw [hres] at hx
          cases hx
          rw [List.cons_append, resolveTuples, ih restr hres]
          rfl

mutual

theorem resolveTuples_getBioSpans (t : BTree) (h : wfTree t = true) :
    resolveTuples (getBioSpans t) = .ok (tuplesN t) := by
  obtain ⟨l, es⟩ := t
  obtain ⟨-, hne, -, hwfes⟩ := wfTree_node l es h
  rw [getBioSpans, tuplesN]
  have hs : (BTree.node l es).startIdx = some ((BTree.node l es).startIdx0) := by
    rw [BTree.startIdx, BTree.startIdx0]
    cases he : (BTree.node l es).toks with
    | nil => exact absurd he hne
    | cons a r => rfl
  have hee : (BTree.node l es).endIdx = some ((BTree.node l es).endIdx0) := by
    rw [BTree.endIdx, BTree.endIdx0]
    cases he : (BTree.node l es).toks.getLast? with
    | none =>
      rw [List.getLast?_eq_none_iff] at he
      exact absurd he hne
    | some a => rfl
  rw [hs, hee, resolveTuples, resolveTuples_getBioSpansElems es hwfes]
  rfl

theorem resolveTuples_getBioSpansElems (es : List (Nat ⊕ BTree))
    (h : wfElems es = true) :
    resolveTuples (getBioSpansElems es) = .ok (tuplesNElems es) := by
  match es with
  | [] => rfl
  | .inl t :: rest =>
    rw [getBioSpansElems, tuplesNElems]
    exact resolveTuples_getBioSpansElems rest (wfElems_cons_tok t rest h)
  | .inr s :: rest =>
    obtain ⟨hwfs, hwfrest⟩ := wfElems_cons_span s rest h
    rw [getBioSpansElems, tuplesNElems]
    exact resolveTuples_append _ _ _ _
      (resolveTuples_getBioSpans s hwfs)
      (resolveTuples_getBioSpansElems rest hwfrest)

end

mutual

theorem tagsOfTree_length (t : BTree) :
    (tagsOfTree t).length = t.toks.length := by
  obtain ⟨l, es⟩ := t
  rw [tagsOfTree]
  have hb := tagsBelow_length es
  cases he : tagsBelow es with
  | nil =>
    rw [he] at hb
    show (0 : Nat) = (BTree.toksElems es).length
    simp at hb
    rw [← hb]
  | cons first rest =>
    rw [he] at hb
    show (first :: rest.map _).length = (BTree.toksElems es).length
    rw [← hb]
    simp

theorem tagsBelow_length (es : List (Nat ⊕ BTree)) :
    (tagsBelow es).length = (BTree.toksElems es).length := by
  match es with
  | [] => rfl
  | .inl t :: rest =>
    rw [tagsBelow, BTree.toksElems]
    simp only [List.length_cons]
    rw [tagsBelow_length rest]
  | .inr s :: rest =>
    rw [tagsBelow, BTree.toksElems, List.length_append, List.length_append,
      tagsBelow_length rest, tagsOfTree_length s]

end

mutual

theorem tuplesN_bounds (t : BTree) (h : wfTree t = true) :
    ∀ x ∈ tuplesN t,
      t.startIdx0 ≤ x.2.1 ∧ x.2.1 ≤ x.2.2 ∧ x.2.2 ≤ t.endIdx0 := by
  obtain ⟨l, es⟩ := t
  obtain ⟨-, hne, hcons, hwfes⟩ := wfTree_node l es h
  intro x hx
  have hrange := (wfTree_toks_range _ h).1
  have hlen := (wfTree_toks_range _ h).2
  have hend := wfTree_endIdx _ h
  rw [tuplesN] at hx
  rcases List.mem_cons.mp hx with hx1 | hx2
  · subst hx1
    refine ⟨Nat.le_refl _, ?_, Nat.le_refl _⟩
    show (BTree.node l es).startIdx0 ≤ (BTree.node l es).endIdx0
    rw [hend]
    omega
  · have hb := tuplesNElems_bounds es ((BTree.node l es).startIdx0)
      ((BTree.node l es).toks.length) hwfes hrange x hx2
    rw [hend]
    omega

theorem tuplesNElems_bounds (es : List (Nat ⊕ BTree)) (q m : Nat)
    (hwf : wfElems es = true)
    (htoks : BTree.toksElems es = List.range' q m) :
    ∀ x ∈ tuplesNElems es, q ≤ x.2.1 ∧ x.2.1 ≤ x.2.2 ∧ x.2.2 + 1 ≤ q + m := by
  match es with
  | [] => intro x hx; rw [tuplesNElems] at hx; cases hx
  | .inl t :: rest =>
    rw [BTree.toksElems] at htoks
    obtain ⟨hq, hm, hrest⟩ := List.range'_eq_cons_iff.mp htoks.symm
    subst hq
    intro x hx
    rw [tuplesNElems] at hx
    have := tuplesNElems_bounds rest (q + 1) (m - 1)
      (wfElems_cons_tok q rest hwf) hrest x hx
    omega
  | .inr c :: rest =>
    obtain ⟨hwfc, hwfrest⟩ := wfElems_cons_span c rest hwf
    rw [BTree.toksElems] at htoks
    obtain ⟨k, hkm, hc, hrest⟩ := List.range'_eq_append_iff.mp htoks.symm
    have hck := wfTree_toks_range c hwfc
    have hk0 : k ≠ 0 := by
      intro h0
      subst h0
      rw [List.range'_zero] at hc
      exact hck.2 (by rw [hc]; rfl)
    have hcstart : c.startIdx0 = q := by
      rw [BTree.startIdx0, hc, List.head?_range']
      simp [hk0]
    have hcend : c.endIdx0 = q + k - 1 := by
      rw [BTree.endIdx0, hc, List.getLast?_range']
      simp [hk0]
    intro x hx
    rw [tuplesNElems] at hx
    rcases List.mem_append.mp hx with hx1 | hx2
    · have := tuplesN_bounds c hwfc x hx1
      rw [hcstart, hcend] at this
      omega
    · have := tuplesNElems_bounds rest (q + k) (m - k) hwfrest hrest x hx2
      omega

end
theorem tupleLE_intro (la lb : String) (sa ea sb eb : Nat)
    (h : sa < sb ∨ (sa = sb ∧ eb ≤ ea)) :
    tupleLE (la, sa, ea) (lb, sb, eb) = true := by
  rcases h with h1 | ⟨h1, h2⟩
  · simp [tupleLE, h1]
  · simp [tupleLE, h1, h2]

theorem sortedInsertT_cons_of_le (x : String × Nat × Nat)
    (l : List (String × Nat × Nat))
    (h : ∀ y ∈ l.head?, tupleLE x y = true) :
    sortedInsertT x l = x :: l := by
  cases l with
  | nil => rfl
  | cons y rest =>
    rw [sortedInsertT, if_pos (h y rfl)]

theorem sortTuples_eq_self (l : List (String × Nat × Nat))
    (h : List.Chain' (fun a b => tupleLE a b = true) l) :
    sortTuples l = l := by
  induction l with
  | nil => rfl
  | cons x rest ih =>
    rw [sortTuples, ih h.tail, sortedInsertT_cons_of_le]
    intro y hy
    exact h.rel_head? hy

mutual

theorem tuplesN_chain (t : BTree) (h : wfTree t = true) :
    List.Chain' (fun a b => tupleLE a b = true) (tuplesN t) := by
  obtain ⟨l, es⟩ := t
  obtain ⟨-, hne, -, hwfes⟩ := wfTree_node l es h
  have hrange := (wfTree_toks_range _ h).1
  have hlen := (wfTree_toks_range _ h).2
  have hend := wfTree_endIdx _ h
  rw [tuplesN, List.chain'_cons']
  refine ⟨?_, tuplesNElems_chain es ((BTree.node l es).startIdx0)
    ((BTree.node l es).toks.length) hwfes hrange⟩
  intro y hy
  have hymem : y ∈ tuplesNElems es := List.mem_of_mem_head? hy
  have hb := tuplesNElems_bounds es ((BTree.node l es).startIdx0)
    ((BTree.node l es).toks.length) hwfes hrange y hymem
  obtain ⟨yl, ys, ye⟩ := y
  refine tupleLE_intro l yl _ _ ys ye ?_
  dsimp only at hb
  omega

theorem tuplesNElems_chain (es : List (Nat ⊕ BTree)) (q m : Nat)
    (hwf : wfElems es = true)
    (htoks : BTree.toksElems es = List.range' q m) :
    List.Chain' (fun a b => tupleLE a b = true) (tuplesNElems es) := by
  match es with
  | [] => rw [tuplesNElems]; exact List.chain'_nil
  | .inl t :: rest =>
    rw [BTree.toksElems] at htoks
    obtain ⟨hq, hm, hrest⟩ := List.range'_eq_cons_iff.mp htoks.symm
    subst hq
    rw [tuplesNElems]
    exact tuplesNElems_chain rest (q + 1) (m - 1)
      (wfElems_cons_tok q rest hwf) hrest
  | .inr c :: rest =>
    obtain ⟨hwfc, hwfrest⟩ := wfElems_cons_span c rest hwf
    rw [BTree.toksElems] at htoks
    obtain ⟨k, hkm, hc, hrest⟩ := List.range'_eq_append_iff.mp htoks.symm
    have hck := wfTree_toks_range c hwfc
    have hk0 : k ≠ 0 := by
      intro h0
      subst h0
      rw [List.range'_zero] at hc
      exact hck.2 (by rw [hc]; rfl)
    have hcend : c.endIdx0 = q + k - 1 := by
      rw [BTree.endIdx0, hc, List.getLast?_range']
      simp [hk0]
    rw [tuplesNElems, List.chain'_append]
    refine ⟨tuplesN_chain c hwfc,
      tuplesNElems_chain rest (q + k) (m - k) hwfrest hrest, ?_⟩
    intro x hx y hy
    have hxm : x ∈ tuplesN c := List.mem_of_mem_getLast? hx
    have hym : y ∈ tuplesNElems rest := List.mem_of_mem_head? hy
    have hbx := tuplesN_bounds c hwfc x hxm
    have hby := tuplesNElems_bounds rest (q + k) (m - k) hwfrest hrest y hym
    obtain ⟨xl, xs, xe⟩ := x
    obtain ⟨yl, ys, ye⟩ := y
    refine tupleLE_intro xl yl xs xe ys ye ?_
    dsimp only at hbx hby
    left
    omega

end

theorem sortTuples_tuplesN (t : BTree) (h : wfTree t = true) :
    sortTuples (tuplesN t) = tuplesN t :=
  sortTuples_eq_self _ (tuplesN_chain t h)
/-! ### Phase A: the write primitives compute `applyTags` -/

theorem pyGetStr_lt (l : List String) (i : Nat) (h : i < l.length) :
    pyGetStr l i = .ok (l.getD i "") := by
  induction l generalizing i with
  | nil => simp at h
  | cons x rest ih =>
    cases i with
    | zero => rfl
    | succ j =>
      rw [List.getD_cons_succ]
      exact ih j (by simpa using h)

theorem pySetStr_lt (l : List String) (i : Nat) (v : String)
    (h : i < l.length) : pySetStr l i v = .ok (l.set i v) := by
  rw [pySetStr, if_pos h]

theorem appendTag_eq (bio : List String) (i : Nat) (tag : String)
    (h : i < bio.length) :
    appendTag bio i tag = .ok (applyTags bio i [[tag]]) := by
  rw [appendTag, pyGetStr_lt _ _ h, exceptBindOk, pySetStr_lt _ _ _ h]
  rfl

theorem writeRange_eq (lab : String) (n : Nat) : ∀ (i : Nat)
    (bio : List String), i + n ≤ bio.length →
    writeRange lab (List.range' i n) bio
      = .ok (applyTags bio i (List.replicate n ["I-" ++ lab])) := by
  induction n with
  | zero => intro i bio _; rfl
  | succ n2 ih =>
    intro i bio h
    rw [List.range'_succ, writeRange, appendTag_eq _ _ _ (by omega),
      exceptBindOk, ih (i + 1) _ (by rw [length_applyTags]; omega),
      List.replicate_succ,
      show (["I-" ++ lab] :: List.replicate n2 ["I-" ++ lab])
        = [["I-" ++ lab]] ++ List.replicate n2 ["I-" ++ lab] from rfl,
      applyTags_append]
    rfl

/-- The tag layers one `(label, start, end)` tuple contributes over its
`n = end + 1 - start` positions: `B-label` then `I-label`s. -/
def ownLayer (l : String) (n : Nat) : List (List String) :=
  ["B-" ++ l] :: List.replicate (n - 1) ["I-" ++ l]

theorem ownLayer_length (l : String) (n : Nat) (h : n ≠ 0) :
    (ownLayer l n).length = n := by
  rw [ownLayer]
  simp only [List.length_cons, List.length_replicate]
  omega

theorem writeTuple_eq (bio : List String) (l : String) (s e : Nat)
    (hse : s ≤ e) (h : e < bio.length) :
    writeTuple bio (l, s, e)
      = .ok (applyTags bio s (ownLayer l (e + 1 - s))) := by
  rw [writeTuple]
  dsimp only
  rw [appendTag_eq _ _ _ (by omega), exceptBindOk,
    writeRange_eq _ _ _ _ (by rw [length_applyTags]; omega), ownLayer]
  have hn : e + 1 - s - 1 = e - s := by omega
  rw [hn,
    show (["B-" ++ l] :: List.replicate (e - s) ["I-" ++ l])
      = [["B-" ++ l]] ++ List.replicate (e - s) ["I-" ++ l] from rfl,
    applyTags_append]
  rfl

theorem zipAppend_replicate (a : String) (ys : List (List String)) :
    zipAppend (List.replicate ys.length [a]) ys
      = ys.map (fun b => a :: b) := by
  induction ys with
  | nil => rfl
  | cons y rest ih =>
    rw [List.length_cons, List.replicate_succ, List.map_cons, zipAppend, ih]
    rfl

theorem tagsOfTree_eq (l : String) (es : List (Nat ⊕ BTree))
    (hne : BTree.toksElems es ≠ []) :
    tagsOfTree (.node l es)
      = zipAppend (ownLayer l (BTree.toksElems es).length) (tagsBelow es) := by
  have hlen := tagsBelow_length es
  rw [tagsOfTree]
  cases he : tagsBelow es with
  | nil =>
    exfalso
    rw [he] at hlen
    exact hne (List.eq_nil_of_length_eq_zero hlen.symm)
  | cons first rest =>
    rw [he] at hlen
    rw [ownLayer]
    have h1 : (BTree.toksElems es).length - 1 = rest.length := by
      simp only [List.length_cons] at hlen
      omega
    rw [h1, zipAppend, zipAppend_replicate]
    rfl
theorem writeTuples_append (xs ys : List (String × Nat × Nat))
    (bio bio1 : List String) (hx : writeTuples xs bio = .ok bio1) :
    writeTuples (xs ++ ys) bio = writeTuples ys bio1 := by
  induction xs generalizing bio with
  | nil =>
    rw [writeTuples] at hx
    cases hx
    rfl
  | cons t rest ih =>
    rw [writeTuples] at hx
    rw [List.cons_append, writeTuples]
    cases hw : writeTuple bio t with
    | error e =>
      rw [hw] at hx
      exact absurd hx (by intro hc; cases hc)
    | ok b =>
      rw [hw, exceptBindOk] at hx
      rw [exceptBindOk]
      exact ih b hx

mutual

theorem writeTuples_tree (t : BTree) (bio : List String)
    (h : wfTree t = true)
    (hin : t.startIdx0 + t.toks.length ≤ bio.length) :
    writeTuples (tuplesN t) bio
      = .ok (applyTags bio t.startIdx0 (tagsOfTree t)) := by
  obtain ⟨l, es⟩ := t
  obtain ⟨-, hne, -, hwfes⟩ := wfTree_node l es h
  have hrange := (wfTree_toks_range _ h).1
  have hlen := (wfTree_toks_range _ h).2
  have hend := wfTree_endIdx _ h
  have hsle : (BTree.node l es).startIdx0 ≤ (BTree.node l es).endIdx0 := by
    rw [hend]; omega
  have helt : (BTree.node l es).endIdx0 < bio.length := by
    rw [hend]; omega
  rw [tuplesN, writeTuples, writeTuple_eq bio l _ _ hsle helt, exceptBindOk]
  have hm : (BTree.node l es).endIdx0 + 1 - (BTree.node l es).startIdx0
      = (BTree.node l es).toks.length := by
    rw [hend]; omega
  rw [hm]
  rw [writeTuples_elems es _ ((BTree.node l es).startIdx0)
    ((BTree.node l es).toks.length) hwfes hrange
    (by rw [length_applyTags]; exact hin)]
  rw [applyTags_fuse bio _ _ _
    (by
      rw [ownLayer_length _ _ hlen, tagsBelow_length]
      rfl)
    (by rw [ownLayer_length _ _ hlen]; exact hin)]
  rw [tagsOfTree_eq l es hne]
  rfl

theorem writeTuples_elems (es : List (Nat ⊕ BTree)) (bio : List String)
    (q m : Nat) (hwf : wfElems es = true)
    (htoks : BTree.toksElems es = List.range' q m)
    (hin : q + m ≤ bio.length) :
    writeTuples (tuplesNElems es) bio
      = .ok (applyTags bio q (tagsBelow es)) := by
  match es with
  | [] => rfl
  | .inl t :: rest =>
    rw [BTree.toksElems] at htoks
    obtain ⟨hq, hm, hrest⟩ := List.range'_eq_cons_iff.mp htoks.symm
    subst hq
    rw [tuplesNElems, tagsBelow,
      writeTuples_elems rest bio (q + 1) (m - 1)
        (wfElems_cons_tok q rest hwf) hrest (by omega),
      applyTags,
      show appendJoin (bio.getD q "") [] = bio.getD q "" from rfl,
      set_getD_self bio q (by omega)]
  | .inr c :: rest =>
    obtain ⟨hwfc, hwfrest⟩ := wfElems_cons_span c rest hwf
    rw [BTree.toksElems] at htoks
    obtain ⟨k, hkm, hc, hrest⟩ := List.range'_eq_append_iff.mp htoks.symm
    have hck := wfTree_toks_range c hwfc
    have hk0 : k ≠ 0 := by
      intro h0
      subst h0
      rw [List.range'_zero] at hc
      exact hck.2 (by rw [hc]; rfl)
    have hcstart : c.startIdx0 = q := by
      rw [BTree.startIdx0, hc, List.head?_range']
      simp [hk0]
    have hclen : c.toks.length = k := by
      rw [hc, List.length_range']
    have h1 : writeTuples (tuplesN c) bio
        = .ok (applyTags bio q (tagsOfTree c)) := by
      rw [writeTuples_tree c bio hwfc (by rw [hcstart, hclen]; omega), hcstart]
    have hlc : (tagsOfTree c).length = k := by
      rw [tagsOfTree_length, hclen]
    rw [tuplesNElems, writeTuples_append _ _ _ _ h1,
      writeTuples_elems rest _ (q + k) (m - k) hwfrest hrest
        (by rw [length_applyTags]; omega),
      tagsBelow, applyTags_append, hlc]

end
theorem writeSpan_eq (bio : List String) (t : BTree) (h : wfTree t = true)
    (hin : t.startIdx0 + t.toks.length ≤ bio.length) :
    writeSpan bio t = .ok (applyTags bio t.startIdx0 (tagsOfTree t)) := by
  rw [writeSpan, resolveTuples_getBioSpans t h, exceptBindOk,
    sortTuples_tuplesN t h]
  exact writeTuples_tree t bio h hin

theorem wfForestFrom_cons (s : BTree) (rest : List BTree) (ms n : Nat)
    (h : wfForestFrom (s :: rest) ms n = true) :
    wfTree s = true ∧ ms ≤ s.startIdx0 ∧ s.endIdx0 < n
    ∧ wfForestFrom rest (s.endIdx0 + 2) n = true := by
  rw [wfForestFrom, Bool.and_eq_true] at h
  obtain ⟨hwf, hm⟩ := h
  have hr := wfTree_toks_range s hwf
  have hne : s.toks ≠ [] := by
    intro hc
    exact hr.2 (by rw [hc]; rfl)
  have hh : s.toks.head? = some s.startIdx0 := by
    rw [hr.1, List.head?_range']
    simp [hr.2]
  have hg : s.toks.getLast? = some s.endIdx0 := by
    cases hgl : s.toks.getLast? with
    | none =>
      rw [List.getLast?_eq_none_iff] at hgl
      exact absurd hgl hne
    | some x => rw [BTree.endIdx0, hgl]; rfl
  rw [hh, hg] at hm
  simp only [Bool.and_eq_true, decide_eq_true_eq] at hm
  exact ⟨hwf, hm.1.1, hm.1.2, hm.2⟩

theorem writeAllSpans_eq (n : Nat) (spans : List BTree) :
    ∀ (bio : List String) (ms : Nat), bio.length = n →
    wfForestFrom spans ms n = true →
    writeAllSpans spans bio
      = .ok (spans.foldl
          (fun b t => applyTags b t.startIdx0 (tagsOfTree t)) bio) := by
  induction spans with
  | nil => intro bio ms _ _; rfl
  | cons t rest ih =>
    intro bio ms hlen hwf
    obtain ⟨hwft, hms, hend, hrest⟩ := wfForestFrom_cons t rest ms n hwf
    have hendeq := wfTree_endIdx t hwft
    have hlen2 := (wfTree_toks_range t hwft).2
    have hin : t.startIdx0 + t.toks.length ≤ bio.length := by
      rw [hlen]
      omega
    rw [writeAllSpans, writeSpan_eq bio t hwft hin, exceptBindOk,
      List.foldl_cons]
    exact ih _ (t.endIdx0 + 2) (by rw [length_applyTags]; exact hlen) hrest

/-- Phase A: on a well-formed forest the encoder produces exactly the
forest's layered tag strings. -/
theorem spanToBIOAnn_eq (spans : List BTree) (n : Nat)
    (h : wfForest spans n = true) :
    spanToBIOAnn spans n = .ok (forestStrings spans n) := by
  rw [spanToBIOAnn, forestStrings,
    writeAllSpans_eq n spans (List.replicate n "") 0 (by simp) h,
    exceptBindOk]
  rfl
/-! ### Phase B: string facts about the tag grammar -/

theorem strDataAppend (a b : String) : (a ++ b).data = a.data ++ b.data := by
  obtain ⟨x⟩ := a
  obtain ⟨y⟩ := b
  rfl

theorem tag_data_B (x : String) : ("B-" ++ x).data = 'B' :: '-' :: x.data := by
  obtain ⟨d⟩ := x
  rfl

theorem tag_data_I (x : String) : ("I-" ++ x).data = 'I' :: '-' :: x.data := by
  obtain ⟨d⟩ := x
  rfl

theorem strStartsWith_B_B (x : String) :
    Classig.strStartsWith ("B-" ++ x) "B-" = true := by
  rw [Classig.strStartsWith, tag_data_B]
  rfl

theorem strStartsWith_I_B (x : String) :
    Classig.strStartsWith ("I-" ++ x) "B-" = false := by
  rw [Classig.strStartsWith, tag_data_I]
  rfl

theorem strStartsWith_I_I (x : String) :
    Classig.strStartsWith ("I-" ++ x) "I-" = true := by
  rw [Classig.strStartsWith, tag_data_I]
  rfl

theorem labOkB_parts (l : String) (h : labOkB l = true) :
    ¬ '-' ∈ l.data ∧ ¬ '|' ∈ l.data
    ∧ ∀ c ∈ l.data, c.isWhitespace = false := by
  rw [labOkB, Bool.and_eq_true, Bool.and_eq_true] at h
  obtain ⟨⟨h1, h2⟩, h3⟩ := h
  refine ⟨by simpa using h1, by simpa using h2, fun c hc => ?_⟩
  simpa using (List.all_eq_true.mp h3) c hc

theorem splitOnChar_cons (sep c : Char) (l : List Char) :
    Classig.splitOnChar sep (c :: l)
      = match Classig.splitOnChar sep l with
        | [] => if c = sep then [[], []] else [[c]]
        | cur :: rest =>
          if c = sep then [] :: cur :: rest else (c :: cur) :: rest := rfl

theorem splitOnChar_ne_nil (sep : Char) (l : List Char) :
    Classig.splitOnChar sep l ≠ [] := by
  induction l with
  | nil => simp [Classig.splitOnChar]
  | cons c rest ih =>
    rw [splitOnChar_cons]
    cases hs : Classig.splitOnChar sep rest with
    | nil => exact absurd hs ih
    | cons cur r => by_cases hc : c = sep <;> simp [hc]

theorem splitOnChar_nosep (sep : Char) (l : List Char) (h : ¬ sep ∈ l) :
    Classig.splitOnChar sep l = [l] := by
  induction l with
  | nil => rfl
  | cons c rest ih =>
    have hc : c ≠ sep := fun hc => h (hc ▸ List.mem_cons_self c rest)
    have hrest : ¬ sep ∈ rest := fun hm => h (List.mem_cons_of_mem c hm)
    rw [splitOnChar_cons, ih hrest]
    simp [hc]

theorem splitOnChar_sep_append (sep : Char) (x y : List Char)
    (hx : ¬ sep ∈ x) :
    Classig.splitOnChar sep (x ++ sep :: y)
      = x :: Classig.splitOnChar sep y := by
  induction x with
  | nil =>
    rw [List.nil_append, splitOnChar_cons]
    cases hy : Classig.splitOnChar sep y with
    | nil => exact absurd hy (splitOnChar_ne_nil sep y)
    | cons cur r => simp
  | cons c x2 ih =>
    have hc : c ≠ sep := fun hc => hx (hc ▸ List.mem_cons_self c x2)
    have hx2 : ¬ sep ∈ x2 := fun hm => hx (List.mem_cons_of_mem c hm)
    rw [List.cons_append, splitOnChar_cons, ih hx2]
    simp [hc]

theorem pySplit_joinTags (ts : List String) (hne : ts ≠ [])
    (h : ∀ s ∈ ts, ¬ '|' ∈ s.data) :
    Classig.pySplit (joinTags ts) '|' = ts := by
  induction ts with
  | nil => exact absurd rfl hne
  | cons t rest ih =>
    cases rest with
    | nil =>
      show Classig.pySplit t '|' = [t]
      rw [Classig.pySplit, splitOnChar_nosep _ _ (h t (by simp))]
      obtain ⟨d⟩ := t
      rfl
    | cons u r =>
      show Classig.pySplit (t ++ "|" ++ joinTags (u :: r)) '|' = t :: u :: r
      rw [Classig.pySplit]
      have hdata : (t ++ "|" ++ joinTags (u :: r)).data
          = t.data ++ '|' :: (joinTags (u :: r)).data := by
        rw [strDataAppend, strDataAppend]
        simp
      rw [hdata, splitOnChar_sep_append _ _ _ (h t (by simp)), List.map_cons]
      have ht : String.mk t.data = t := by
        obtain ⟨d⟩ := t
        rfl
      rw [ht]
      have := ih (by simp) (fun s hs => h s (List.mem_cons_of_mem t hs))
      rw [Classig.pySplit] at this
      rw [this]

theorem pySplit_tag_B (x : String) (h : ¬ '-' ∈ x.data) :
    Classig.pySplit ("B-" ++ x) '-' = ["B", x] := by
  rw [Classig.pySplit, tag_data_B,
    show ('B' :: '-' :: x.data) = ['B'] ++ '-' :: x.data from rfl,
    splitOnChar_sep_append _ _ _ (by decide), splitOnChar_nosep _ _ h]
  obtain ⟨d⟩ := x
  rfl

theorem dropWhile_eq_self_of {α : Type} (p : α → Bool) (l : List α)
    (h : ∀ c ∈ l, p c = false) : l.dropWhile p = l := by
  cases l with
  | nil => rfl
  | cons c rest => simp [List.dropWhile_cons, h c (List.mem_cons_self c rest)]

theorem pyStrip_id (s : String) (h : ∀ c ∈ s.data, c.isWhitespace = false) :
    Classig.pyStrip s = s := by
  rw [Classig.pyStrip, Classig.trimCharList, dropWhile_eq_self_of _ _ h,
    dropWhile_eq_self_of _ _ (fun c hc => h c (List.mem_reverse.mp hc)),
    List.reverse_reverse]
/-- A tag string as produced by the encoder: `B-x` or `I-x` with a clean
label `x`. -/
def tagOkP (s : String) : Prop :=
  ∃ x, labOkB x = true ∧ (s = "B-" ++ x ∨ s = "I-" ++ x)

theorem tagOk_facts (s : String) (h : tagOkP s) :
    s.data ≠ [] ∧ (∀ c ∈ s.data, c.isWhitespace = false)
    ∧ ¬ '|' ∈ s.data := by
  obtain ⟨x, hx, hs⟩ := h
  obtain ⟨hd, hp, hw⟩ := labOkB_parts x hx
  have key : ∀ (c0 : Char), c0.isWhitespace = false → c0 ≠ '|' →
      ∀ l : List Char, l = c0 :: '-' :: x.data →
      l ≠ [] ∧ (∀ c ∈ l, c.isWhitespace = false) ∧ ¬ '|' ∈ l := by
    intro c0 hc0 hc0p l hl
    subst hl
    refine ⟨by simp, fun c hc => ?_, fun hc => ?_⟩
    · rcases List.mem_cons.mp hc with rfl | hc
      · exact hc0
      · rcases List.mem_cons.mp hc with rfl | hc
        · decide
        · exact hw c hc
    · rcases List.mem_cons.mp hc with h1 | hc
      · exact hc0p h1.symm
      · rcases List.mem_cons.mp hc with h1 | hc
        · exact absurd h1 (by decide)
        · exact hp hc
  rcases hs with rfl | rfl
  · exact key 'B' (by decide) (by decide) _ (tag_data_B x)
  · exact key 'I' (by decide) (by decide) _ (tag_data_I x)

theorem joinTags_nonws (ts : List String) (hne : ts ≠ [])
    (h : ∀ s ∈ ts, tagOkP s) :
    ∀ c ∈ (joinTags ts).data, c.isWhitespace = false := by
  induction ts with
  | nil => exact absurd rfl hne
  | cons t rest ih =>
    cases rest with
    | nil =>
      intro c hc
      exact (tagOk_facts t (h t (by simp))).2.1 c hc
    | cons u r =>
      intro c hc
      have hd : (joinTags (t :: u :: r)).data
          = t.data ++ '|' :: (joinTags (u :: r)).data := by
        show (t ++ "|" ++ joinTags (u :: r)).data = _
        rw [strDataAppend, strDataAppend]
        simp
      rw [hd] at hc
      rcases List.mem_append.mp hc with hc | hc
      · exact (tagOk_facts t (h t (by simp))).2.1 c hc
      · rcases List.mem_cons.mp hc with rfl | hc
        · decide
        · exact ih (by simp) (fun s hs => h s (List.mem_cons_of_mem t hs)) c hc

theorem joinTags_head_tag (t : String) (rest : List String) (ht : tagOkP t) :
    ∃ c, (joinTags (t :: rest)).data.head? = some c
      ∧ (c = 'B' ∨ c = 'I') := by
  obtain ⟨x, hx, hs | hs⟩ := ht <;> subst hs
  · refine ⟨'B', ?_, Or.inl rfl⟩
    cases rest with
    | nil =>
      rw [show joinTags ["B-" ++ x] = "B-" ++ x from rfl, tag_data_B]
      rfl
    | cons u r =>
      show ((("B-" ++ x) ++ "|") ++ joinTags (u :: r)).data.head? = some 'B'
      rw [strDataAppend, strDataAppend, tag_data_B]
      rfl
  · refine ⟨'I', ?_, Or.inr rfl⟩
    cases rest with
    | nil =>
      rw [show joinTags ["I-" ++ x] = "I-" ++ x from rfl, tag_data_I]
      rfl
    | cons u r =>
      show ((("I-" ++ x) ++ "|") ++ joinTags (u :: r)).data.head? = some 'I'
      rw [strDataAppend, strDataAppend, tag_data_I]
      rfl

theorem joinTags_ne_sentinels (t : String) (rest : List String)
    (ht : tagOkP t) :
    ¬ (joinTags (t :: rest) = "O" ∨ joinTags (t :: rest) = "_") := by
  obtain ⟨c, hc, hBI⟩ := joinTags_head_tag t rest ht
  intro h
  rcases hBI with rfl | rfl <;> rcases h with h | h <;> rw [h] at hc <;>
    exact absurd hc (by decide)

/-- Decoding one token whose tag string is the join of well-formed tag
layers: the sentinel test fails, stripping and splitting recover the
layers, and the stack is cut to the number of levels. -/
theorem bioToken_layers (out : List BTree) (stack : List Frame) (tok : Nat)
    (ts : List String) (hne : ts ≠ []) (h : ∀ s ∈ ts, tagOkP s) :
    bioToken (out, stack) tok (joinTags ts)
      = bioLevels tok ts.length ts 0 (out, cutStack stack ts.length) := by
  obtain ⟨t, rest, rfl⟩ := List.exists_cons_of_ne_nil hne
  rw [bioToken, if_neg (joinTags_ne_sentinels t rest (h t (by simp))),
    pyStrip_id _ (joinTags_nonws _ (by simp) h),
    pySplit_joinTags _ (by simp) (fun s hs => (tagOk_facts s (h s hs)).2.2)]

theorem bioLevelStep_B (numAnnos tok : Nat) (st : List BTree × List Frame)
    (i : Nat) (x : String) (hx : labOkB x = true) :
    bioLevelStep numAnnos tok st i ("B-" ++ x)
      = .ok (bioBStep st.1 st.2 i numAnnos tok x) := by
  rw [bioLevelStep, if_pos (strStartsWith_B_B x),
    pySplit_tag_B x (labOkB_parts x hx).1]
  rfl

theorem bioLevelStep_I (numAnnos tok : Nat) (st : List BTree × List Frame)
    (i : Nat) (x : String) (hi : i < st.2.length) :
    bioLevelStep numAnnos tok st i ("I-" ++ x)
      = .ok (st.1, stackAppendTok st.2 i tok) := by
  rw [bioLevelStep, if_neg (by simp [strStartsWith_I_B]),
    if_pos (strStartsWith_I_I x), if_pos hi]
/-! ### Phase B: stack machine primitives -/

/-- The `I-` context tags contributed by a chain of open ancestors. -/
def ancTags (ancL : List String) : List String :=
  ancL.map (fun x => "I-" ++ x)

/-- Appending token copies to the `post` list of every frame of a
context (the effect of the `I-` ancestor levels over a range of
positions). -/
def ctxPost (ctx : List Frame) (ps : List Nat) : List Frame :=
  ctx.map (fun f => { f with post := f.post ++ ps.map Sum.inl })

theorem ctxPost_nil (ctx : List Frame) : ctxPost ctx [] = ctx := by
  induction ctx with
  | nil => rfl
  | cons f rest ih =>
    obtain ⟨a, b, c⟩ := f
    rw [ctxPost, List.map_cons]
    have h2 : List.map
        (fun f => { f with post := f.post ++ List.map Sum.inl ([] : List Nat) })
        rest = rest := ih
    rw [h2]
    simp

theorem ctxPost_cons (ctx : List Frame) (p : Nat) (ps : List Nat) :
    ctxPost (ctxPost ctx [p]) ps = ctxPost ctx (p :: ps) := by
  simp [ctxPost, List.map_map, Function.comp, List.append_assoc]

theorem applyN_add {α : Type} (f : α → α) (a b : Nat) (x : α) :
    applyN f (a + b) x = applyN f b (applyN f a x) := by
  induction a generalizing x with
  | zero =>
    rw [Nat.zero_add]
    rfl
  | succ a2 ih =>
    rw [Nat.succ_add, applyN, ih]
    rfl

theorem popFoldK_front (front rest : List Frame) (h : 2 ≤ rest.length) :
    popFoldK (front ++ rest) = front ++ popFoldK rest := by
  cases rest using List.reverseRecOn with
  | nil => simp at h
  | append_singleton r1 x =>
    cases r1 using List.reverseRecOn with
    | nil => simp at h
    | append_singleton r2 y =>
      rw [popFoldK,
        show front ++ (r2 ++ [y] ++ [x]) = (front ++ (r2 ++ [y])) ++ [x] by
          simp,
        popLast_append_singleton]
      dsimp only
      rw [show front ++ (r2 ++ [y]) = (front ++ r2) ++ [y] by simp,
        popLast_append_singleton]
      dsimp only
      rw [popFoldK, show r2 ++ [y] ++ [x] = (r2 ++ [y]) ++ [x] from rfl,
        popLast_append_singleton]
      dsimp only
      rw [popLast_append_singleton]
      dsimp only
      simp

theorem applyN_popFoldK_front (k : Nat) : ∀ (front rest : List Frame),
    k + 1 ≤ rest.length →
    applyN popFoldK k (front ++ rest) = front ++ applyN popFoldK k rest := by
  induction k with
  | zero => intro front rest _; rfl
  | succ k2 ih =>
    intro front rest h
    rw [applyN, applyN, popFoldK_front front rest (by omega)]
    exact ih front (popFoldK rest) (by rw [popFoldK_length]; omega)

theorem updateAt_append_cons {α : Type} (xs : List α) (y : α) (zs : List α)
    (f : α → α) :
    updateAt (xs ++ y :: zs) xs.length f = xs ++ f y :: zs := by
  induction xs with
  | nil => rfl
  | cons a rest ih =>
    rw [List.cons_append, List.length_cons, updateAt, ih, List.cons_append]

theorem stackAppendTok_post (front : List Frame) (g : Frame)
    (chain : List Frame) (hch : chain ≠ []) (tok : Nat) :
    stackAppendTok (front ++ g :: chain) front.length tok
      = front ++ { g with post := g.post ++ [.inl tok] } :: chain := by
  have hlen : (front ++ g :: chain).length
      = front.length + chain.length + 1 := by
    simp
    omega
  have hpos : chain.length ≠ 0 := by
    intro h0
    exact hch (List.eq_nil_of_length_eq_zero h0)
  rw [stackAppendTok, if_neg (by rw [hlen]; omega), updateAt_append_cons]

theorem stackAppendTok_pre (front : List Frame) (g : Frame) (tok : Nat) :
    stackAppendTok (front ++ [g]) front.length tok
      = front ++ [{ g with pre := g.pre ++ [.inl tok] }] := by
  rw [stackAppendTok, if_pos (by simp), updateAt_append_cons]

theorem bioBStep_push (out : List BTree) (stack : List Frame) (L tok : Nat)
    (x : String) :
    bioBStep out stack stack.length L tok x
      = (out, stack ++ [{ lab := x,
                          pre := (if stack.length < L - 1
                                  then ([] : List (Nat ⊕ BTree))
                                  else [.inl tok]),
                          post := [] }]) := by
  rw [bioBStep]
  cases stack with
  | nil => rfl
  | cons g rest =>
    rw [if_neg (by simp)]
    rw [cutStack, Nat.sub_self]
    rfl
/-- Processing the `I-` ancestor levels of one position: with a
non-empty chain below them, every context frame receives a `post` copy
of the token. -/
theorem bioLevels_anc (tok L : Nat) (own : List String) (out : List BTree)
    (ancL : List String) :
    ∀ (front ctx chain : List Frame),
    ancL.length = ctx.length → chain ≠ [] →
    bioLevels tok L (ancTags ancL ++ own) front.length
        (out, front ++ ctx ++ chain)
      = bioLevels tok L own (front.length + ctx.length)
          (out, front ++ ctxPost ctx [tok] ++ chain) := by
  induction ancL with
  | nil =>
    intro front ctx chain hlen hch
    have hctx : ctx = [] := List.eq_nil_of_length_eq_zero hlen.symm
    subst hctx
    rfl
  | cons a ls ih =>
    intro front ctx chain hlen hch
    cases ctx with
    | nil => simp at hlen
    | cons g rest =>
      rw [show ancTags (a :: ls) ++ own
          = ("I-" ++ a) :: (ancTags ls ++ own) from rfl,
        bioLevels,
        show front ++ (g :: rest) ++ chain
          = front ++ g :: (rest ++ chain) by simp]
      rw [bioLevelStep_I _ _ _ _ _
        (by simp only [List.length_append, List.length_cons]; omega)]
      rw [exceptBindOk,
        stackAppendTok_post front g (rest ++ chain)
          (by simp [hch]) tok]
      dsimp only
      have step := ih (front ++ [{ g with post := g.post ++ [Sum.inl tok] }])
        rest chain (by simpa using hlen) hch
      have e1 : front ++ { g with post := g.post ++ [Sum.inl tok] }
            :: (rest ++ chain)
          = (front ++ [{ g with post := g.post ++ [Sum.inl tok] }])
            ++ rest ++ chain := by
        simp
      have e2 : front.length + 1
          = (front ++ [{ g with post := g.post ++ [Sum.inl tok] }]).length := by
        simp
      rw [e1, e2, step]
      have e3 : (front ++ [{ g with post := g.post ++ [Sum.inl tok] }]).length
            + rest.length
          = front.length + (g :: rest).length := by
        simp
        omega
      have e4 : (front ++ [{ g with post := g.post ++ [Sum.inl tok] }])
            ++ ctxPost rest [tok] ++ chain
          = front ++ ctxPost (g :: rest) [tok] ++ chain := by
        rw [ctxPost, ctxPost, List.map_cons]
        simp
      rw [e3, e4]

/-- The `I-` level of the deepest frame pre-appends the token. -/
theorem bioLevels_ilast (tok L : Nat) (own : List String) (out : List BTree)
    (front : List Frame) (cur : Frame) (x : String) :
    bioLevels tok L (("I-" ++ x) :: own) front.length (out, front ++ [cur])
      = bioLevels tok L own (front.length + 1)
          (out, front ++ [{ cur with pre := cur.pre ++ [.inl tok] }]) := by
  rw [bioLevels, bioLevelStep_I _ _ _ _ _ (by simp), exceptBindOk,
    stackAppendTok_pre]

/-- A `B-` level at index `stack.length` opens a fresh frame on top; the
token goes into its `pre` exactly when this is the deepest level. -/
theorem bioLevels_bpush (tok L : Nat) (own : List String) (out : List BTree)
    (stack : List Frame) (x : String) (hx : labOkB x = true) :
    bioLevels tok L (("B-" ++ x) :: own) stack.length (out, stack)
      = bioLevels tok L own (stack.length + 1)
          (out, stack ++ [{ lab := x,
                            pre := (if stack.length < L - 1
                                    then ([] : List (Nat ⊕ BTree))
                                    else [.inl tok]),
                            post := [] }]) := by
  rw [bioLevels, bioLevelStep_B _ _ _ _ _ hx, exceptBindOk, bioBStep_push]
mutual

/-- Cutting away the whole open chain of a well-formed span folds the
decoded span into the frame right above the chain. -/
theorem collapse_chain (c : BTree) (hwf : wfTree c = true)
    (front : List Frame) (g : Frame) :
    applyN popFoldK (openChain c).length (front ++ g :: openChain c)
      = front ++ [foldInto g (pyDecoded c)] := by
  obtain ⟨lc, es⟩ := c
  obtain ⟨-, -, -, hwfes⟩ := wfTree_node lc es hwf
  have h1 := collapse_parts lc es [] true hwfes (front ++ [g])
  rcases hfp : frameParts [] es true with ⟨pre, rest2⟩
  obtain ⟨post, below⟩ := rest2
  rw [hfp] at h1
  dsimp only at h1
  rw [show openChain (BTree.node lc es)
      = { lab := lc, pre := pre, post := post } :: below by
    rw [openChain, hfp]]
  rw [List.length_cons, applyN_add popFoldK below.length 1]
  rw [show front ++ g :: { lab := lc, pre := pre, post := post } :: below
      = (front ++ [g]) ++ { lab := lc, pre := pre, post := post } :: below
      by simp]
  rw [h1]
  rw [show applyN popFoldK 1
        ((front ++ [g]) ++ [{ lab := lc, pre := [] ++ decElems es true,
                              post := ([] : List (Nat ⊕ BTree)) }])
      = popFoldK ((front ++ [g]) ++ [{ lab := lc, pre := [] ++ decElems es true,
                                       post := ([] : List (Nat ⊕ BTree)) }])
      from rfl]
  rw [popFoldK, popLast_append_singleton]
  dsimp only
  rw [popLast_append_singleton]
  dsimp only
  simp [Frame.close, pyDecoded]

theorem collapse_parts (l : String) (es : List (Nat ⊕ BTree))
    (preAcc : List (Nat ⊕ BTree)) (f : Bool) (hwf : wfElems es = true)
    (front : List Frame) :
    applyN popFoldK (frameParts preAcc es f).2.2.length
        (front ++ { lab := l,
                    pre := (frameParts preAcc es f).1,
                    post := (frameParts preAcc es f).2.1 }
          :: (frameParts preAcc es f).2.2)
      = front ++ [{ lab := l, pre := preAcc ++ decElems es f,
                    post := [] }] := by
  match es with
  | [] =>
    rw [frameParts, decElems]
    dsimp only
    simp [applyN]
  | .inl t :: rest =>
    have h1 := collapse_parts l rest (preAcc ++ [Sum.inl t]) false
      (wfElems_cons_tok t rest hwf) front
    rw [frameParts, decElems, h1]
    simp [List.append_assoc]
  | .inr c :: rest =>
    obtain ⟨hwfc, hwfrest⟩ := wfElems_cons_span c rest hwf
    cases rest with
    | nil =>
      rw [frameParts, decElems]
      dsimp only
      rw [collapse_chain c hwfc front
        { lab := l,
          pre := preAcc ++ (if f then [] else [Sum.inl c.startIdx0]),
          post := innerToks c.startIdx0 c.endIdx0 }]
      simp [foldInto, decElems, List.append_assoc]
    | cons r rs =>
      have h1 := collapse_parts l (r :: rs)
        (preAcc ++ (if f then [] else [Sum.inl c.startIdx0])
          ++ [Sum.inr (pyDecoded c)] ++ innerToks c.startIdx0 c.endIdx0)
        false hwfrest front
      rw [frameParts, decElems]
      rw [h1]
      simp [List.append_assoc]

end

/-- Collapsing the whole stack of a well-formed open chain yields the
decoded span. -/
theorem collapseStack_openChain (c : BTree) (hwf : wfTree c = true) :
    collapseStack (openChain c) = some (pyDecoded c) := by
  obtain ⟨lc, es⟩ := c
  obtain ⟨-, -, -, hwfes⟩ := wfTree_node lc es hwf
  have h1 := collapse_parts lc es [] true hwfes []
  rcases hfp : frameParts [] es true with ⟨pre, rest2⟩
  obtain ⟨post, below⟩ := rest2
  rw [hfp] at h1
  dsimp only at h1
  rw [show openChain (BTree.node lc es)
      = { lab := lc, pre := pre, post := post } :: below by
    rw [openChain, hfp]]
  rw [collapseStack, List.length_cons, Nat.add_sub_cancel]
  rw [show ([] : List Frame)
        ++ { lab := lc, pre := pre, post := post } :: below
      = { lab := lc, pre := pre, post := post } :: below from by simp] at h1
  rw [h1]
  simp [Frame.close, pyDecoded]
/-! ### Phase B: the decoding walk -/

/-- The tag strings of the positions covered by an element list, seen
from inside a node labelled `l` with open ancestors `ancL` (the node's
own level contributes `I-l` at every such position). -/
def walkStrings (ancL : List String) (l : String)
    (es : List (Nat ⊕ BTree)) : List String :=
  (tagsBelow es).map (fun ts => joinTags (ancTags ancL ++ ("I-" ++ l) :: ts))

/-- The tag strings of a span's positions after the first one. -/
def treeTailStrings (ancL : List String) (l : String)
    (es : List (Nat ⊕ BTree)) : List String :=
  ((tagsBelow es).tail).map
    (fun ts => joinTags (ancTags ancL ++ ("I-" ++ l) :: ts))

/-- The `post` copies held by a node's frame while its previous child is
still open. -/
def entryB : Option BTree → List (Nat ⊕ BTree)
  | none => []
  | some c => innerToks c.startIdx0 c.endIdx0

/-- The still-open chain of the previous child. -/
def entryCH : Option BTree → List Frame
  | none => []
  | some c => openChain c

/-- The node's `pre` after the previous child has been closed into it. -/
def walkA (A : List (Nat ⊕ BTree)) : Option BTree → List (Nat ⊕ BTree)
  | none => A
  | some c => A ++ [Sum.inr (pyDecoded c)] ++ innerToks c.startIdx0 c.endIdx0

/-- The frame contents reached after walking the remaining elements
`es`, starting from accumulated `pre` `A` with the previous child
`prev` still open. -/
def walkParts (A : List (Nat ⊕ BTree)) (prev : Option BTree) :
    List (Nat ⊕ BTree) →
    List (Nat ⊕ BTree) × List (Nat ⊕ BTree) × List Frame
  | [] => (A, entryB prev, entryCH prev)
  | e :: rest => frameParts (walkA A prev) (e :: rest) false

theorem walkParts_none (A : List (Nat ⊕ BTree)) (es : List (Nat ⊕ BTree)) :
    walkParts A none es = frameParts A es false := by
  cases es with
  | nil => rfl
  | cons e rest => rfl

theorem ctxPost_length (ctx : List Frame) (ps : List Nat) :
    (ctxPost ctx ps).length = ctx.length := by
  simp [ctxPost]

theorem ctxPost_append (a b : List Frame) (ps : List Nat) :
    ctxPost (a ++ b) ps = ctxPost a ps ++ ctxPost b ps := by
  simp [ctxPost]

theorem ctxPost_compose (ctx : List Frame) (ps qs : List Nat) :
    ctxPost (ctxPost ctx ps) qs = ctxPost ctx (ps ++ qs) := by
  simp [ctxPost, List.map_map, Function.comp, List.append_assoc]

theorem cutStack_of_le (S : List Frame) (L : Nat) (h : S.length ≤ L) :
    cutStack S L = S := by
  rw [cutStack, Nat.sub_eq_zero_of_le h]
  rfl

theorem strings_shift (ancL : List String) (l lc : String)
    (layers : List (List String)) :
    (layers.map (fun ts => ("I-" ++ lc) :: ts)).map
        (fun ts => joinTags (ancTags ancL ++ ("I-" ++ l) :: ts))
      = layers.map
          (fun ts => joinTags (ancTags (ancL ++ [l]) ++ ("I-" ++ lc) :: ts)) := by
  rw [List.map_map]
  apply List.map_congr_left
  intro ts _
  have harg : ancTags ancL ++ ("I-" ++ l) :: ("I-" ++ lc) :: ts
      = ancTags (ancL ++ [l]) ++ ("I-" ++ lc) :: ts := by
    simp [ancTags]
  simp [Function.comp]
  rw [harg]
theorem ancTags_tagOk (ancL : List String)
    (h : ∀ x ∈ ancL, labOkB x = true) :
    ∀ s ∈ ancTags ancL, tagOkP s := by
  intro s hs
  obtain ⟨x, hx, rfl⟩ := List.mem_map.mp hs
  exact ⟨x, h x hx, Or.inr rfl⟩

mutual

theorem tagsOfTree_tagOk (t : BTree) (hwf : wfTree t = true) :
    ∀ ts ∈ tagsOfTree t, ∀ s ∈ ts, tagOkP s := by
  obtain ⟨l, es⟩ := t
  obtain ⟨hl, -, -, hwfes⟩ := wfTree_node l es hwf
  intro ts hts s hsts
  rw [tagsOfTree] at hts
  cases htb : tagsBelow es with
  | nil =>
    rw [htb] at hts
    cases hts
  | cons first r =>
    rw [htb] at hts
    rcases List.mem_cons.mp hts with rfl | hts2
    · rcases List.mem_cons.mp hsts with rfl | hs2
      · exact ⟨l, hl, Or.inl rfl⟩
      · exact tagsBelow_tagOk es hwfes first (htb ▸ List.mem_cons_self _ _) s hs2
    · obtain ⟨below, hbmem, rfl⟩ := List.mem_map.mp hts2
      rcases List.mem_cons.mp hsts with rfl | hs2
      · exact ⟨l, hl, Or.inr rfl⟩
      · exact tagsBelow_tagOk es hwfes below
          (htb ▸ List.mem_cons_of_mem _ hbmem) s hs2

theorem tagsBelow_tagOk (es : List (Nat ⊕ BTree)) (hwf : wfElems es = true) :
    ∀ ts ∈ tagsBelow es, ∀ s ∈ ts, tagOkP s := by
  match es with
  | [] => intro ts hts; rw [tagsBelow] at hts; cases hts
  | .inl t :: rest =>
    intro ts hts s hsts
    rw [tagsBelow] at hts
    rcases List.mem_cons.mp hts with rfl | hts2
    · cases hsts
    · exact tagsBelow_tagOk rest (wfElems_cons_tok t rest hwf) ts hts2 s hsts
  | .inr c :: rest =>
    obtain ⟨hwfc, hwfrest⟩ := wfElems_cons_span c rest hwf
    intro ts hts s hsts
    rw [tagsBelow] at hts
    rcases List.mem_append.mp hts with hts2 | hts2
    · exact tagsOfTree_tagOk c hwfc ts hts2 s hsts
    · exact tagsBelow_tagOk rest hwfrest ts hts2 s hsts

end

theorem openChain_ne_nil (c : BTree) : openChain c ≠ [] := by
  obtain ⟨l, es⟩ := c
  rw [openChain]
  rcases frameParts [] es true with ⟨pre, post, below⟩
  simp

theorem bioTokens_nil (idx : Nat) (st : List BTree × List Frame) :
    bioTokens idx [] st = .ok st := rfl

theorem walkStrings_tok (ancL : List String) (l : String) (t : Nat)
    (rest : List (Nat ⊕ BTree)) :
    walkStrings ancL l (.inl t :: rest)
      = joinTags (ancTags ancL ++ ("I-" ++ l) :: [])
        :: walkStrings ancL l rest := by
  rw [walkStrings, tagsBelow, List.map_cons]
  rfl

theorem walkStrings_span (ancL : List String) (l : String) (c : BTree)
    (rest : List (Nat ⊕ BTree)) (fl : List String) (rls : List (List String))
    (ht : tagsOfTree c = fl :: rls) :
    walkStrings ancL l (.inr c :: rest)
      = joinTags (ancTags ancL ++ ("I-" ++ l) :: fl)
        :: (rls.map (fun ts => joinTags (ancTags ancL ++ ("I-" ++ l) :: ts))
            ++ walkStrings ancL l rest) := by
  rw [walkStrings, tagsBelow, ht, List.cons_append, List.map_cons,
    List.map_append]
  rfl

theorem treeTailStrings_tok (ancL : List String) (l : String) (t : Nat)
    (rest : List (Nat ⊕ BTree)) :
    treeTailStrings ancL l (.inl t :: rest) = walkStrings ancL l rest := by
  rw [treeTailStrings, tagsBelow]
  rfl

theorem treeTailStrings_span (ancL : List String) (l : String) (c : BTree)
    (rest : List (Nat ⊕ BTree)) (fl : List String) (rls : List (List String))
    (ht : tagsOfTree c = fl :: rls) :
    treeTailStrings ancL l (.inr c :: rest)
      = rls.map (fun ts => joinTags (ancTags ancL ++ ("I-" ++ l) :: ts))
        ++ walkStrings ancL l rest := by
  rw [treeTailStrings, tagsBelow, ht, List.cons_append]
  rw [show (fl :: (rls ++ tagsBelow rest)).tail = rls ++ tagsBelow rest
    from rfl]
  rw [List.map_append]
  rfl

theorem tagsOfTree_struct (lc : String) (esc : List (Nat ⊕ BTree))
    (hwf : wfTree (.node lc esc) = true) :
    ∃ fb rb, tagsBelow esc = fb :: rb
      ∧ tagsOfTree (.node lc esc)
        = (("B-" ++ lc) :: fb) :: rb.map (fun ts => ("I-" ++ lc) :: ts) := by
  obtain ⟨-, hne, -, -⟩ := wfTree_node lc esc hwf
  have hlen := tagsBelow_length esc
  cases htb : tagsBelow esc with
  | nil =>
    exfalso
    rw [htb] at hlen
    exact hne (List.eq_nil_of_length_eq_zero hlen.symm)
  | cons fb rb =>
    refine ⟨fb, rb, rfl, ?_⟩
    rw [tagsOfTree, htb]

theorem ancTags_length (ancL : List String) :
    (ancTags ancL).length = ancL.length := by
  simp [ancTags]

theorem bioLevels_ilast_at (tok L : Nat) (own : List String)
    (out : List BTree) (front : List Frame) (i : Nat)
    (hi : i = front.length) (cur : Frame) (x : String) :
    bioLevels tok L (("I-" ++ x) :: own) i (out, front ++ [cur])
      = bioLevels tok L own (i + 1)
          (out, front ++ [{ cur with pre := cur.pre ++ [Sum.inl tok] }]) := by
  subst hi
  exact bioLevels_ilast tok L own out front cur x

theorem bioLevels_ipost_at (tok L : Nat) (own : List String)
    (out : List BTree) (front : List Frame) (i : Nat)
    (hi : i = front.length) (g : Frame) (chain : List Frame)
    (hch : chain ≠ []) (x : String) :
    bioLevels tok L (("I-" ++ x) :: own) i (out, front ++ g :: chain)
      = bioLevels tok L own (i + 1)
          (out, front ++ { g with post := g.post ++ [Sum.inl tok] } :: chain)
      := by
  subst hi
  rw [bioLevels, bioLevelStep_I _ _ _ _ _
    (by simp only [List.length_append, List.length_cons]; omega),
    exceptBindOk, stackAppendTok_post front g chain hch tok]

theorem bioLevels_bpush_at (tok L : Nat) (own : List String)
    (out : List BTree) (stack : List Frame) (i : Nat)
    (hi : i = stack.length) (x : String) (hx : labOkB x = true) :
    bioLevels tok L (("B-" ++ x) :: own) i (out, stack)
      = bioLevels tok L own (i + 1)
          (out, stack ++ [{ lab := x,
                            pre := (if i < L - 1
                                    then ([] : List (Nat ⊕ BTree))
                                    else [Sum.inl tok]),
                            post := [] }]) := by
  subst hi
  exact bioLevels_bpush tok L own out stack x hx

theorem bioLevels_bcut (tok L : Nat) (own : List String) (out : List BTree)
    (stack : List Frame) (i : Nat) (hi : i ≠ 0) (x : String)
    (hx : labOkB x = true) :
    bioLevels tok L (("B-" ++ x) :: own) i (out, stack)
      = bioLevels tok L own (i + 1)
          (out, cutStack stack i
            ++ [{ lab := x,
                  pre := (if i < L - 1 then ([] : List (Nat ⊕ BTree))
                          else [Sum.inl tok]),
                  post := [] }]) := by
  rw [bioLevels, bioLevelStep_B _ _ _ _ _ hx, exceptBindOk, bioBStep,
    if_neg (by simp [hi])]
theorem bioLevels_anc0 (tok L : Nat) (own : List String) (out : List BTree)
    (ancL : List String) (ctx chain : List Frame)
    (hlen : ancL.length = ctx.length) (hch : chain ≠ []) :
    bioLevels tok L (ancTags ancL ++ own) 0 (out, ctx ++ chain)
      = bioLevels tok L own ctx.length (out, ctxPost ctx [tok] ++ chain) := by
  have h := bioLevels_anc tok L own out ancL [] ctx chain hlen hch
  simpa using h

/-- The two-stage stack truncation at a `B-` level: the part of the
previous sibling's chain already cut by the token-level `while` loop and
the rest cut inside the `B-` branch compose to folding the whole decoded
sibling into the parent frame. -/
theorem cut_two_stage (c0 : BTree) (hwfc : wfTree c0 = true)
    (front : List Frame) (g : Frame) (a : Nat) (ha : 1 ≤ a) :
    cutStack (front ++ g :: applyN popFoldK
        ((openChain c0).length - a) (openChain c0)) (front.length + 1)
      = front ++ [foldInto g (pyDecoded c0)] := by
  have hchpos : 1 ≤ (openChain c0).length := by
    cases hoc : openChain c0 with
    | nil => exact absurd hoc (openChain_ne_nil c0)
    | cons x xs => simp
  have h1 := applyN_popFoldK_length ((openChain c0).length - a) (openChain c0)
  rw [cutStack]
  have hcount : (front ++ g :: applyN popFoldK
        ((openChain c0).length - a) (openChain c0)).length
        - (front.length + 1)
      = (openChain c0).length - ((openChain c0).length - a) := by
    simp only [List.length_append, List.length_cons, h1]
    omega
  rw [hcount]
  rw [show front ++ g :: applyN popFoldK
        ((openChain c0).length - a) (openChain c0)
      = (front ++ [g]) ++ applyN popFoldK
          ((openChain c0).length - a) (openChain c0) by simp]
  rw [← applyN_popFoldK_front _ _ _ (by omega)]
  rw [← applyN_add]
  rw [show (openChain c0).length - a
        + ((openChain c0).length - ((openChain c0).length - a))
      = (openChain c0).length by omega]
  rw [show (front ++ [g]) ++ openChain c0 = front ++ g :: openChain c0
    by simp]
  rw [collapse_chain c0 hwfc front g]
/-- One direct-token position of a node: every ancestor gets a `post`
copy, any still-open previous child is folded shut by the stack cut, and
the token lands in the node's `pre`. -/
theorem step_token_toklayer (out : List BTree) (ancL : List String)
    (hanc : ∀ x ∈ ancL, labOkB x = true) (l : String) (hl : labOkB l = true)
    (ctx : List Frame) (hlen : ancL.length = ctx.length)
    (A : List (Nat ⊕ BTree)) (prev : Option BTree)
    (hprev : ∀ c0, prev = some c0 → wfTree c0 = true) (p : Nat) :
    bioToken
        (out, ctx ++ { lab := l, pre := A, post := entryB prev }
          :: entryCH prev)
        p (joinTags (ancTags ancL ++ ("I-" ++ l) :: []))
      = .ok (out, ctxPost ctx [p]
          ++ [{ lab := l, pre := walkA A prev ++ [Sum.inl p],
                post := [] }]) := by
  have hok : ∀ s ∈ ancTags ancL ++ ("I-" ++ l) :: [], tagOkP s := by
    intro s hs
    rcases List.mem_append.mp hs with hs | hs
    · exact ancTags_tagOk ancL hanc s hs
    · rcases List.mem_cons.mp hs with rfl | hs2
      · exact ⟨l, hl, Or.inr rfl⟩
      · cases hs2
  rw [bioToken_layers _ _ _ _ (by simp) hok]
  have hts : (ancTags ancL ++ ("I-" ++ l) :: []).length = ctx.length + 1 := by
    rw [List.length_append, ancTags_length, hlen]
    rfl
  rw [hts]
  have hcut : cutStack (ctx ++ { lab := l, pre := A, post := entryB prev }
        :: entryCH prev) (ctx.length + 1)
      = ctx ++ [{ lab := l, pre := walkA A prev, post := [] }] := by
    cases prev with
    | none =>
      rw [cutStack_of_le _ _ (by simp [entryCH])]
      rfl
    | some c0 =>
      have hwfc := hprev c0 rfl
      rw [show entryCH (some c0) = openChain c0 from rfl, cutStack]
      have hcount : (ctx ++ { lab := l, pre := A, post := entryB (some c0) }
            :: openChain c0).length - (ctx.length + 1)
          = (openChain c0).length := by
        simp
        omega
      rw [hcount, collapse_chain c0 hwfc ctx _]
      rw [show foldInto { lab := l, pre := A, post := entryB (some c0) }
            (pyDecoded c0)
          = { lab := l, pre := walkA A (some c0), post := [] } from by
        simp [foldInto, walkA, entryB]]
  rw [hcut]
  rw [bioLevels_anc0 _ _ _ _ _ ctx
    [{ lab := l, pre := walkA A prev, post := [] }] hlen (by simp)]
  rw [bioLevels_ilast_at _ _ _ _ (ctxPost ctx [p]) ctx.length
    (by rw [ctxPost_length]) _ l]
  rfl
/-- The first position of a nested span `lc` inside a node `l`: the
ancestors get `post` copies, the node receives the guard token (into
`pre` when no previous child chain is open, else via the fold of that
chain), and a fresh frame for `lc` is pushed; deeper levels of this
position remain to be processed. -/
theorem step_token_bopen (out : List BTree) (ancL : List String)
    (hanc : ∀ x ∈ ancL, labOkB x = true) (l : String) (hl : labOkB l = true)
    (ctx : List Frame) (hlen : ancL.length = ctx.length)
    (A : List (Nat ⊕ BTree)) (prev : Option BTree)
    (hprev : ∀ c0, prev = some c0 → wfTree c0 = true) (p : Nat)
    (lc : String) (hlc : labOkB lc = true) (fb : List String)
    (hfb : ∀ s ∈ fb, tagOkP s) :
    bioToken
        (out, ctx ++ { lab := l, pre := A, post := entryB prev }
          :: entryCH prev)
        p (joinTags (ancTags ancL ++ ("I-" ++ l) :: ("B-" ++ lc) :: fb))
      = bioLevels p (ctx.length + 2 + fb.length) fb (ctx.length + 2)
          (out, (ctxPost ctx [p]
              ++ [{ lab := l, pre := walkA A prev ++ [Sum.inl p],
                    post := [] }])
            ++ [{ lab := lc,
                  pre := (if fb = [] then [Sum.inl p]
                          else ([] : List (Nat ⊕ BTree))),
                  post := [] }]) := by
  have hok : ∀ s ∈ ancTags ancL ++ ("I-" ++ l) :: ("B-" ++ lc) :: fb,
      tagOkP s := by
    intro s hs
    rcases List.mem_append.mp hs with hs | hs
    · exact ancTags_tagOk ancL hanc s hs
    · rcases List.mem_cons.mp hs with rfl | hs2
      · exact ⟨l, hl, Or.inr rfl⟩
      · rcases List.mem_cons.mp hs2 with rfl | hs3
        · exact ⟨lc, hlc, Or.inl rfl⟩
        · exact hfb s hs3
  rw [bioToken_layers _ _ _ _ (by simp) hok]
  have hts : (ancTags ancL ++ ("I-" ++ l) :: ("B-" ++ lc) :: fb).length
      = ctx.length + 2 + fb.length := by
    simp only [List.length_append, List.length_cons, ancTags_length, hlen]
    omega
  rw [hts]
  have hite : (if ctx.length + 1 < ctx.length + 2 + fb.length - 1
        then ([] : List (Nat ⊕ BTree)) else [Sum.inl p])
      = (if fb = [] then [Sum.inl p] else []) := by
    cases fb with
    | nil =>
      rw [if_neg (by simp only [List.length_nil]; omega), if_pos rfl]
    | cons a r =>
      rw [if_pos (by simp only [List.length_cons]; omega),
        if_neg (by simp)]
  cases prev with
  | none =>
    rw [show entryCH none = ([] : List Frame) from rfl]
    rw [cutStack_of_le _ _ (by simp; omega)]
    rw [bioLevels_anc0 _ _ _ _ _ ctx
      [{ lab := l, pre := A, post := entryB none }] hlen (by simp)]
    rw [bioLevels_ilast_at _ _ _ _ (ctxPost ctx [p]) ctx.length
      (by rw [ctxPost_length]) _ l]
    rw [bioLevels_bpush_at _ _ _ _ _ (ctx.length + 1)
      (by simp [ctxPost_length]) lc hlc]
    rw [hite]
    rfl
  | some c0 =>
    have hwfc := hprev c0 rfl
    have hchpos : 1 ≤ (openChain c0).length := by
      cases hoc : openChain c0 with
      | nil => exact absurd hoc (openChain_ne_nil c0)
      | cons x xs => simp
    rw [show entryCH (some c0) = openChain c0 from rfl, cutStack]
    have hcount : (ctx ++ { lab := l, pre := A, post := entryB (some c0) }
          :: openChain c0).length - (ctx.length + 2 + fb.length)
        = (openChain c0).length - (fb.length + 1) := by
      simp only [List.length_append, List.length_cons]
      omega
    rw [hcount]
    rw [show ctx ++ { lab := l, pre := A, post := entryB (some c0) }
          :: openChain c0
        = (ctx ++ [{ lab := l, pre := A, post := entryB (some c0) }])
          ++ openChain c0 by simp]
    rw [applyN_popFoldK_front _ _ _ (by omega)]
    rw [show (ctx ++ [{ lab := l, pre := A, post := entryB (some c0) }])
          ++ applyN popFoldK ((openChain c0).length - (fb.length + 1))
              (openChain c0)
        = ctx ++ { lab := l, pre := A, post := entryB (some c0) }
          :: applyN popFoldK ((openChain c0).length - (fb.length + 1))
              (openChain c0) by simp]
    have hCH1 : applyN popFoldK ((openChain c0).length - (fb.length + 1))
        (openChain c0) ≠ [] := by
      have h2 := applyN_popFoldK_length
        ((openChain c0).length - (fb.length + 1)) (openChain c0)
      intro hnil
      rw [hnil] at h2
      simp only [List.length_nil] at h2
      omega
    rw [bioLevels_anc0 _ _ _ _ _ ctx _ hlen (by simp)]
    rw [bioLevels_ipost_at _ _ _ _ (ctxPost ctx [p]) ctx.length
      (by rw [ctxPost_length]) _ _ hCH1 l]
    rw [bioLevels_bcut _ _ _ _ _ (ctx.length + 1) (by omega) lc hlc]
    have hfull := cut_two_stage c0 hwfc (ctxPost ctx [p])
      { lab := l, pre := A, post := entryB (some c0) ++ [Sum.inl p] }
      (fb.length + 1) (by omega)
    rw [show (ctxPost ctx [p]).length + 1 = ctx.length + 1
      from by rw [ctxPost_length]] at hfull
    rw [hfull, hite]
    rw [show foldInto { lab := l,
                        pre := A,
                        post := entryB (some c0) ++ [Sum.inl p] }
          (pyDecoded c0)
        = { lab := l,
            pre := walkA A (some c0) ++ [Sum.inl p],
            post := [] }
        from by simp [foldInto, walkA, entryB, List.append_assoc]]
theorem walkParts_tok (A : List (Nat ⊕ BTree)) (prev : Option BTree)
    (p : Nat) (rest : List (Nat ⊕ BTree)) :
    walkParts A prev (.inl p :: rest)
      = walkParts (walkA A prev ++ [Sum.inl p]) none rest := by
  rw [walkParts_none, show walkParts A prev (.inl p :: rest)
      = frameParts (walkA A prev) (.inl p :: rest) false from rfl, frameParts]

theorem walkParts_span (A : List (Nat ⊕ BTree)) (prev : Option BTree)
    (c : BTree) (rest : List (Nat ⊕ BTree)) :
    walkParts A prev (.inr c :: rest)
      = walkParts (walkA A prev ++ [Sum.inl c.startIdx0]) (some c) rest := by
  rw [show walkParts A prev (.inr c :: rest)
      = frameParts (walkA A prev) (.inr c :: rest) false from rfl]
  cases rest with
  | nil =>
    rw [frameParts]
    rw [show walkParts (walkA A prev ++ [Sum.inl c.startIdx0]) (some c) []
        = (walkA A prev ++ [Sum.inl c.startIdx0], entryB (some c),
           entryCH (some c)) from rfl]
    rw [show entryB (some c) = innerToks c.startIdx0 c.endIdx0 from rfl,
      show entryCH (some c) = openChain c from rfl]
    simp
  | cons r rs =>
    rw [frameParts]
    rw [show walkParts (walkA A prev ++ [Sum.inl c.startIdx0]) (some c)
          (r :: rs)
        = frameParts (walkA (walkA A prev ++ [Sum.inl c.startIdx0]) (some c))
            (r :: rs) false from rfl]
    congr 1

theorem openChain_eq_tok (l : String) (q : Nat)
    (rest : List (Nat ⊕ BTree)) :
    openChain (.node l (.inl q :: rest))
      = { lab := l, pre := (walkParts [Sum.inl q] none rest).1,
          post := (walkParts [Sum.inl q] none rest).2.1 }
        :: (walkParts [Sum.inl q] none rest).2.2 := by
  rw [walkParts_none, openChain, frameParts,
    show ([] : List (Nat ⊕ BTree)) ++ [Sum.inl q] = [Sum.inl q] from by simp]

theorem openChain_eq_span (l : String) (c : BTree)
    (rest : List (Nat ⊕ BTree)) :
    openChain (.node l (.inr c :: rest))
      = { lab := l, pre := (walkParts [] (some c) rest).1,
          post := (walkParts [] (some c) rest).2.1 }
        :: (walkParts [] (some c) rest).2.2 := by
  cases rest with
  | nil =>
    rw [openChain, frameParts]
    rw [show walkParts [] (some c) []
        = (([] : List (Nat ⊕ BTree)), entryB (some c), entryCH (some c))
        from rfl]
    rw [show entryB (some c) = innerToks c.startIdx0 c.endIdx0 from rfl,
      show entryCH (some c) = openChain c from rfl]
    simp
  | cons r rs =>
    rw [openChain, frameParts]
    have hXY : frameParts (([] : List (Nat ⊕ BTree))
          ++ (if true = true then [] else [Sum.inl c.startIdx0])
          ++ [Sum.inr (pyDecoded c)] ++ innerToks c.startIdx0 c.endIdx0)
          (r :: rs) false
        = walkParts [] (some c) (r :: rs) := by
      rw [show walkParts [] (some c) (r :: rs)
          = frameParts (walkA [] (some c)) (r :: rs) false from rfl]
      simp [walkA]
    rw [hXY]

theorem range'_cons_eq (p k : Nat) (hk : 1 ≤ k) :
    p :: List.range' (p + 1) (k - 1) = List.range' p k := by
  cases k with
  | zero => omega
  | succ k2 =>
    rw [List.range'_succ]
    simp

theorem range'_glue (q k m : Nat) (hk : 1 ≤ k) (hkm : k ≤ m) :
    List.range' (q + 1) (k - 1) ++ List.range' (q + k) (m - k)
      = List.range' (q + 1) (m - 1) := by
  have h1 : q + k = (q + 1) + (k - 1) := by omega
  have h2 : m - 1 = (m - k) + (k - 1) := by omega
  rw [h1, h2, List.range'_append_1]
/-- Statement of the span-decoding lemma: after the span's `B-` level has
pushed the span's frame, the remaining levels of the first position and the
strings of all later positions rebuild the span's open chain; every frame
above receives `post` copies of the inner positions. -/
@[reducible] def TreeStmt (l : String) (es : List (Nat ⊕ BTree)) : Prop :=
  ∀ (hwf : wfTree (.node l es) = true)
    (ancL : List String) (hanc : ∀ x ∈ ancL, labOkB x = true)
    (ctx : List Frame) (hlen : ancL.length = ctx.length)
    (out : List BTree) (suffix : List String)
    (q m : Nat) (hq : q = (BTree.node l es).startIdx0)
    (hm : m = (BTree.node l es).toks.length)
    (fb : List String) (hfb : fb = (tagsBelow es).headD [])
    (L i : Nat) (hL : L = ctx.length + 1 + fb.length)
    (hi : i = ctx.length + 1)
    (pE : List (Nat ⊕ BTree))
    (hpE : (fb = [] ∧ pE = [Sum.inl q]) ∨ (fb ≠ [] ∧ pE = [])),
    (bioLevels q L fb i
        (out, ctx ++ [{ lab := l, pre := pE, post := [] }]) >>=
      fun st1 => bioTokens (q + 1) (treeTailStrings ancL l es ++ suffix) st1)
    = bioTokens (q + m) suffix
        (out, ctxPost ctx (List.range' (q + 1) (m - 1))
          ++ openChain (.node l es))

/-- Statement of the element-walking lemma: each position's string is
consumed, the node's frame accumulates the decoded elements, ancestors
receive `post` copies, and the resulting state matches `walkParts`. -/
@[reducible] def ElemsStmt (l : String) (es : List (Nat ⊕ BTree)) : Prop :=
  ∀ (hwf : wfElems es = true) (hl : labOkB l = true)
    (ancL : List String) (hanc : ∀ x ∈ ancL, labOkB x = true)
    (ctx : List Frame) (hlen : ancL.length = ctx.length)
    (out : List BTree) (suffix : List String)
    (p k : Nat) (htoks : BTree.toksElems es = List.range' p k)
    (A : List (Nat ⊕ BTree)) (prev : Option BTree)
    (hprev : ∀ c0, prev = some c0 → wfTree c0 = true),
    bioTokens p (walkStrings ancL l es ++ suffix)
        (out, ctx ++ { lab := l, pre := A, post := entryB prev }
          :: entryCH prev)
      = bioTokens (p + k) suffix
          (out, ctxPost ctx (List.range' p k)
            ++ { lab := l, pre := (walkParts A prev es).1,
                 post := (walkParts A prev es).2.1 }
              :: (walkParts A prev es).2.2)

/-- Both decoding lemmas, proved together by strong induction on the size
of the element list. -/
theorem decode_main : ∀ (N : Nat) (es : List (Nat ⊕ BTree)),
    sizeOf es ≤ N → (∀ l, TreeStmt l es) ∧ (∀ l, ElemsStmt l es) := by
  intro N
  induction N with
  | zero =>
    intro es h
    cases es with
    | nil =>
      simp only [List.nil.sizeOf_spec] at h
      omega
    | cons a r =>
      simp only [List.cons.sizeOf_spec] at h
      omega
  | succ N ihN =>
    intro es hsz
    constructor
    · intro l hwf ancL hanc ctx hlen out suffix q m hq hm fb hfb L i hL hi
        pE hpE
      obtain ⟨hl, hne, hcons, hwfes⟩ := wfTree_node l es hwf
      have hrange := (wfTree_toks_range _ hwf).1
      have hlenpos := (wfTree_toks_range _ hwf).2
      have htE : BTree.toksElems es = List.range' q m := by
        rw [hq, hm]
        exact hrange
      have hm1 : 1 ≤ m := by
        rw [hm]
        omega
      match es with
      | [] =>
        exfalso
        have h0 := congrArg List.length htE
        simp only [BTree.toksElems, List.length_nil, List.length_range'] at h0
        omega
      | .inl t :: rest =>
        rw [BTree.toksElems] at htE
        obtain ⟨hqt, hm0, hrest⟩ := List.range'_eq_cons_iff.mp htE.symm
        subst hqt
        have hfbnil : fb = [] := by
          rw [hfb, tagsBelow]
          rfl
        subst hfbnil
        have hpE2 : pE = [Sum.inl q] := by
          rcases hpE with ⟨-, h2⟩ | ⟨hcontra, -⟩
          · exact h2
          · exact absurd rfl hcontra
        subst hpE2
        subst hi
        rw [bioLevels, exceptBindOk, treeTailStrings_tok]
        rw [show (ctx ++ [{ lab := l,
                            pre := [Sum.inl q],
                            post := ([] : List (Nat ⊕ BTree)) }])
            = ctx ++ { lab := l, pre := [Sum.inl q], post := entryB none }
              :: entryCH none from rfl]
        have hrec := (ihN rest
            (by simp only [List.cons.sizeOf_spec] at hsz; omega)).2
          l (wfElems_cons_tok q rest hwfes) hl
          ancL hanc ctx hlen out suffix (q + 1) (m - 1) hrest [Sum.inl q] none
          (by intro c0 h0; cases h0)
        rw [hrec]
        rw [show q + 1 + (m - 1) = q + m from by omega]
        rw [openChain_eq_tok]
      | .inr c :: rest =>
        obtain ⟨hwfc, hwfrest⟩ := wfElems_cons_span c rest hwfes
        obtain ⟨lc, esc⟩ := c
        obtain ⟨hlc, -, -, hwfesc⟩ := wfTree_node lc esc hwfc
        rw [BTree.toksElems] at htE
        obtain ⟨k, hkm, hc, hrest⟩ := List.range'_eq_append_iff.mp htE.symm
        have hck := wfTree_toks_range _ hwfc
        have hk0 : k ≠ 0 := by
          intro h0
          subst h0
          rw [List.range'_zero] at hc
          exact hck.2 (by rw [hc]; rfl)
        have hcstart : (BTree.node lc esc).startIdx0 = q := by
          rw [BTree.startIdx0, hc, List.head?_range']
          simp [hk0]
        have hcend : (BTree.node lc esc).endIdx0 = q + k - 1 := by
          rw [BTree.endIdx0, hc, List.getLast?_range']
          simp [hk0]
        have hclen : (BTree.node lc esc).toks.length = k := by
          rw [hc, List.length_range']
        obtain ⟨fb2, rb, htb, hts⟩ := tagsOfTree_struct lc esc hwfc
        have hfb2 : fb = ("B-" ++ lc) :: fb2 := by
          rw [hfb, tagsBelow, hts]
          rfl
        subst hfb2
        have hpE2 : pE = [] := by
          rcases hpE with ⟨hc2, -⟩ | ⟨-, h2⟩
          · cases hc2
          · exact h2
        subst hpE2
        subst hi
        have hstep := bioLevels_bpush_at q L fb2 out
          (ctx ++ [{ lab := l, pre := [], post := [] }]) (ctx.length + 1)
          (by simp) lc hlc
        rw [hstep]
        have hL2 : L = ctx.length + 2 + fb2.length := by
          rw [hL]
          simp only [List.length_cons]
          omega
        have hite : (if ctx.length + 1 < L - 1
              then ([] : List (Nat ⊕ BTree)) else [Sum.inl q])
            = (if fb2 = [] then [Sum.inl q] else []) := by
          rw [hL2]
          cases fb2 with
          | nil => rw [if_neg (by simp only [List.length_nil]; omega), if_pos rfl]
          | cons a r =>
            rw [if_pos (by simp only [List.length_cons]; omega), if_neg (by simp)]
        rw [hite]
        have hstr : treeTailStrings ancL l (.inr (BTree.node lc esc) :: rest)
            = treeTailStrings (ancL ++ [l]) lc esc
              ++ walkStrings ancL l rest := by
          rw [treeTailStrings_span _ _ _ _ _ _ hts, strings_shift]
          congr 1
          rw [treeTailStrings, htb]
          rfl
        rw [hstr, List.append_assoc (treeTailStrings (ancL ++ [l]) lc esc)
          (walkStrings ancL l rest) suffix]
        have hrec := (ihN esc
            (by simp only [List.cons.sizeOf_spec, Sum.inr.sizeOf_spec,
              BTree.node.sizeOf_spec] at hsz; omega)).1
          lc hwfc (ancL ++ [l])
          (by
            intro x hx
            rcases List.mem_append.mp hx with h | h
            · exact hanc x h
            · rcases List.mem_cons.mp h with rfl | h2
              · exact hl
              · cases h2)
          (ctx ++ [{ lab := l, pre := [], post := [] }])
          (by simp [hlen])
          out (walkStrings ancL l rest ++ suffix)
          q k hcstart.symm hclen.symm
          fb2 (by rw [htb]; rfl)
          L (ctx.length + 1 + 1)
          (by rw [hL2]; simp)
          (by simp)
          (if fb2 = [] then [Sum.inl q] else ([] : List (Nat ⊕ BTree)))
          (by
            cases fb2 with
            | nil => exact Or.inl ⟨rfl, by simp⟩
            | cons a r => exact Or.inr ⟨by simp, by simp⟩)
        rw [hrec]
        rw [ctxPost_append]
        rw [show ctxPost [{ lab := l, pre := [], post := [] }]
              (List.range' (q + 1) (k - 1))
            = [{ lab := l, pre := [],
                 post := (List.range' (q + 1) (k - 1)).map Sum.inl }] from by
          simp [ctxPost]]
        rw [show (ctxPost ctx (List.range' (q + 1) (k - 1))
              ++ [{ lab := l, pre := [],
                    post := (List.range' (q + 1) (k - 1)).map Sum.inl }])
              ++ openChain (BTree.node lc esc)
            = ctxPost ctx (List.range' (q + 1) (k - 1))
              ++ { lab := l, pre := [],
                   post := (List.range' (q + 1) (k - 1)).map Sum.inl }
                :: openChain (BTree.node lc esc) from by simp]
        have hpost : (List.range' (q + 1) (k - 1)).map Sum.inl
            = entryB (some (BTree.node lc esc)) := by
          rw [show entryB (some (BTree.node lc esc))
              = innerToks (BTree.node lc esc).startIdx0
                  (BTree.node lc esc).endIdx0 from rfl,
            innerToks, hcstart, hcend,
            show q + k - 1 - q = k - 1 from by omega]
        rw [hpost,
          show openChain (BTree.node lc esc)
            = entryCH (some (BTree.node lc esc)) from rfl]
        have hrec2 := (ihN rest
            (by simp only [List.cons.sizeOf_spec] at hsz; omega)).2
          l hwfrest hl ancL hanc
          (ctxPost ctx (List.range' (q + 1) (k - 1)))
          (by rw [ctxPost_length]; exact hlen)
          out suffix (q + k) (m - k) hrest
          [] (some (BTree.node lc esc))
          (by intro c0 h0; cases h0; exact hwfc)
        rw [hrec2]
        rw [show q + k + (m - k) = q + m from by omega]
        rw [ctxPost_compose]
        rw [range'_glue q k m (by omega) (by omega)]
        rw [openChain_eq_span]
    · intro l hwf hl ancL hanc ctx hlen out suffix p k htoks A prev hprev
      match es with
      | [] =>
        have hk : k = 0 := by
          have h0 := congrArg List.length htoks
          simp only [BTree.toksElems, List.length_nil, List.length_range'] at h0
          omega
        subst hk
        rw [show walkStrings ancL l [] = [] from rfl, List.nil_append,
          show p + 0 = p from rfl,
          show List.range' p 0 = [] from rfl, ctxPost_nil,
          show walkParts A prev [] = (A, entryB prev, entryCH prev) from rfl]
      | .inl t :: rest =>
        rw [BTree.toksElems] at htoks
        obtain ⟨hpt, hk0, hrest⟩ := List.range'_eq_cons_iff.mp htoks.symm
        subst hpt
        rw [walkStrings_tok, List.cons_append, bioTokens,
          step_token_toklayer out ancL hanc l hl ctx hlen A prev hprev p,
          exceptBindOk]
        rw [show (ctxPost ctx [p]
              ++ [{ lab := l, pre := walkA A prev ++ [Sum.inl p],
                    post := ([] : List (Nat ⊕ BTree)) }])
            = ctxPost ctx [p]
              ++ { lab := l, pre := walkA A prev ++ [Sum.inl p],
                   post := entryB none } :: entryCH none from rfl]
        have hrec := (ihN rest
            (by simp only [List.cons.sizeOf_spec] at hsz; omega)).2
          l (wfElems_cons_tok p rest hwf) hl
          ancL hanc (ctxPost ctx [p]) (by rw [ctxPost_length]; exact hlen)
          out suffix (p + 1) (k - 1) hrest
          (walkA A prev ++ [Sum.inl p]) none (by intro c0 h0; cases h0)
        rw [hrec]
        rw [show p + 1 + (k - 1) = p + k from by omega]
        rw [ctxPost_compose]
        rw [show ([p] : List Nat) ++ List.range' (p + 1) (k - 1)
            = List.range' p k from by
          rw [show ([p] : List Nat) ++ List.range' (p + 1) (k - 1)
              = p :: List.range' (p + 1) (k - 1) from rfl,
            range'_cons_eq p k (by omega)]]
        rw [walkParts_tok]
      | .inr c :: rest =>
        obtain ⟨hwfc, hwfrest⟩ := wfElems_cons_span c rest hwf
        obtain ⟨lc, esc⟩ := c
        obtain ⟨hlc, -, -, hwfesc⟩ := wfTree_node lc esc hwfc
        rw [BTree.toksElems] at htoks
        obtain ⟨j, hjk, hc, hrest⟩ := List.range'_eq_append_iff.mp htoks.symm
        have hck := wfTree_toks_range _ hwfc
        have hj0 : j ≠ 0 := by
          intro h0
          subst h0
          rw [List.range'_zero] at hc
          exact hck.2 (by rw [hc]; rfl)
        have hcstart : (BTree.node lc esc).startIdx0 = p := by
          rw [BTree.startIdx0, hc, List.head?_range']
          simp [hj0]
        have hcend : (BTree.node lc esc).endIdx0 = p + j - 1 := by
          rw [BTree.endIdx0, hc, List.getLast?_range']
          simp [hj0]
        have hclen : (BTree.node lc esc).toks.length = j := by
          rw [hc, List.length_range']
        obtain ⟨fb2, rb, htb, hts⟩ := tagsOfTree_struct lc esc hwfc
        rw [walkStrings_span ancL l _ rest _ _ hts, List.cons_append, bioTokens,
          step_token_bopen out ancL hanc l hl ctx hlen A prev hprev p lc hlc fb2
            (fun s hs => tagsBelow_tagOk esc hwfesc fb2
              (htb ▸ List.mem_cons_self _ _) s hs)]
        have hstr : (rb.map (fun ts => ("I-" ++ lc) :: ts)).map
              (fun ts => joinTags (ancTags ancL ++ ("I-" ++ l) :: ts))
            = treeTailStrings (ancL ++ [l]) lc esc := by
          rw [strings_shift, treeTailStrings, htb]
          rfl
        rw [hstr, List.append_assoc (treeTailStrings (ancL ++ [l]) lc esc)
          (walkStrings ancL l rest) suffix]
        have hrec := (ihN esc
            (by simp only [List.cons.sizeOf_spec, Sum.inr.sizeOf_spec,
              BTree.node.sizeOf_spec] at hsz; omega)).1
          lc hwfc (ancL ++ [l])
          (by
            intro x hx
            rcases List.mem_append.mp hx with h | h
            · exact hanc x h
            · rcases List.mem_cons.mp h with rfl | h2
              · exact hl
              · cases h2)
          (ctxPost ctx [p]
            ++ [{ lab := l, pre := walkA A prev ++ [Sum.inl p], post := [] }])
          (by simp [ctxPost_length, hlen])
          out (walkStrings ancL l rest ++ suffix)
          p j hcstart.symm hclen.symm
          fb2 (by rw [htb]; rfl)
          (ctx.length + 2 + fb2.length) (ctx.length + 2)
          (by simp [ctxPost_length])
          (by simp [ctxPost_length])
          (if fb2 = [] then [Sum.inl p] else ([] : List (Nat ⊕ BTree)))
          (by
            cases fb2 with
            | nil => exact Or.inl ⟨rfl, by simp⟩
            | cons a r => exact Or.inr ⟨by simp, by simp⟩)
        rw [hrec]
        rw [ctxPost_append, ctxPost_compose]
        rw [show ctxPost [{ lab := l,
                            pre := walkA A prev ++ [Sum.inl p],
                            post := [] }] (List.range' (p + 1) (j - 1))
            = [{ lab := l, pre := walkA A prev ++ [Sum.inl p],
                 post := (List.range' (p + 1) (j - 1)).map Sum.inl }] from by
          simp [ctxPost]]
        rw [show (ctxPost ctx ([p] ++ List.range' (p + 1) (j - 1))
              ++ [{ lab := l, pre := walkA A prev ++ [Sum.inl p],
                    post := (List.range' (p + 1) (j - 1)).map Sum.inl }])
              ++ openChain (BTree.node lc esc)
            = ctxPost ctx ([p] ++ List.range' (p + 1) (j - 1))
              ++ { lab := l, pre := walkA A prev ++ [Sum.inl p],
                   post := (List.range' (p + 1) (j - 1)).map Sum.inl }
                :: openChain (BTree.node lc esc) from by simp]
        have hpost : (List.range' (p + 1) (j - 1)).map Sum.inl
            = entryB (some (BTree.node lc esc)) := by
          rw [show entryB (some (BTree.node lc esc))
              = innerToks (BTree.node lc esc).startIdx0
                  (BTree.node lc esc).endIdx0 from rfl,
            innerToks, hcstart, hcend,
            show p + j - 1 - p = j - 1 from by omega]
        rw [hpost,
          show openChain (BTree.node lc esc)
            = entryCH (some (BTree.node lc esc)) from rfl]
        have hrec2 := (ihN rest
            (by simp only [List.cons.sizeOf_spec] at hsz; omega)).2
          l hwfrest hl ancL hanc
          (ctxPost ctx ([p] ++ List.range' (p + 1) (j - 1)))
          (by rw [ctxPost_length]; exact hlen)
          out suffix (p + j) (k - j) hrest
          (walkA A prev ++ [Sum.inl p]) (some (BTree.node lc esc))
          (by intro c0 h0; cases h0; exact hwfc)
        rw [hrec2]
        rw [show p + j + (k - j) = p + k from by omega]
        rw [ctxPost_compose, List.append_assoc ([p] : List Nat)
          (List.range' (p + 1) (j - 1)) (List.range' (p + j) (k - j))]
        rw [range'_glue p j k (by omega) (by omega)]
        rw [show ([p] : List Nat) ++ List.range' (p + 1) (k - 1)
            = List.range' p k from by
          rw [show ([p] : List Nat) ++ List.range' (p + 1) (k - 1)
              = p :: List.range' (p + 1) (k - 1) from rfl,
            range'_cons_eq p k (by omega)]]
        rw [walkParts_span, hcstart]

/-- Decoding a span after its `B-` level has pushed the span's frame. -/
theorem decode_tree (l : String) (es : List (Nat ⊕ BTree)) :
    TreeStmt l es :=
  (decode_main (sizeOf es) es (Nat.le_refl _)).1 l

/-- Walking the remaining elements of a node. -/
theorem decode_elems (l : String) (es : List (Nat ⊕ BTree)) :
    ElemsStmt l es :=
  (decode_main (sizeOf es) es (Nat.le_refl _)).2 l

/-! ### Phase B: top-level assembly -/

/-- The final collapse of `span_from_BIO_annotation` applied to the state
the token loop ends in. -/
def finishStack (st : List BTree × List Frame) : List BTree :=
  match collapseStack st.2 with
  | none => st.1
  | some t => st.1 ++ [t]

theorem spanFromBIOAnn_map (annos : List String) :
    spanFromBIOAnn annos = (bioTokens 0 annos ([], [])).map finishStack := by
  rw [spanFromBIOAnn]
  cases h : bioTokens 0 annos ([], []) with
  | error e => rfl
  | ok st =>
    rw [exceptBindOk]
    cases hc : collapseStack st.2 with
    | none =>
      have hf : finishStack st = st.1 := by rw [finishStack, hc]
      show (pure st.1 : Except String (List BTree))
          = Except.map finishStack (Except.ok st)
      rw [show Except.map finishStack (Except.ok st)
          = Except.ok (finishStack st) from rfl, hf]
      rfl
    | some t =>
      have hf : finishStack st = st.1 ++ [t] := by rw [finishStack, hc]
      show (pure (st.1 ++ [t]) : Except String (List BTree))
          = Except.map finishStack (Except.ok st)
      rw [show Except.map finishStack (Except.ok st)
          = Except.ok (finishStack st) from rfl, hf]
      rfl

/-- The sentinel `O` on an empty stack leaves the state unchanged. -/
theorem bioToken_O_empty (out : List BTree) (p : Nat) :
    bioToken (out, []) p "O" = .ok (out, []) := rfl

/-- The sentinel `O` over the open chain of a well-formed span flushes
the whole decoded span to the output and empties the stack. -/
theorem bioToken_O_flush (t : BTree) (hwf : wfTree t = true)
    (out : List BTree) (p : Nat) :
    bioToken (out, openChain t) p "O" = .ok (out ++ [pyDecoded t], []) := by
  rw [bioToken, if_pos (Or.inl rfl)]
  dsimp only
  rw [collapseStack_openChain t hwf]

/-- A run of `O` positions on an empty stack is a no-op. -/
theorem bioTokens_Os (g : Nat) : ∀ (p : Nat) (out : List BTree)
    (suffix : List String),
    bioTokens p (List.replicate g "O" ++ suffix) (out, [])
      = bioTokens (p + g) suffix (out, []) := by
  induction g with
  | zero => intro p out suffix; rfl
  | succ k ih =>
    intro p out suffix
    rw [show List.replicate (k + 1) "O" = "O" :: List.replicate k "O"
      from rfl]
    rw [List.cons_append, bioTokens, bioToken_O_empty, exceptBindOk, ih]
    rw [show p + 1 + k = p + (k + 1) from by omega]

/-- A root span decoded from the empty stack: its tag strings push the
span's level-0 frame and rebuild the whole open chain. -/
theorem decode_root (t : BTree) (hwf : wfTree t = true) (out : List BTree)
    (suffix : List String) :
    bioTokens t.startIdx0 ((tagsOfTree t).map joinTags ++ suffix) (out, [])
      = bioTokens (t.startIdx0 + t.toks.length) suffix
          (out, openChain t) := by
  obtain ⟨l, es⟩ := t
  obtain ⟨hl, hne, hcons, hwfes⟩ := wfTree_node l es hwf
  obtain ⟨fb, rb, htb, hts⟩ := tagsOfTree_struct l es hwf
  have hmap : (tagsOfTree (BTree.node l es)).map joinTags
      = joinTags (("B-" ++ l) :: fb)
        :: treeTailStrings ([] : List String) l es := by
    rw [hts, List.map_cons, treeTailStrings, htb]
    rw [show (fb :: rb).tail = rb from rfl]
    rw [List.map_map]
    congr 1
  rw [hmap, List.cons_append, bioTokens]
  have htagok : ∀ s ∈ ("B-" ++ l) :: fb, tagOkP s := by
    intro s hs
    rcases List.mem_cons.mp hs with rfl | hs2
    · exact ⟨l, hl, Or.inl rfl⟩
    · exact tagsBelow_tagOk es hwfes fb (htb ▸ List.mem_cons_self _ _) s hs2
  rw [bioToken_layers out [] (BTree.node l es).startIdx0
    (("B-" ++ l) :: fb) (by simp) htagok]
  rw [cutStack_of_le [] _ (by simp)]
  have hstep := bioLevels_bpush_at (BTree.node l es).startIdx0
    (("B-" ++ l) :: fb).length fb out [] 0 rfl l hl
  rw [hstep]
  have hite : (if (0 : Nat) < (("B-" ++ l) :: fb).length - 1
        then ([] : List (Nat ⊕ BTree))
        else [Sum.inl (BTree.node l es).startIdx0])
      = (if fb = [] then [Sum.inl (BTree.node l es).startIdx0] else []) := by
    cases fb with
    | nil => simp
    | cons a r => simp
  rw [hite]
  have hrec := decode_tree l es hwf ([] : List String)
    (by intro x hx; cases hx)
    ([] : List Frame) rfl out suffix
    (BTree.node l es).startIdx0 (BTree.node l es).toks.length rfl rfl
    fb (by rw [htb]; rfl)
    (("B-" ++ l) :: fb).length 1
    (by simp only [List.length_cons, List.length_nil]; omega)
    rfl
    (if fb = [] then [Sum.inl (BTree.node l es).startIdx0] else [])
    (by
      cases fb with
      | nil => exact Or.inl ⟨rfl, by simp⟩
      | cons a r => exact Or.inr ⟨by simp, by simp⟩)
  rw [hrec]
  rw [show ctxPost [] (List.range' ((BTree.node l es).startIdx0 + 1)
        ((BTree.node l es).toks.length - 1)) = ([] : List Frame) from rfl]
  rw [List.nil_append]

/-- The expected encoder output, segment by segment: an `O` gap before
each root followed by the root's tag strings, and a trailing `O` run. -/
def buildStrings : List BTree → Nat → Nat → List String
  | [], pos, n => List.replicate (n - pos) "O"
  | t :: rest, pos, n =>
    List.replicate (t.startIdx0 - pos) "O" ++ (tagsOfTree t).map joinTags
      ++ buildStrings rest (t.endIdx0 + 1) n

theorem buildStrings_cons_O (t2 : BTree) (rest2 : List BTree) (pos n : Nat)
    (h : pos < t2.startIdx0) :
    buildStrings (t2 :: rest2) pos n
      = "O" :: buildStrings (t2 :: rest2) (pos + 1) n := by
  rw [buildStrings, buildStrings,
    show t2.startIdx0 - pos = (t2.startIdx0 - (pos + 1)) + 1 from by omega,
    List.replicate_succ, List.cons_append, List.cons_append]

/-- Decoding the expected strings of a well-formed forest from an empty
stack: after the final collapse the output is the decoded forest. -/
theorem decode_forest (spans : List BTree) : ∀ (pos n : Nat)
    (out : List BTree),
    wfForestFrom spans pos n = true → pos ≤ n →
    (bioTokens pos (buildStrings spans pos n) (out, [])).map finishStack
      = .ok (out ++ spans.map pyDecoded) := by
  induction spans with
  | nil =>
    intro pos n out hwf hpn
    rw [buildStrings]
    rw [show List.replicate (n - pos) "O"
        = List.replicate (n - pos) "O" ++ ([] : List String) from by simp]
    rw [bioTokens_Os, bioTokens_nil]
    rw [show Except.map finishStack
          (Except.ok ((out, []) : List BTree × List Frame))
        = Except.ok (finishStack (out, [])) from rfl]
    rw [show finishStack ((out, []) : List BTree × List Frame) = out from rfl]
    simp
  | cons t rest ih =>
    intro pos n out hwf hpn
    obtain ⟨hwft, hms, hend, hrest⟩ := wfForestFrom_cons t rest pos n hwf
    have hendeq := wfTree_endIdx t hwft
    have hm1 := (wfTree_toks_range t hwft).2
    rw [buildStrings,
      List.append_assoc (List.replicate (t.startIdx0 - pos) "O")
        ((tagsOfTree t).map joinTags)
        (buildStrings rest (t.endIdx0 + 1) n)]
    rw [bioTokens_Os,
      show pos + (t.startIdx0 - pos) = t.startIdx0 from by omega]
    rw [decode_root t hwft out (buildStrings rest (t.endIdx0 + 1) n)]
    rw [show t.startIdx0 + t.toks.length = t.endIdx0 + 1 from by omega]
    cases rest with
    | nil =>
      rw [buildStrings]
      cases hg : n - (t.endIdx0 + 1) with
      | zero =>
        rw [show List.replicate 0 "O" = ([] : List String) from rfl,
          bioTokens_nil]
        rw [show Except.map finishStack
              (Except.ok ((out, openChain t) : List BTree × List Frame))
            = Except.ok (finishStack (out, openChain t)) from rfl]
        rw [show finishStack (out, openChain t)
            = match collapseStack (openChain t) with
              | none => out
              | some c => out ++ [c] from rfl]
        rw [collapseStack_openChain t hwft]
        simp
      | succ g =>
        rw [List.replicate_succ, bioTokens, bioToken_O_flush t hwft,
          exceptBindOk]
        rw [show List.replicate g "O"
            = List.replicate g "O" ++ ([] : List String) from by simp]
        rw [bioTokens_Os, bioTokens_nil]
        rw [show Except.map finishStack
              (Except.ok ((out ++ [pyDecoded t], [])
                : List BTree × List Frame))
            = Except.ok (finishStack (out ++ [pyDecoded t], []))
          from rfl]
        rw [show finishStack ((out ++ [pyDecoded t], [])
              : List BTree × List Frame)
            = out ++ [pyDecoded t] from rfl]
        simp
    | cons t2 rest2 =>
      obtain ⟨hwft2, hms2, hend2, -⟩ :=
        wfForestFrom_cons t2 rest2 (t.endIdx0 + 2) n hrest
      have hm2 := (wfTree_toks_range t2 hwft2).2
      have hend2eq := wfTree_endIdx t2 hwft2
      rw [buildStrings_cons_O t2 rest2 (t.endIdx0 + 1) n (by omega)]
      rw [bioTokens, bioToken_O_flush t hwft, exceptBindOk]
      rw [ih (t.endIdx0 + 2) n (out ++ [pyDecoded t]) hrest (by omega)]
      simp

/-! ### Phase B: the encoder's fold produces the segment strings -/

theorem appendJoin_ne_join (ts : List String) : ∀ (cur : String),
    ts ≠ [] → cur ≠ "" →
    appendJoin cur ts = cur ++ "|" ++ joinTags ts := by
  induction ts with
  | nil => intro cur h _; exact absurd rfl h
  | cons t rest ih =>
    intro cur _ hcur
    rw [appendJoin, if_neg hcur]
    cases rest with
    | nil => rfl
    | cons u r =>
      rw [ih (cur ++ "|" ++ t) (by simp) (by
        intro hc
        have := congrArg String.data hc
        rw [strDataAppend, strDataAppend] at this
        simp at this)]
      rw [show joinTags (t :: u :: r) = t ++ "|" ++ joinTags (u :: r)
        from rfl]
      rw [String.append_assoc, String.append_assoc, String.append_assoc,
        String.append_assoc, String.append_assoc t "|" (joinTags (u :: r))]

theorem appendJoin_empty_join (ts : List String) (hne : ts ≠ [])
    (hhd : ts.headD "" ≠ "") :
    appendJoin "" ts = joinTags ts := by
  cases ts with
  | nil => exact absurd rfl hne
  | cons t rest =>
    rw [appendJoin, if_pos rfl]
    cases rest with
    | nil => rfl
    | cons u r =>
      rw [appendJoin_ne_join (u :: r) t (by simp)
        (by simpa using hhd)]
      rfl

theorem tagOk_ne_empty (s : String) (h : tagOkP s) : s ≠ "" := by
  intro hc
  have := (tagOk_facts s h).1
  rw [hc] at this
  exact this rfl

theorem joinTags_ne_empty (t : String) (rest : List String)
    (ht : tagOkP t) : joinTags (t :: rest) ≠ "" := by
  obtain ⟨c, hc, -⟩ := joinTags_head_tag t rest ht
  intro h0
  rw [h0] at hc
  cases hc

theorem getD_append_len (P : List String) (q0 : String) (Q : List String) :
    (P ++ q0 :: Q).getD P.length "" = q0 := by
  induction P with
  | nil => rfl
  | cons a r ih => simpa using ih

theorem set_append_len (P : List String) (q0 v : String) (Q : List String) :
    (P ++ q0 :: Q).set P.length v = P ++ v :: Q := by
  induction P with
  | nil => rfl
  | cons a r ih => simpa using ih

theorem applyTags_concat (layers : List (List String)) :
    ∀ (P Q : List String), layers.length ≤ Q.length →
    applyTags (P ++ Q) P.length layers
      = P ++ List.zipWith (fun q ts => appendJoin q ts)
          (Q.take layers.length) layers ++ Q.drop layers.length := by
  induction layers with
  | nil => intro P Q _; simp [applyTags]
  | cons ts rest ih =>
    intro P Q h
    cases Q with
    | nil => simp at h
    | cons q0 Q2 =>
      rw [applyTags, getD_append_len, set_append_len]
      rw [show P ++ appendJoin q0 ts :: Q2
          = (P ++ [appendJoin q0 ts]) ++ Q2 from by simp]
      rw [show P.length + 1 = (P ++ [appendJoin q0 ts]).length from by simp]
      rw [ih (P ++ [appendJoin q0 ts]) Q2 (by simpa using h)]
      simp

theorem zipWith_replicate_appendJoin (layers : List (List String)) :
    List.zipWith (fun q ts => appendJoin q ts)
        (List.replicate layers.length "") layers
      = layers.map (fun ts => appendJoin "" ts) := by
  induction layers with
  | nil => rfl
  | cons ts rest ih =>
    rw [show List.replicate (ts :: rest).length ""
        = "" :: List.replicate rest.length "" from rfl,
      List.zipWith_cons_cons, List.map_cons, ih]

theorem applyTags_concat_at (layers : List (List String))
    (P Q : List String) (i : Nat) (hi : i = P.length)
    (h : layers.length ≤ Q.length) :
    applyTags (P ++ Q) i layers
      = P ++ List.zipWith (fun q ts => appendJoin q ts)
          (Q.take layers.length) layers ++ Q.drop layers.length := by
  subst hi
  exact applyTags_concat layers P Q h

/-- The raw sentence after the encoder's fold: empty strings at
unannotated positions, accumulated joins at span positions. -/
def rawBuild : List BTree → Nat → Nat → List String
  | [], pos, n => List.replicate (n - pos) ""
  | t :: rest, pos, n =>
    List.replicate (t.startIdx0 - pos) ""
      ++ (tagsOfTree t).map (fun ts => appendJoin "" ts)
      ++ rawBuild rest (t.endIdx0 + 1) n

theorem wfForestFrom_mono (spans : List BTree) : ∀ (ms ms2 n : Nat),
    wfForestFrom spans ms n = true → ms2 ≤ ms →
    wfForestFrom spans ms2 n = true := by
  cases spans with
  | nil => intro ms ms2 n _ _; rfl
  | cons t rest =>
    intro ms ms2 n hwf hle
    obtain ⟨hwft, hms, hend, hrest⟩ := wfForestFrom_cons t rest ms n hwf
    rw [wfForestFrom] at hwf ⊢
    rw [Bool.and_eq_true] at hwf ⊢
    refine ⟨hwf.1, ?_⟩
    have h2 := hwf.2
    cases hh : t.toks.head? with
    | none => rw [hh] at h2; cases t.toks.getLast? <;> simp at h2
    | some a =>
      cases hg : t.toks.getLast? with
      | none => rw [hh, hg] at h2; simp at h2
      | some b =>
        rw [hh, hg] at h2
        show (decide (ms2 ≤ a) && decide (b < n)
          && wfForestFrom rest (b + 2) n) = true
        simp only [Bool.and_eq_true, decide_eq_true_eq] at h2 ⊢
        exact ⟨⟨by omega, h2.1.2⟩, h2.2⟩

theorem foldBuild (spans : List BTree) : ∀ (pos n : Nat) (P : List String),
    wfForestFrom spans pos n = true → pos ≤ n → P.length = pos →
    spans.foldl (fun bio t => applyTags bio t.startIdx0 (tagsOfTree t))
        (P ++ List.replicate (n - pos) "")
      = P ++ rawBuild spans pos n := by
  induction spans with
  | nil => intro pos n P _ _ _; rw [List.foldl_nil, rawBuild]
  | cons t rest ih =>
    intro pos n P hwf hpn hP
    obtain ⟨hwft, hms, hend, hrest⟩ := wfForestFrom_cons t rest pos n hwf
    have hendeq := wfTree_endIdx t hwft
    have hm1 := (wfTree_toks_range t hwft).2
    have hlay := tagsOfTree_length t
    rw [List.foldl_cons]
    rw [show n - pos = (t.startIdx0 - pos) + (n - t.startIdx0) from by omega,
      List.replicate_add, ← List.append_assoc]
    have happ := applyTags_concat_at (tagsOfTree t)
      (P ++ List.replicate (t.startIdx0 - pos) "")
      (List.replicate (n - t.startIdx0) "")
      t.startIdx0 (by simp [hP]; omega) (by simp [hlay]; omega)
    rw [happ]
    rw [List.take_replicate, List.drop_replicate]
    rw [show (tagsOfTree t).length ⊓ (n - t.startIdx0)
        = (tagsOfTree t).length from by simp [hlay]; omega]
    rw [zipWith_replicate_appendJoin]
    rw [show n - t.startIdx0 - (tagsOfTree t).length = n - (t.endIdx0 + 1)
      from by omega]
    rw [ih (t.endIdx0 + 1) n
      (P ++ List.replicate (t.startIdx0 - pos) ""
        ++ (tagsOfTree t).map (fun ts => appendJoin "" ts))
      (wfForestFrom_mono rest (t.endIdx0 + 2) (t.endIdx0 + 1) n hrest
        (by omega))
      (by omega)
      (by simp [hP, hlay]; omega)]
    rw [rawBuild]
    simp

theorem layer_subst_join (t : BTree) (hwf : wfTree t = true)
    (ts : List String) (hts : ts ∈ tagsOfTree t) :
    (if appendJoin "" ts = "" then "O" else appendJoin "" ts)
      = joinTags ts := by
  obtain ⟨l, es⟩ := t
  obtain ⟨hl, -, -, hwfes⟩ := wfTree_node l es hwf
  obtain ⟨fb, rb, htb, hts2⟩ := tagsOfTree_struct l es hwf
  rw [hts2] at hts
  have hcons : ∃ h r, ts = h :: r ∧ tagOkP h := by
    rcases List.mem_cons.mp hts with rfl | hmem
    · exact ⟨_, _, rfl, ⟨l, hl, Or.inl rfl⟩⟩
    · obtain ⟨below, -, rfl⟩ := List.mem_map.mp hmem
      exact ⟨_, _, rfl, ⟨l, hl, Or.inr rfl⟩⟩
  obtain ⟨h, r, rfl, hok⟩ := hcons
  rw [appendJoin_empty_join (h :: r) (by simp)
    (by simpa using tagOk_ne_empty h hok)]
  rw [if_neg (joinTags_ne_empty h r hok)]

theorem rawBuild_map (spans : List BTree) : ∀ (pos n : Nat),
    wfForestFrom spans pos n = true →
    (rawBuild spans pos n).map (fun s => if s = "" then "O" else s)
      = buildStrings spans pos n := by
  induction spans with
  | nil =>
    intro pos n _
    rw [rawBuild, buildStrings, List.map_replicate]
    rfl
  | cons t rest ih =>
    intro pos n hwf
    obtain ⟨hwft, hms, hend, hrest⟩ := wfForestFrom_cons t rest pos n hwf
    rw [rawBuild, buildStrings, List.map_append, List.map_append,
      List.map_replicate]
    congr 1
    congr 1
    · rw [List.map_map]
      apply List.map_congr_left
      intro ts hts
      exact layer_subst_join t hwft ts hts
    · exact ih (t.endIdx0 + 1) n
        (wfForestFrom_mono rest (t.endIdx0 + 2) (t.endIdx0 + 1) n hrest
          (by omega))

/-- On a well-formed forest the encoder's output is exactly the
segment-by-segment string list. -/
theorem forestStrings_eq (spans : List BTree) (n : Nat)
    (hwf : wfForest spans n = true) :
    forestStrings spans n = buildStrings spans 0 n := by
  have hwf0 : wfForestFrom spans 0 n = true := hwf
  rw [forestStrings]
  rw [show (List.replicate n "" : List String)
      = [] ++ List.replicate (n - 0) "" from by simp]
  rw [foldBuild spans 0 n [] hwf0 (Nat.zero_le n) rfl]
  rw [List.nil_append]
  exact rawBuild_map spans 0 n hwf0

theorem wfForestFrom_wfTree (spans : List BTree) : ∀ (ms n : Nat),
    wfForestFrom spans ms n = true → ∀ t ∈ spans, wfTree t = true := by
  induction spans with
  | nil => intro ms n _ t ht; cases ht
  | cons s rest ih =>
    intro ms n hwf t ht
    obtain ⟨hwfs, -, -, hrest⟩ := wfForestFrom_cons s rest ms n hwf
    rcases List.mem_cons.mp ht with rfl | ht2
    · exact hwfs
    · exact ih (s.endIdx0 + 2) n hrest t ht2

/-! ## Claim C1 (amended round trip) -/

/-- C1 (amended): for a well-formed forest — clean labels (free of `-`,
`|` and whitespace), each span covering a nonempty contiguous run of
token positions, and top-level spans ordered inside the sentence with at
least one untagged token between consecutive roots —
`span_from_BIO_annotation` inverts `span_to_BIO_annotation`: the round
trip succeeds and returns the decoder's canonical form of each root, a
forest isomorphic to the input (same labels, token sets and nesting
structure). -/
theorem C1_amended (spans : List BTree) (n : Nat)
    (hwf : wfForest spans n = true) :
    roundTrip spans n = .ok (spans.map pyDecoded)
    ∧ isoForest (spans.map pyDecoded) spans = true := by
  have hwf0 : wfForestFrom spans 0 n = true := hwf
  constructor
  · rw [roundTrip, spanToBIOAnn_eq spans n hwf]
    rw [show (Except.ok (forestStrings spans n)
          : Except String (List String)).bind spanFromBIOAnn
        = spanFromBIOAnn (forestStrings spans n) from rfl]
    rw [spanFromBIOAnn_map, forestStrings_eq spans n hwf]
    rw [decode_forest spans 0 n [] hwf0 (Nat.zero_le n)]
    rw [List.nil_append]
  · exact isoForest_pyDecoded spans (wfForestFrom_wfTree spans 0 n hwf0)

/-- A nested well-formed forest over 4 tokens used to instantiate the
amended round-trip law. -/
def c1WitSpans : List BTree :=
  [.node "A" [.inl 0, .inr (.node "B" [.inl 1]), .inl 2]]

theorem C1_witness :
    wfForest c1WitSpans 4 = true
    ∧ (roundTrip c1WitSpans 4 = .ok (c1WitSpans.map pyDecoded)
       ∧ isoForest (c1WitSpans.map pyDecoded) c1WitSpans = true) :=
  ⟨rfl, C1_amended c1WitSpans 4 rfl⟩
